import Mathlib

/-!
# SingleLinkedList (include/single_linked_list.h)

A shallow embedding of the C++ class template `SingleLinkedList<Type>` together with
proofs about its public operations.

## Modelling conventions

* Storage is an explicit `Memory`: a table of cells indexed by address.  Address `0` is
  `nullptr`.  A cell is `none` when no `Node` lives there (never allocated, or deleted).
* `new Node(..)` takes the lowest address that was never handed out (the table's length);
  it throws `std::bad_alloc` once the 64-bit address space is used up.
* Reading or writing through a pointer to a cell that holds no node is undefined
  behaviour; the model stops with `Fault.undefined_behavior`.
* `size_t` is 64 bits wide: `++size_` and `--size_` wrap modulo `2 ^ 64`.
* The member `Node head_` (the sentinel) is a node of the memory as well, because
  iterators point to it (`before_begin_{ &head_ }`); the list object records its address.
* Loops whose trip count depends on pointers found in memory carry a step budget; the model
  stops with `Fault.out_of_fuel` when the budget is used up.
* A local list object that goes out of scope (the `temp` of `operator=`) is destroyed: its
  destructor runs `Clear()` and the cell of its sentinel is released.
* Statements about two lists `a` and `b` take them in one memory; distinct list objects own
  different cells (`Separate`), as every node has exactly one owner.
-/

namespace SLL

/-- Ways in which a run ends without a result. -/
inductive Fault where
  | bad_alloc
  | undefined_behavior
  | assertion_failed
  | out_of_fuel
  deriving DecidableEq, Repr

/-- Result of running a piece of code: a value or a fault. -/
abbrev Exec (β : Type) := Except Fault β

/-- Number of values of `size_t` and of addresses (64-bit target). -/
def SIZE_RANGE : Nat := 18446744073709551616

/-- The struct `Node`: a value and the raw pointer `next_node` (`0` is `nullptr`). -/
structure Node (α : Type) where
  value : α
  next_node : Nat
  deriving DecidableEq, Repr

/-- The free store: the cell at index `p` is the node living at address `p`, if any. -/
structure Memory (α : Type) where
  cells : List (Option (Node α))
  deriving DecidableEq, Repr

namespace Memory

variable {α : Type}

/-- The memory in which nothing is allocated; cell `0` stands for `nullptr`. -/
def empty : Memory α := ⟨[none]⟩

/-- The node stored at address `p`, if there is one. -/
def peek (m : Memory α) (p : Nat) : Option (Node α) := m.cells.getD p none

/-- Reading `*p`. -/
def load (m : Memory α) (p : Nat) : Exec (Node α) :=
  match m.peek p with
  | some n => .ok n
  | none => .error .undefined_behavior

/-- The assignment `p->next_node = q`. -/
def store_next (m : Memory α) (p q : Nat) : Exec (Memory α) :=
  match m.peek p with
  | some n => .ok ⟨m.cells.set p (some ⟨n.value, q⟩)⟩
  | none => .error .undefined_behavior

/-- The expression `new Node(value, next)`, also used for the storage of a list object's
sentinel: returns the address of the new node. -/
def new (m : Memory α) (n : Node α) : Exec (Nat × Memory α) :=
  if m.cells.length < SIZE_RANGE then .ok (m.cells.length, ⟨m.cells ++ [some n]⟩)
  else .error .bad_alloc

/-- The statement `delete p`. -/
def delete (m : Memory α) (p : Nat) : Exec (Memory α) :=
  if p = 0 then .ok m
  else match m.peek p with
    | some _ => .ok ⟨m.cells.set p none⟩
    | none => .error .undefined_behavior

end Memory

/-- The class `BasicIterator<ValueType>`; `Iterator` and `ConstIterator` differ only in the
constness of the reference they give out, so one structure models both. -/
structure BasicIterator where
  node_ : Nat := 0
  deriving DecidableEq, Repr

namespace BasicIterator

variable {α : Type}

/-- Member `BasicIterator::operator==`. -/
def operator_eq (a b : BasicIterator) : Bool := a.node_ == b.node_

/-- Member `BasicIterator::operator!=`. -/
def operator_ne (a b : BasicIterator) : Bool := !(a.operator_eq b)

/-- Member `BasicIterator::operator++` (the post-increment form moves the same way). -/
def operator_inc (m : Memory α) (it : BasicIterator) : Exec BasicIterator := do
  let n ← m.load it.node_
  pure ⟨n.next_node⟩

/-- Member `BasicIterator::operator*`. -/
def operator_deref (m : Memory α) (it : BasicIterator) : Exec α := do
  let n ← m.load it.node_
  pure n.value

end BasicIterator

/-- The data members of a `SingleLinkedList` object.  `head_` is the address at which the
member `Node head_` lives; its contents are in the memory. -/
structure SingleLinkedList where
  head_ : Nat
  size_ : Nat
  before_begin_ : BasicIterator
  end_ : BasicIterator
  deriving DecidableEq, Repr

/-- Operations a template parameter `Iterator` of the range constructor supplies. -/
structure InputIterator (α : Type) (I : Type) where
  ne : I → I → Bool
  deref : Memory α → I → Exec α
  inc : Memory α → I → Exec I

/-- Pointers into the array `values` (what `std::initializer_list::begin()` and `end()`
return): the pointer to element `i` is the index `i`. -/
def arrayIterator {α : Type} (values : List α) : InputIterator α Nat where
  ne := fun i j => i != j
  deref := fun _ i =>
    match values[i]? with
    | some x => .ok x
    | none => .error .undefined_behavior
  inc := fun _ i => .ok (i + 1)

/-- The list's own `ConstIterator` used as the range constructor's `Iterator`. -/
def listIterator {α : Type} : InputIterator α BasicIterator where
  ne := BasicIterator.operator_ne
  deref := BasicIterator.operator_deref
  inc := BasicIterator.operator_inc

namespace SingleLinkedList

variable {α : Type}

/-- The defaulted constructor `SingleLinkedList() = default` with the default member
initialisers: `head_ {}`, `size_ = 0`, `before_begin_{ &head_ }`, `end_{}`. -/
def default [Inhabited α] (m : Memory α) : Exec (Memory α × SingleLinkedList) := do
  let (a, m1) ← m.new ⟨Inhabited.default, 0⟩
  pure (m1, ⟨a, 0, ⟨a⟩, ⟨0⟩⟩)

/-- Member `GetSize`. -/
def GetSize (l : SingleLinkedList) : Nat := l.size_

/-- Member `IsEmpty`. -/
def IsEmpty (l : SingleLinkedList) : Bool := l.size_ == 0

/-- Member `begin` (and `cbegin`): an iterator built from `head_.next_node`. -/
def begin (m : Memory α) (l : SingleLinkedList) : Exec BasicIterator := do
  let hd ← m.load l.head_
  pure ⟨hd.next_node⟩

/-- Member `end` (and `cend`): returns `end_`. -/
def cend (l : SingleLinkedList) : BasicIterator := l.end_

/-- Member `before_begin` (and `cbefore_begin`): returns `before_begin_`. -/
def before_begin (l : SingleLinkedList) : BasicIterator := l.before_begin_

/-- Member `InsertAfter`. -/
def InsertAfter (m : Memory α) (l : SingleLinkedList) (pos : BasicIterator) (value : α) :
    Exec (Memory α × SingleLinkedList × BasicIterator) := do
  if pos.node_ = 0 then throw Fault.assertion_failed
  let pn ← m.load pos.node_
  let (new_node, m1) ← m.new ⟨value, pn.next_node⟩
  let m2 ← m1.store_next pos.node_ new_node
  pure (m2, { l with size_ := (l.size_ + 1) % SIZE_RANGE }, ⟨new_node⟩)

/-- Member `EraseAfter`. -/
def EraseAfter (m : Memory α) (l : SingleLinkedList) (pos : BasicIterator) :
    Exec (Memory α × SingleLinkedList × BasicIterator) := do
  if pos.node_ = 0 then
    pure (m, l, ⟨0⟩)
  else
    let pn ← m.load pos.node_
    let prev := pn.next_node
    let pv ← m.load prev
    let next_node := pv.next_node
    let m1 ← m.store_next pos.node_ next_node
    let l1 := { l with size_ := (l.size_ + (SIZE_RANGE - 1)) % SIZE_RANGE }
    let m2 ← m1.delete prev
    pure (m2, l1, ⟨next_node⟩)

/-- Member `PushFront`. -/
def PushFront (m : Memory α) (l : SingleLinkedList) (value : α) :
    Exec (Memory α × SingleLinkedList) := do
  let hd ← m.load l.head_
  let (a, m1) ← m.new ⟨value, hd.next_node⟩
  let m2 ← m1.store_next l.head_ a
  pure (m2, { l with size_ := (l.size_ + 1) % SIZE_RANGE })

/-- Member `PopFront`. -/
def PopFront (m : Memory α) (l : SingleLinkedList) : Exec (Memory α × SingleLinkedList) := do
  let hd ← m.load l.head_
  if hd.next_node ≠ 0 then
    let node := hd.next_node
    let nd ← m.load node
    let m1 ← m.store_next l.head_ nd.next_node
    let m2 ← m1.delete node
    pure (m2, { l with size_ := (l.size_ + (SIZE_RANGE - 1)) % SIZE_RANGE })
  else
    pure (m, l)

/-- The `for` loop of the range constructor, `fuel` bounding the number of tests of
`it != end`. -/
def rangeLoop {I : Type} (ops : InputIterator α I) (last : I) :
    Nat → Memory α → SingleLinkedList → BasicIterator → I → Exec (Memory α × SingleLinkedList)
  | 0, _, _, _, _ => .error .out_of_fuel
  | fuel + 1, m, l, pos, it =>
    if ops.ne it last then do
      let x ← ops.deref m it
      let (m1, l1, pos1) ← InsertAfter m l pos x
      let it1 ← ops.inc m1 it
      rangeLoop ops last fuel m1 l1 pos1 it1
    else
      pure (m, l)

/-- The range constructor `SingleLinkedList(Iterator begin, Iterator end)`. -/
def range [Inhabited α] {I : Type} (ops : InputIterator α I) (fuel : Nat) (m : Memory α)
    (first last : I) : Exec (Memory α × SingleLinkedList) := do
  let (m0, l0) ← SingleLinkedList.default m
  let hd ← m0.load l0.head_
  if ¬ (l0.size_ = 0 ∧ hd.next_node = 0) then throw Fault.assertion_failed
  let pos := l0.before_begin
  rangeLoop ops last fuel m0 l0 pos first

/-- The constructor `SingleLinkedList(std::initializer_list<Type> values)`. -/
def initializer_list [Inhabited α] (m : Memory α) (values : List α) :
    Exec (Memory α × SingleLinkedList) :=
  range (arrayIterator values) (values.length + 1) m 0 values.length

/-- The copy constructor: the range constructor run on `other.begin()`, `other.end()`.  The
budget is the number of cells of the memory, more than any list in it has nodes. -/
def copy [Inhabited α] (m : Memory α) (other : SingleLinkedList) :
    Exec (Memory α × SingleLinkedList) := do
  let first ← other.begin m
  range listIterator m.cells.length m first other.cend

/-- Member `swap`; returns the memory, `*this` and `other`. -/
def swap (m : Memory α) (self other : SingleLinkedList) :
    Exec (Memory α × SingleLinkedList × SingleLinkedList) := do
  let oh ← m.load other.head_
  let temp_head := oh.next_node
  let sh ← m.load self.head_
  let m1 ← m.store_next other.head_ sh.next_node
  let m2 ← m1.store_next self.head_ temp_head
  pure (m2, { self with size_ := other.size_ }, { other with size_ := self.size_ })

/-- The `while` loop of `Clear`, `fuel` bounding the number of tests of its condition. -/
def clearLoop : Nat → Memory α → SingleLinkedList → Exec (Memory α × SingleLinkedList)
  | 0, _, _ => .error .out_of_fuel
  | fuel + 1, m, l => do
    let hd ← m.load l.head_
    if hd.next_node ≠ 0 then
      let temp := hd.next_node
      let nd ← m.load temp
      let m1 ← m.store_next l.head_ nd.next_node
      let m2 ← m1.delete temp
      clearLoop fuel m2 { l with size_ := (l.size_ + (SIZE_RANGE - 1)) % SIZE_RANGE }
    else
      pure (m, l)

/-- Member `Clear`.  The budget is the number of cells of the memory. -/
def Clear (m : Memory α) (l : SingleLinkedList) : Exec (Memory α × SingleLinkedList) :=
  clearLoop m.cells.length m l

/-- The destructor `~SingleLinkedList()`, which calls `Clear()`, followed by the release of
the storage of the object (its sentinel). -/
def destroy (m : Memory α) (l : SingleLinkedList) : Exec (Memory α) := do
  let (m1, l1) ← Clear m l
  m1.delete l1.head_

/-- The copy assignment `operator=`: copy `rhs` into the local `temp`, swap with it, and
destroy `temp` on return; returns the memory and `*this`. -/
def operator_assign [Inhabited α] (m : Memory α) (self rhs : SingleLinkedList) :
    Exec (Memory α × SingleLinkedList) := do
  let (m1, temp) ← copy m rhs
  let (m2, self1, temp1) ← swap m1 self temp
  let m3 ← destroy m2 temp1
  pure (m3, self1)

end SingleLinkedList

/-- A client loop `for (auto it = first; it != last; ++it) out.push_back(*it);`: the values
met when walking from `first` to `last`. -/
def traverse {α : Type} :
    Nat → Memory α → BasicIterator → BasicIterator → Exec (List α)
  | 0, _, _, _ => .error .out_of_fuel
  | fuel + 1, m, it, last =>
    if it.operator_ne last then do
      let x ← it.operator_deref m
      let it1 ← it.operator_inc m
      let xs ← traverse fuel m it1 last
      pure (x :: xs)
    else
      pure []

/-- The values met when iterating a list from `begin()` to `end()`.  The budget is the number
of cells of the memory: a walk that visits more nodes than there are cells is in a cycle. -/
def SingleLinkedList.toList {α : Type} (m : Memory α) (l : SingleLinkedList) :
    Exec (List α) := do
  let first ← l.begin m
  traverse m.cells.length m first l.cend

/-- The three-iterator `std::equal(first1, last1, first2)` of the C++ standard library:
`for (; first1 != last1; ++first1, ++first2) if (!(*first1 == *first2)) return false;`
then `return true;`. -/
def std_equal {α : Type} [DecidableEq α] :
    Nat → Memory α → BasicIterator → BasicIterator → BasicIterator → Exec Bool
  | 0, _, _, _, _ => .error .out_of_fuel
  | fuel + 1, m, first1, last1, first2 =>
    if first1.operator_ne last1 then do
      let x ← first1.operator_deref m
      let y ← first2.operator_deref m
      if ¬ (x = y) then
        pure false
      else
        let next1 ← first1.operator_inc m
        let next2 ← first2.operator_inc m
        std_equal fuel m next1 last1 next2
    else
      pure true

/-- The algorithm `std::lexicographical_compare(first1, last1, first2, last2)` of the C++
standard library:
`for (; first1 != last1 && first2 != last2; ++first1, ++first2)
   { if (*first1 < *first2) return true; if (*first2 < *first1) return false; }`
then `return first1 == last1 && first2 != last2;`. -/
def std_lexicographical_compare {α : Type} [LT α] [DecidableRel (fun (a b : α) => a < b)] :
    Nat → Memory α → BasicIterator → BasicIterator → BasicIterator → BasicIterator → Exec Bool
  | 0, _, _, _, _, _ => .error .out_of_fuel
  | fuel + 1, m, first1, last1, first2, last2 =>
    if first1.operator_ne last1 && first2.operator_ne last2 then do
      let x ← first1.operator_deref m
      let y ← first2.operator_deref m
      if x < y then
        pure true
      else if y < x then
        pure false
      else
        let next1 ← first1.operator_inc m
        let next2 ← first2.operator_inc m
        std_lexicographical_compare fuel m next1 last1 next2 last2
    else
      pure (first1.operator_eq last1 && first2.operator_ne last2)

section operators

variable {α : Type}

/-- Free function `operator==` on lists. -/
def operator_eq [DecidableEq α] (m : Memory α) (lhs rhs : SingleLinkedList) : Exec Bool := do
  let first1 ← lhs.begin m
  let first2 ← rhs.begin m
  std_equal m.cells.length m first1 lhs.cend first2

/-- Free function `operator!=` on lists. -/
def operator_ne [DecidableEq α] (m : Memory α) (lhs rhs : SingleLinkedList) : Exec Bool := do
  let r ← operator_eq m lhs rhs
  pure (!r)

variable [LT α] [DecidableRel (fun (a b : α) => a < b)]

/-- Free function `operator<` on lists. -/
def operator_lt (m : Memory α) (lhs rhs : SingleLinkedList) : Exec Bool := do
  let first1 ← lhs.begin m
  let first2 ← rhs.begin m
  std_lexicographical_compare m.cells.length m first1 lhs.cend first2 rhs.cend

/-- Free function `operator>=` on lists: `!(lhs < rhs)`. -/
def operator_ge (m : Memory α) (lhs rhs : SingleLinkedList) : Exec Bool := do
  let r ← operator_lt m lhs rhs
  pure (!r)

/-- Free function `operator<=` on lists: `rhs >= lhs`. -/
def operator_le (m : Memory α) (lhs rhs : SingleLinkedList) : Exec Bool :=
  operator_ge m rhs lhs

/-- Free function `operator>` on lists: `rhs < lhs`. -/
def operator_gt (m : Memory α) (lhs rhs : SingleLinkedList) : Exec Bool :=
  operator_lt m rhs lhs

end operators

/-- Free function `swap` on lists: `lhs.swap(rhs)`. -/
def swap {α : Type} (m : Memory α) (lhs rhs : SingleLinkedList) :
    Exec (Memory α × SingleLinkedList × SingleLinkedList) :=
  SingleLinkedList.swap m lhs rhs

/-! ## Specification vocabulary -/

section vocabulary

variable {α : Type}

/-- A memory is well formed when nothing lives at address `0` (`nullptr`) and every address
fits a 64-bit pointer. -/
def Memory.WF (m : Memory α) : Prop :=
  m.peek 0 = none ∧ 0 < m.cells.length ∧ m.cells.length ≤ SIZE_RANGE

/-- The nodes reached by following `next_node` from `p` hold the values `s`, in this order, and
the last of them has `next_node == nullptr`. -/
def Chain (m : Memory α) : Nat → List α → Prop
  | p, [] => p = 0
  | p, x :: s => ∃ n, m.peek p = some n ∧ n.value = x ∧ Chain m n.next_node s

/-- The pointer reached from `p` after `k` steps along `next_node` (`nullptr` when a step leaves
the allocated nodes). -/
def nthNode (m : Memory α) : Nat → Nat → Nat
  | p, 0 => p
  | p, k + 1 =>
    match m.peek p with
    | some n => nthNode m n.next_node k
    | none => 0

/-- Applying `operator++` to an iterator `k` times. -/
def advance (m : Memory α) : BasicIterator → Nat → Exec BasicIterator
  | it, 0 => pure it
  | it, k + 1 => do
    let it1 ← it.operator_inc m
    advance m it1 k

/-- The list object `l`, in memory `m`, is a well-formed list whose element sequence is `s`:
its sentinel is allocated, the chain hanging off `head_.next_node` holds `s`, `size_` is the
number of elements, `before_begin_` points to the sentinel and `end_` is null. -/
def Represents (m : Memory α) (l : SingleLinkedList) (s : List α) : Prop :=
  m.WF ∧ (∃ hd, m.peek l.head_ = some hd ∧ Chain m hd.next_node s) ∧
    l.size_ = s.length ∧ l.before_begin_ = ⟨l.head_⟩ ∧ l.end_ = ⟨0⟩

/-- The position `pos` refers to the element of index `i` of the list `l`: it is what
`begin()` becomes after `i` increments, and it is not `end()`. -/
def RefersTo (m : Memory α) (l : SingleLinkedList) (pos : BasicIterator) (i : Nat) : Prop :=
  (do let first ← l.begin m; advance m first i) = Except.ok pos ∧ pos.operator_ne l.cend = true

/-- Lexicographic order in the words of the specification: at the first index where the
sequences differ the left element is smaller, or the left sequence is a strict prefix of the
right one. -/
def LexLess [LT α] (a b : List α) : Prop :=
  (∃ i x y, a[i]? = some x ∧ b[i]? = some y ∧ a.take i = b.take i ∧ x < y) ∨
    (a.length < b.length ∧ b.take a.length = a)

/-- A client that builds two lists from brace-enclosed values, one after the other. -/
def twoLists [Inhabited α] (u v : List α) :
    Exec (Memory α × SingleLinkedList × SingleLinkedList) := do
  let (m1, a) ← SingleLinkedList.initializer_list Memory.empty u
  let (m2, b) ← SingleLinkedList.initializer_list m1 v
  pure (m2, a, b)

end vocabulary

/-! ## Auxiliary definitions used in the proofs -/

/-- The memory after `new Node(x, pos->next_node)` followed by `pos->next_node = new_node`. -/
def linkAfter {α : Type} (m : Memory α) (pos : Nat) (pn : Node α) (x : α) : Memory α :=
  Memory.mk ((m.cells ++ [some (Node.mk x pn.next_node)]).set pos
    (some (Node.mk pn.value m.cells.length)))

/-- The memory after `pos->next_node = prev->next_node` followed by `delete prev`. -/
def unlinkAfter {α : Type} (m : Memory α) (pos : Nat) (pn pv : Node α) : Memory α :=
  Memory.mk ((m.cells.set pos (some (Node.mk pn.value pv.next_node))).set pn.next_node none)

/-- Whether a chain holds given values can be computed by walking it. -/
def Chain.decide {α : Type} [DecidableEq α] (m : Memory α) :
    (p : Nat) → (s : List α) → Decidable (Chain m p s)
  | p, [] => inferInstanceAs (Decidable (p = 0))
  | p, x :: s =>
    match h : m.peek p with
    | none => isFalse (fun ⟨_, hn, _⟩ => by rw [h] at hn; cases hn)
    | some n =>
      if hv : n.value = x then
        match Chain.decide m n.next_node s with
        | isTrue hc => isTrue ⟨n, h, hv, hc⟩
        | isFalse hc => isFalse (fun ⟨n2, hn, _, hc2⟩ => by
            rw [h] at hn; cases hn; exact hc hc2)
      else
        isFalse (fun ⟨n2, hn, hv2, _⟩ => by rw [h] at hn; cases hn; exact hv hv2)

instance {α : Type} [DecidableEq α] (m : Memory α) (p : Nat) (s : List α) :
    Decidable (Chain m p s) := Chain.decide m p s

instance {α : Type} [DecidableEq α] (m : Memory α) : Decidable m.WF :=
  inferInstanceAs (Decidable (_ ∧ _ ∧ _))

/-- Whether the chain hanging off a sentinel cell holds given values can be computed. -/
def Chain.decideFrom {α : Type} [DecidableEq α] (m : Memory α) (s : List α) :
    (o : Option (Node α)) → Decidable (∃ hd, o = some hd ∧ Chain m hd.next_node s)
  | none => isFalse (fun ⟨_, hn, _⟩ => by cases hn)
  | some n =>
    match Chain.decide m n.next_node s with
    | isTrue hc => isTrue ⟨n, rfl, hc⟩
    | isFalse hc => isFalse (fun ⟨_, hn, hc2⟩ => by cases hn; exact hc hc2)

instance {α : Type} [DecidableEq α] (m : Memory α) (l : SingleLinkedList) (s : List α) :
    Decidable (Represents m l s) :=
  have : Decidable (∃ hd, m.peek l.head_ = some hd ∧ Chain m hd.next_node s) :=
    Chain.decideFrom m s (m.peek l.head_)
  inferInstanceAs (Decidable (_ ∧ _ ∧ _ ∧ _ ∧ _))

/-- The memory `m` still has, below address `bound`, the contents that `m0` had there. -/
def Agree {α : Type} (m0 m : Memory α) (bound : Nat) : Prop :=
  ∀ p, p < bound → m.peek p = m0.peek p

/-- The iterators `its 0, its 1, .., its v.length` form an input range that yields the values
`v`: each one but the last can be dereferenced and incremented, in any memory that still has
the contents of `m0` below `bound`, and only the last one compares equal to the last. -/
structure IsRange {α I : Type} (ops : InputIterator α I) (m0 : Memory α) (bound : Nat)
    (its : Nat → I) (v : List α) : Prop where
  ne : ∀ k, k ≤ v.length → ops.ne (its k) (its v.length) = decide (k ≠ v.length)
  deref : ∀ m, Agree m0 m bound → ∀ k x, v[k]? = some x → ops.deref m (its k) = Except.ok x
  inc : ∀ m, Agree m0 m bound → ∀ k, k < v.length → ops.inc m (its k) = Except.ok (its (k + 1))

/-- A sample memory: the list `{1, 2, 3}` with its sentinel at address `1`. -/
def sampleMemory : Memory Int :=
  ⟨[none, some ⟨0, 2⟩, some ⟨1, 3⟩, some ⟨2, 4⟩, some ⟨3, 0⟩]⟩

/-- The list object of the sample list `{1, 2, 3}`. -/
def sampleList : SingleLinkedList := ⟨1, 3, ⟨1⟩, ⟨0⟩⟩

/-- A sample memory holding an empty list with its sentinel at address `1`. -/
def emptySampleMemory : Memory Int := ⟨[none, some ⟨0, 0⟩]⟩

/-- The list object of the sample empty list. -/
def emptySampleList : SingleLinkedList := ⟨1, 0, ⟨1⟩, ⟨0⟩⟩

/-- A client that builds two lists from brace-enclosed values and compares them with `op`. -/
def onLiterals {α : Type} [Inhabited α]
    (op : Memory α → SingleLinkedList → SingleLinkedList → Exec Bool) (u v : List α) :
    Exec Bool := do
  let (m, a, b) ← twoLists u v
  op m a b

/-- A sample memory with two lists: `{1, 2}` (sentinel at `1`) and `{1, 2, 3}` (sentinel at
`4`). -/
def pairMemory : Memory Int :=
  ⟨[none, some ⟨0, 2⟩, some ⟨1, 3⟩, some ⟨2, 0⟩,
    some ⟨0, 5⟩, some ⟨1, 6⟩, some ⟨2, 7⟩, some ⟨3, 0⟩]⟩

/-- The list object of the sample list `{1, 2}` in `pairMemory`. -/
def pairFirst : SingleLinkedList := ⟨1, 2, ⟨1⟩, ⟨0⟩⟩

/-- The list object of the sample list `{1, 2, 3}` in `pairMemory`. -/
def pairSecond : SingleLinkedList := ⟨4, 3, ⟨4⟩, ⟨0⟩⟩

/-- The list objects `a` (with `na` nodes) and `b` (with `nb` nodes) own different cells: no
sentinel or node of the one is a sentinel or node of the other. -/
def Separate {α : Type} (m : Memory α) (a b : SingleLinkedList) (na nb : Nat) : Prop :=
  ∀ i, i ≤ na → ∀ j, j ≤ nb → nthNode m a.head_ i ≠ nthNode m b.head_ j

instance {α : Type} (m : Memory α) (a b : SingleLinkedList) (na nb : Nat) :
    Decidable (Separate m a b na nb) := by
  unfold Separate
  infer_instance

/-- A client loop that counts the nodes met from `p` until the null pointer. -/
def countFrom {α : Type} : Nat → Memory α → Nat → Exec Nat
  | 0, _, _ => .error .out_of_fuel
  | fuel + 1, m, p =>
    if p = 0 then
      pure 0
    else do
      let n ← m.load p
      let c ← countFrom fuel m n.next_node
      pure (c + 1)

/-- The number of real nodes reachable from the sentinel's `next_node`; the sentinel is not
counted. -/
def SingleLinkedList.countNodes {α : Type} (m : Memory α) (l : SingleLinkedList) : Exec Nat := do
  let hd ← m.load l.head_
  countFrom m.cells.length m hd.next_node

/-- The size invariant: the stored counter `size_` is the number of real nodes reachable from
the sentinel. -/
def SizeInvariant {α : Type} (m : Memory α) (l : SingleLinkedList) : Prop :=
  l.countNodes m = Except.ok l.size_

/-- A client that builds a list from `v`, copy-constructs a second list from it and pushes `x`
in front of the copy; returns what iterating the original and the copy then gives. -/
def copyThenPushFront {α : Type} [Inhabited α] (v : List α) (x : α) :
    Exec (List α × List α) := do
  let (m0, a) ← SingleLinkedList.initializer_list Memory.empty v
  let (m1, c) ← SingleLinkedList.copy m0 a
  let (m2, c2) ← SingleLinkedList.PushFront m1 c x
  let la ← a.toList m2
  let lc ← c2.toList m2
  pure (la, lc)

/-- The memory after member `swap` ran on two list objects whose sentinels live at `pa` and `pb`
and hold `na` and `nb`: the two `next_node` links are exchanged. -/
def swapMemory {α : Type} (m : Memory α) (pa pb : Nat) (na nb : Node α) : Memory α :=
  Memory.mk ((m.cells.set pb (some (Node.mk nb.value na.next_node))).set pa
    (some (Node.mk na.value nb.next_node)))

/-- The list object `l` is a well-formed list of the memory `m`, whatever its elements. -/
def WellFormed {α : Type} (m : Memory α) (l : SingleLinkedList) : Prop :=
  ∃ s : List α, Represents m l s

/-- The operations of the iterator type never end in a failed assertion. -/
def NoAssert {α I : Type} (ops : InputIterator α I) : Prop :=
  (∀ m it, ops.deref m it ≠ Except.error Fault.assertion_failed) ∧
    (∀ m it, ops.inc m it ≠ Except.error Fault.assertion_failed)

/-! ## Memory lemmas -/

section memory_lemmas

variable {α : Type}

theorem Memory.peek_eq (m : Memory α) (p : Nat) : m.peek p = (m.cells[p]?).getD none := by
  simp [Memory.peek, List.getD_eq_getElem?_getD]

theorem Memory.peek_lt {m : Memory α} {p : Nat} {n : Node α} (h : m.peek p = some n) :
    p < m.cells.length := by
  by_contra hlt
  rw [Memory.peek_eq, List.getElem?_eq_none (Nat.le_of_not_lt hlt)] at h
  simp at h

theorem Memory.peek_append (m : Memory α) (c : Option (Node α)) {p : Nat}
    (hp : p < m.cells.length) : (Memory.mk (m.cells ++ [c])).peek p = m.peek p := by
  simp [Memory.peek_eq, List.getElem?_append_left hp]

theorem Memory.peek_append_self (m : Memory α) (c : Option (Node α)) :
    (Memory.mk (m.cells ++ [c])).peek m.cells.length = c := by
  simp [Memory.peek_eq]

theorem Memory.peek_set_self (m : Memory α) (c : Option (Node α)) {q : Nat}
    (hq : q < m.cells.length) : (Memory.mk (m.cells.set q c)).peek q = c := by
  simp [Memory.peek_eq, List.getElem?_set_self hq]

theorem Memory.peek_set_ne (m : Memory α) (c : Option (Node α)) {p q : Nat} (h : p ≠ q) :
    (Memory.mk (m.cells.set q c)).peek p = m.peek p := by
  simp [Memory.peek_eq, List.getElem?_set_ne (Ne.symm h)]

theorem Memory.load_eq {m : Memory α} {p : Nat} {n : Node α} (h : m.peek p = some n) :
    m.load p = Except.ok n := by
  simp [Memory.load, h]

theorem Memory.load_null {m : Memory α} (h : m.WF) :
    m.load 0 = Except.error Fault.undefined_behavior := by
  simp [Memory.load, h.1]

theorem Memory.store_next_eq {m : Memory α} {p : Nat} {n : Node α} (h : m.peek p = some n)
    (q : Nat) : m.store_next p q = Except.ok (Memory.mk (m.cells.set p (some ⟨n.value, q⟩))) := by
  simp [Memory.store_next, h]

theorem Memory.new_eq {m : Memory α} (h : m.cells.length < SIZE_RANGE) (n : Node α) :
    m.new n = Except.ok (m.cells.length, Memory.mk (m.cells ++ [some n])) := by
  simp [Memory.new, h]

theorem Memory.delete_eq {m : Memory α} {p : Nat} {n : Node α} (h : m.peek p = some n)
    (hp : p ≠ 0) : m.delete p = Except.ok (Memory.mk (m.cells.set p none)) := by
  simp [Memory.delete, h, hp]

theorem Memory.WF.ne_null {m : Memory α} (h : m.WF) {p : Nat} {n : Node α}
    (hp : m.peek p = some n) : p ≠ 0 := by
  rintro rfl
  rw [h.1] at hp
  cases hp

theorem Memory.WF.append {m : Memory α} (h : m.WF) (hroom : m.cells.length < SIZE_RANGE)
    (c : Option (Node α)) : (Memory.mk (m.cells ++ [c])).WF := by
  refine ⟨?_, ?_, ?_⟩
  · rw [Memory.peek_append m c h.2.1]; exact h.1
  · simp
  · simp only [List.length_append, List.length_singleton]; omega

theorem Memory.WF.set {m : Memory α} (h : m.WF) {q : Nat} (hq : q ≠ 0)
    (c : Option (Node α)) : (Memory.mk (m.cells.set q c)).WF := by
  refine ⟨?_, ?_, ?_⟩
  · rw [Memory.peek_set_ne m c (Ne.symm hq)]; exact h.1
  · simpa using h.2.1
  · simpa using h.2.2

end memory_lemmas

/-! ## Chains of nodes -/

section chain_lemmas

variable {α : Type}

theorem chain_nil {m : Memory α} {p : Nat} : Chain m p [] ↔ p = 0 := Iff.rfl

theorem chain_cons {m : Memory α} {p : Nat} {x : α} {s : List α} :
    Chain m p (x :: s) ↔ ∃ n, m.peek p = some n ∧ n.value = x ∧ Chain m n.next_node s :=
  Iff.rfl

theorem nthNode_zero (m : Memory α) (p : Nat) : nthNode m p 0 = p := rfl

theorem nthNode_succ {m : Memory α} {p : Nat} {n : Node α} (h : m.peek p = some n) (k : Nat) :
    nthNode m p (k + 1) = nthNode m n.next_node k := by
  simp [nthNode, h]

/-- Two chains from the same pointer have the same length. -/
theorem chain_length_unique {m : Memory α} (hm : m.WF) :
    ∀ {s t : List α} {p : Nat}, Chain m p s → Chain m p t → s.length = t.length := by
  intro s
  induction s with
  | nil =>
    intro t p hs ht
    cases t with
    | nil => rfl
    | cons y t =>
      obtain ⟨n, hn, _, _⟩ := ht
      exact absurd hs (hm.ne_null hn)
  | cons x s ih =>
    intro t p hs ht
    obtain ⟨n, hn, _, hc⟩ := hs
    cases t with
    | nil => exact absurd ht (hm.ne_null hn)
    | cons y t =>
      obtain ⟨n2, hn2, _, hc2⟩ := ht
      rw [hn] at hn2
      cases hn2
      simp [ih hc hc2]

/-- The pointer reached after `k` steps starts the chain of the remaining values. -/
theorem chain_nth {m : Memory α} :
    ∀ {s : List α} {p : Nat} {k : Nat}, Chain m p s → k ≤ s.length →
      Chain m (nthNode m p k) (s.drop k) := by
  intro s
  induction s with
  | nil =>
    intro p k hs hk
    have : k = 0 := by simpa using hk
    subst this
    simpa using hs
  | cons x s ih =>
    intro p k hs hk
    cases k with
    | zero => simpa using hs
    | succ k =>
      obtain ⟨n, hn, _, hc⟩ := hs
      rw [nthNode_succ hn, List.drop_succ_cons]
      exact ih hc (by simpa using hk)

/-- Along a chain no pointer is met twice. -/
theorem nthNode_inj {m : Memory α} (hm : m.WF) {s : List α} {p i j : Nat} (hs : Chain m p s)
    (hi : i ≤ s.length) (hj : j ≤ s.length) (h : nthNode m p i = nthNode m p j) : i = j := by
  have h1 := chain_nth hs hi
  have h2 := chain_nth hs hj
  rw [h] at h1
  have := chain_length_unique hm h1 h2
  simp only [List.length_drop] at this
  omega

/-- Every node of a chain is allocated. -/
theorem chain_peek {m : Memory α} {s : List α} {p k : Nat} (hs : Chain m p s)
    (hk : k < s.length) : ∃ n, m.peek (nthNode m p k) = some n ∧ s[k]? = some n.value := by
  have h := chain_nth hs (Nat.le_of_lt hk)
  rw [List.drop_eq_getElem_cons hk] at h
  obtain ⟨n, hn, hv, _⟩ := h
  exact ⟨n, hn, by simp [List.getElem?_eq_getElem hk, hv]⟩

theorem nthNode_lt {m : Memory α} (hm : m.WF) {s : List α} {p k : Nat} (hs : Chain m p s)
    (hk : k ≤ s.length) : nthNode m p k < m.cells.length := by
  rcases Nat.lt_or_ge k s.length with h | h
  · obtain ⟨n, hn, _⟩ := chain_peek hs h
    exact Memory.peek_lt hn
  · have hk2 : k = s.length := Nat.le_antisymm hk h
    have h1 := chain_nth hs hk
    rw [hk2, List.drop_length] at h1
    have h0 : nthNode m p k = 0 := by rw [hk2]; exact h1
    rw [h0]
    exact hm.2.1

/-- A chain of `n` values uses `n` cells besides the null cell. -/
theorem chain_length_lt {m : Memory α} (hm : m.WF) {s : List α} {p : Nat} (hs : Chain m p s) :
    s.length < m.cells.length := by
  have hinj : Set.InjOn (nthNode m p) (Finset.range (s.length + 1) : Set Nat) := by
    intro i hi j hj h
    simp only [Finset.coe_range, Set.mem_Iio] at hi hj
    exact nthNode_inj hm hs (by omega) (by omega) h
  have hmaps : ∀ i ∈ Finset.range (s.length + 1),
      nthNode m p i ∈ Finset.range m.cells.length := by
    intro i hi
    simp only [Finset.mem_range] at hi ⊢
    exact nthNode_lt hm hs (by omega)
  have := Finset.card_le_card_of_injOn (nthNode m p) hmaps hinj
  simpa using this

/-- A chain is not affected by changes to cells it does not visit. -/
theorem chain_frame {m m2 : Memory α} :
    ∀ {s : List α} {p : Nat}, Chain m p s →
      (∀ k, k < s.length → m2.peek (nthNode m p k) = m.peek (nthNode m p k)) →
      Chain m2 p s := by
  intro s
  induction s with
  | nil => intro p hs _; exact hs
  | cons x s ih =>
    intro p hs hf
    obtain ⟨n, hn, hv, hc⟩ := hs
    refine ⟨n, ?_, hv, ih hc ?_⟩
    · have := hf 0 (by simp)
      rw [nthNode_zero] at this
      rw [this, hn]
    · intro k hk
      have := hf (k + 1) (by simpa using hk)
      rwa [nthNode_succ hn] at this

/-- The pointers along a chain are not affected either. -/
theorem nthNode_frame {m m2 : Memory α} :
    ∀ {s : List α} {p : Nat}, Chain m p s →
      (∀ k, k < s.length → m2.peek (nthNode m p k) = m.peek (nthNode m p k)) →
      ∀ k, k ≤ s.length → nthNode m2 p k = nthNode m p k := by
  intro s
  induction s with
  | nil =>
    intro p _ _ k hk
    have : k = 0 := by simpa using hk
    subst this
    rfl
  | cons x s ih =>
    intro p hs hf k hk
    obtain ⟨n, hn, _, hc⟩ := hs
    cases k with
    | zero => rfl
    | succ k =>
      have h0 := hf 0 (by simp)
      rw [nthNode_zero, hn] at h0
      rw [nthNode_succ hn, nthNode_succ h0]
      apply ih hc _ k (by simpa using hk)
      intro j hj
      have := hf (j + 1) (by simpa using hj)
      rwa [nthNode_succ hn] at this

theorem chain_append_cell {m : Memory α} {s : List α} {p : Nat} (hs : Chain m p s)
    (c : Option (Node α)) : Chain (Memory.mk (m.cells ++ [c])) p s := by
  apply chain_frame hs
  intro k hk
  obtain ⟨n, hn, _⟩ := chain_peek hs hk
  exact Memory.peek_append m c (Memory.peek_lt hn)

theorem chain_set_other {m : Memory α} {s : List α} {p q : Nat} (hs : Chain m p s)
    (hq : ∀ k, k < s.length → nthNode m p k ≠ q) (c : Option (Node α)) :
    Chain (Memory.mk (m.cells.set q c)) p s := by
  apply chain_frame hs
  intro k hk
  exact Memory.peek_set_ne m c (hq k hk)

/-- The node a chain hangs off is not part of the chain. -/
theorem chain_not_mem {m : Memory α} (hm : m.WF) {s : List α} {p : Nat} {n : Node α}
    (hn : m.peek p = some n) (hs : Chain m n.next_node s) :
    ∀ k, k ≤ s.length → nthNode m n.next_node k ≠ p := by
  intro k hk h
  have hfull : Chain m p (n.value :: s) := ⟨n, hn, rfl, hs⟩
  have h1 : nthNode m p (k + 1) = nthNode m p 0 := by
    rw [nthNode_succ hn, nthNode_zero, h]
  have := nthNode_inj hm hfull (by simpa using hk) (by simp) h1
  omega

end chain_lemmas

/-! ## The two structural edits -/

section edits

variable {α : Type}

/-- One more step from the pointer reached after `k` steps. -/
theorem nthNode_step {m : Memory α} (hm : m.WF) :
    ∀ {k p : Nat} {n : Node α}, m.peek (nthNode m p k) = some n →
      nthNode m p (k + 1) = n.next_node := by
  intro k
  induction k with
  | zero =>
    intro p n h
    rw [nthNode_zero] at h
    rw [nthNode_succ h, nthNode_zero]
  | succ k ih =>
    intro p n h
    cases hp : m.peek p with
    | none =>
      simp only [nthNode, hp] at h
      rw [hm.1] at h
      cases h
    | some np =>
      rw [nthNode_succ hp] at h ⊢
      exact ih h

theorem linkAfter_peek_other {m : Memory α} {pos p : Nat} (pn : Node α) (x : α)
    (hp : p < m.cells.length) (hne : p ≠ pos) : (linkAfter m pos pn x).peek p = m.peek p := by
  unfold linkAfter
  rw [Memory.peek_set_ne (Memory.mk (m.cells ++ [some (Node.mk x pn.next_node)])) _ hne]
  exact Memory.peek_append m _ hp

theorem linkAfter_peek_pos {m : Memory α} {pos : Nat} (pn : Node α) (x : α)
    (hp : pos < m.cells.length) :
    (linkAfter m pos pn x).peek pos = some (Node.mk pn.value m.cells.length) := by
  unfold linkAfter
  apply Memory.peek_set_self (Memory.mk (m.cells ++ [some (Node.mk x pn.next_node)]))
  simp only [List.length_append, List.length_singleton]
  omega

theorem linkAfter_peek_new {m : Memory α} {pos : Nat} (pn : Node α) (x : α)
    (hp : pos < m.cells.length) :
    (linkAfter m pos pn x).peek m.cells.length = some (Node.mk x pn.next_node) := by
  unfold linkAfter
  rw [Memory.peek_set_ne (Memory.mk (m.cells ++ [some (Node.mk x pn.next_node)])) _ (Nat.ne_of_gt hp)]
  exact Memory.peek_append_self m _

theorem linkAfter_wf {m : Memory α} (hm : m.WF) (hroom : m.cells.length < SIZE_RANGE)
    {pos : Nat} (hpos : pos ≠ 0) (pn : Node α) (x : α) : (linkAfter m pos pn x).WF :=
  Memory.WF.set (hm.append hroom _) hpos _

theorem linkAfter_length (m : Memory α) (pos : Nat) (pn : Node α) (x : α) :
    (linkAfter m pos pn x).cells.length = m.cells.length + 1 := by
  simp [linkAfter]

theorem unlinkAfter_peek_other {m : Memory α} {pos p : Nat} (pn pv : Node α)
    (h1 : p ≠ pos) (h2 : p ≠ pn.next_node) : (unlinkAfter m pos pn pv).peek p = m.peek p := by
  unfold unlinkAfter
  rw [Memory.peek_set_ne (Memory.mk (m.cells.set pos _)) _ h2]
  exact Memory.peek_set_ne m _ h1

theorem unlinkAfter_peek_pos {m : Memory α} {pos : Nat} (pn pv : Node α)
    (hp : pos < m.cells.length) (hne : pos ≠ pn.next_node) :
    (unlinkAfter m pos pn pv).peek pos = some (Node.mk pn.value pv.next_node) := by
  unfold unlinkAfter
  rw [Memory.peek_set_ne (Memory.mk (m.cells.set pos _)) _ hne]
  exact Memory.peek_set_self m _ hp

theorem unlinkAfter_wf {m : Memory α} (hm : m.WF) {pos : Nat} (hpos : pos ≠ 0) (pn pv : Node α)
    (hprev : pn.next_node ≠ 0) : (unlinkAfter m pos pn pv).WF :=
  Memory.WF.set (Memory.WF.set hm hpos _) hprev _

theorem unlinkAfter_length (m : Memory α) (pos : Nat) (pn pv : Node α) :
    (unlinkAfter m pos pn pv).cells.length = m.cells.length := by
  simp [unlinkAfter]

/-- Linking a new node after the `k`-th node of a chain puts its value at index `k + 1`. -/
theorem chain_linkAfter {m : Memory α} (hm : m.WF) (x : α) :
    ∀ {k : Nat} {t : List α} {h : Nat} {pn : Node α}, Chain m h t → k < t.length →
      m.peek (nthNode m h k) = some pn →
      Chain (linkAfter m (nthNode m h k) pn x) h (t.take (k + 1) ++ x :: t.drop (k + 1)) ∧
      nthNode (linkAfter m (nthNode m h k) pn x) h (k + 1) = m.cells.length := by
  intro k
  induction k with
  | zero =>
    intro t h pn ht hk hpn
    cases t with
    | nil => simp at hk
    | cons y t =>
      obtain ⟨n, hn, hv, hc⟩ := ht
      rw [nthNode_zero] at hpn ⊢
      rw [hn] at hpn
      have e : n = pn := Option.some.inj hpn
      subst e
      have hlt := Memory.peek_lt hn
      have hpos := linkAfter_peek_pos (m := m) n x hlt
      have hrest : Chain (linkAfter m h n x) n.next_node t := by
        apply chain_frame hc
        intro j hj
        obtain ⟨nj, hnj, _⟩ := chain_peek hc hj
        exact linkAfter_peek_other n x (Memory.peek_lt hnj)
          (chain_not_mem hm hn hc j (Nat.le_of_lt hj))
      refine ⟨?_, ?_⟩
      · simp only [List.take_succ_cons, List.take_zero, List.drop_succ_cons, List.drop_zero,
          List.singleton_append]
        exact ⟨_, hpos, hv, _, linkAfter_peek_new n x hlt, rfl, hrest⟩
      · rw [nthNode_succ hpos, nthNode_zero]
  | succ k ih =>
    intro t h pn ht hk hpn
    cases t with
    | nil => simp at hk
    | cons y t =>
      obtain ⟨n, hn, hv, hc⟩ := ht
      rw [nthNode_succ hn] at hpn ⊢
      have hk2 : k < t.length := by simpa using hk
      obtain ⟨ih1, ih2⟩ := ih hc hk2 hpn
      have hne : h ≠ nthNode m n.next_node k :=
        Ne.symm (chain_not_mem hm hn hc k (Nat.le_of_lt hk2))
      have hh : (linkAfter m (nthNode m n.next_node k) pn x).peek h = some n := by
        rw [linkAfter_peek_other pn x (Memory.peek_lt hn) hne, hn]
      refine ⟨?_, ?_⟩
      · rw [List.take_succ_cons, List.drop_succ_cons, List.cons_append]
        exact ⟨n, hh, hv, ih1⟩
      · rw [nthNode_succ hh, ih2]

/-- Unlinking the node after the `k`-th node of a chain removes the value of index `k + 1`. -/
theorem chain_unlinkAfter {m : Memory α} (hm : m.WF) :
    ∀ {k : Nat} {t : List α} {h : Nat} {pn pv : Node α}, Chain m h t → k + 1 < t.length →
      m.peek (nthNode m h k) = some pn → m.peek pn.next_node = some pv →
      Chain (unlinkAfter m (nthNode m h k) pn pv) h (t.eraseIdx (k + 1)) ∧
      nthNode (unlinkAfter m (nthNode m h k) pn pv) h (k + 1) = pv.next_node := by
  intro k
  induction k with
  | zero =>
    intro t h pn pv ht hk hpn hpv
    cases t with
    | nil => simp at hk
    | cons y t =>
      obtain ⟨n, hn, hv, hc⟩ := ht
      rw [nthNode_zero] at hpn ⊢
      rw [hn] at hpn
      have e : n = pn := Option.some.inj hpn
      subst e
      cases t with
      | nil => simp at hk
      | cons z t =>
        obtain ⟨n2, hn2, _, hc2⟩ := hc
        rw [hpv] at hn2
        have e : pv = n2 := Option.some.inj hn2
        subst e
        have hcz : Chain m n.next_node (pv.value :: t) := ⟨pv, hpv, rfl, hc2⟩
        have hne : h ≠ n.next_node := by
          have := chain_not_mem hm hn hcz 0 (by simp)
          rw [nthNode_zero] at this
          exact Ne.symm this
        have hpos := unlinkAfter_peek_pos (m := m) n pv (Memory.peek_lt hn) hne
        have hrest : Chain (unlinkAfter m h n pv) pv.next_node t := by
          apply chain_frame hc2
          intro j hj
          apply unlinkAfter_peek_other
          · have := chain_not_mem hm hn hcz (j + 1) (by simp only [List.length_cons]; omega)
            rwa [nthNode_succ hpv] at this
          · exact chain_not_mem hm hpv hc2 j (Nat.le_of_lt hj)
        refine ⟨?_, ?_⟩
        · simp only [List.eraseIdx_cons_succ, List.eraseIdx_cons_zero]
          exact ⟨_, hpos, hv, hrest⟩
        · rw [nthNode_succ hpos, nthNode_zero]
  | succ k ih =>
    intro t h pn pv ht hk hpn hpv
    cases t with
    | nil => simp at hk
    | cons y t =>
      obtain ⟨n, hn, hv, hc⟩ := ht
      rw [nthNode_succ hn] at hpn ⊢
      have hk2 : k + 1 < t.length := by simpa using hk
      obtain ⟨ih1, ih2⟩ := ih hc hk2 hpn hpv
      have hne1 : h ≠ nthNode m n.next_node k :=
        Ne.symm (chain_not_mem hm hn hc k (by omega))
      have hne2 : h ≠ pn.next_node := by
        have := chain_not_mem hm hn hc (k + 1) (by omega)
        have hstep : nthNode m n.next_node (k + 1) = pn.next_node := nthNode_step hm hpn
        rw [hstep] at this
        exact Ne.symm this
      have hh : (unlinkAfter m (nthNode m n.next_node k) pn pv).peek h = some n := by
        rw [unlinkAfter_peek_other pn pv hne1 hne2, hn]
      refine ⟨?_, ?_⟩
      · rw [List.eraseIdx_cons_succ]
        exact ⟨n, hh, hv, ih1⟩
      · rw [nthNode_succ hh, ih2]

end edits

/-! ## Running the operations on a well-formed list -/

section operations

variable {α : Type}

theorem ok_bind {β γ : Type} (a : β) (f : β → Exec γ) : (Except.ok a >>= f) = f a := rfl

theorem error_bind {β γ : Type} (e : Fault) (f : β → Exec γ) :
    ((Except.error e : Exec β) >>= f) = Except.error e := rfl

theorem pure_eq_ok {β : Type} (a : β) : (pure a : Exec β) = Except.ok a := rfl

theorem Represents.wf {m : Memory α} {l : SingleLinkedList} {s : List α}
    (h : Represents m l s) : m.WF := h.1

theorem Represents.full_chain {m : Memory α} {l : SingleLinkedList} {s : List α}
    (h : Represents m l s) :
    ∃ hd, m.peek l.head_ = some hd ∧ Chain m hd.next_node s ∧
      Chain m l.head_ (hd.value :: s) := by
  obtain ⟨_, ⟨hd, hp, hc⟩, _⟩ := h
  exact ⟨hd, hp, hc, hd, hp, rfl, hc⟩

/-- A list of `n` elements needs `n + 2` cells: the null cell, the sentinel, the nodes. -/
theorem Represents.length_bound {m : Memory α} {l : SingleLinkedList} {s : List α}
    (h : Represents m l s) : s.length + 2 ≤ m.cells.length := by
  obtain ⟨hd, _, _, hc⟩ := h.full_chain
  have := chain_length_lt h.wf hc
  simpa using this

theorem Represents.head_ne_null {m : Memory α} {l : SingleLinkedList} {s : List α}
    (h : Represents m l s) : l.head_ ≠ 0 := by
  obtain ⟨hd, hp, _⟩ := h.full_chain
  exact h.wf.ne_null hp

theorem InsertAfter_eq {m : Memory α} (l : SingleLinkedList) {pos : BasicIterator}
    {pn : Node α} (x : α) (hpos : pos.node_ ≠ 0) (hpn : m.peek pos.node_ = some pn)
    (hroom : m.cells.length < SIZE_RANGE) :
    SingleLinkedList.InsertAfter m l pos x =
      Except.ok (linkAfter m pos.node_ pn x,
        { l with size_ := (l.size_ + 1) % SIZE_RANGE }, ⟨m.cells.length⟩) := by
  have h1 : (Memory.mk (m.cells ++ [some (Node.mk x pn.next_node)])).peek pos.node_ = some pn := by
    rw [Memory.peek_append m _ (Memory.peek_lt hpn), hpn]
  simp only [SingleLinkedList.InsertAfter, hpos, if_false, Memory.load_eq hpn,
    Memory.new_eq hroom, Memory.store_next_eq h1, ok_bind, pure_eq_ok, linkAfter]

theorem PushFront_eq {m : Memory α} (l : SingleLinkedList) {hd : Node α} (x : α)
    (hhd : m.peek l.head_ = some hd) (hroom : m.cells.length < SIZE_RANGE) :
    SingleLinkedList.PushFront m l x =
      Except.ok (linkAfter m l.head_ hd x, { l with size_ := (l.size_ + 1) % SIZE_RANGE }) := by
  have h1 : (Memory.mk (m.cells ++ [some (Node.mk x hd.next_node)])).peek l.head_ = some hd := by
    rw [Memory.peek_append m _ (Memory.peek_lt hhd), hhd]
  simp only [SingleLinkedList.PushFront, Memory.load_eq hhd,
    Memory.new_eq hroom, Memory.store_next_eq h1, ok_bind, pure_eq_ok, linkAfter]

theorem EraseAfter_eq {m : Memory α} (hm : m.WF) (l : SingleLinkedList) {pos : BasicIterator}
    {pn pv : Node α} (hpn : m.peek pos.node_ = some pn) (hpv : m.peek pn.next_node = some pv)
    (hne : pn.next_node ≠ pos.node_) :
    SingleLinkedList.EraseAfter m l pos =
      Except.ok (unlinkAfter m pos.node_ pn pv,
        { l with size_ := (l.size_ + (SIZE_RANGE - 1)) % SIZE_RANGE }, ⟨pv.next_node⟩) := by
  have hpos : pos.node_ ≠ 0 := hm.ne_null hpn
  have h1 : (Memory.mk (m.cells.set pos.node_ (some (Node.mk pn.value pv.next_node)))).peek
      pn.next_node = some pv := by
    rw [Memory.peek_set_ne m _ hne, hpv]
  simp only [SingleLinkedList.EraseAfter, hpos, if_false, Memory.load_eq hpn, Memory.load_eq hpv,
    Memory.store_next_eq hpn, Memory.delete_eq h1 (hm.ne_null hpv), ok_bind, pure_eq_ok,
    unlinkAfter]

theorem PopFront_eq {m : Memory α} (hm : m.WF) (l : SingleLinkedList)
    {hd nd : Node α} (hhd : m.peek l.head_ = some hd) (hnd : m.peek hd.next_node = some nd)
    (hne : hd.next_node ≠ l.head_) :
    SingleLinkedList.PopFront m l =
      Except.ok (unlinkAfter m l.head_ hd nd,
        { l with size_ := (l.size_ + (SIZE_RANGE - 1)) % SIZE_RANGE }) := by
  have hnext : hd.next_node ≠ 0 := hm.ne_null hnd
  have h1 : (Memory.mk (m.cells.set l.head_ (some (Node.mk hd.value nd.next_node)))).peek
      hd.next_node = some nd := by
    rw [Memory.peek_set_ne m _ hne, hnd]
  simp only [SingleLinkedList.PopFront, Memory.load_eq hhd, Memory.load_eq hnd, hnext,
    ne_eq, not_false_eq_true, if_true, Memory.store_next_eq hhd,
    Memory.delete_eq h1 hnext, ok_bind, pure_eq_ok, unlinkAfter]

theorem PopFront_empty_eq {m : Memory α} (l : SingleLinkedList)
    {hd : Node α} (hhd : m.peek l.head_ = some hd) (hnext : hd.next_node = 0) :
    SingleLinkedList.PopFront m l = Except.ok (m, l) := by
  simp only [SingleLinkedList.PopFront, Memory.load_eq hhd, hnext, ne_eq, not_true_eq_false,
    if_false, ok_bind, pure_eq_ok]

end operations

section represents

variable {α : Type}

theorem Represents.peek_nth {m : Memory α} {l : SingleLinkedList} {s : List α}
    (h : Represents m l s) {k : Nat} (hk : k ≤ s.length) :
    ∃ pn, m.peek (nthNode m l.head_ k) = some pn := by
  obtain ⟨hd, _, _, hc⟩ := h.full_chain
  obtain ⟨n, hn, _⟩ := chain_peek (k := k) hc (by simp only [List.length_cons]; omega)
  exact ⟨n, hn⟩

theorem Represents.peek_next {m : Memory α} {l : SingleLinkedList} {s : List α}
    (h : Represents m l s) {k : Nat} (hk : k < s.length) {pn : Node α}
    (hpn : m.peek (nthNode m l.head_ k) = some pn) :
    ∃ pv, m.peek pn.next_node = some pv ∧ s[k]? = some pv.value ∧
      pn.next_node ≠ nthNode m l.head_ k := by
  obtain ⟨hd, _, _, hc⟩ := h.full_chain
  have hstep := nthNode_step h.wf hpn
  obtain ⟨n, hn, hv⟩ := chain_peek (k := k + 1) hc (by simp only [List.length_cons]; omega)
  rw [hstep] at hn
  refine ⟨n, hn, by simpa using hv, ?_⟩
  intro e
  have := nthNode_inj h.wf hc (i := k + 1) (j := k) (by simp only [List.length_cons]; omega)
    (by simp only [List.length_cons]; omega) (by rw [hstep, e])
  omega

theorem size_inc {m : Memory α} {l : SingleLinkedList} {s : List α} (h : Represents m l s)
    (hroom : m.cells.length < SIZE_RANGE) : (l.size_ + 1) % SIZE_RANGE = s.length + 1 := by
  have hb := h.length_bound
  have hs : l.size_ = s.length := h.2.2.1
  rw [hs]
  exact Nat.mod_eq_of_lt (by omega)

theorem size_dec {m : Memory α} {l : SingleLinkedList} {s : List α} (h : Represents m l s)
    (hpos : 0 < s.length) : (l.size_ + (SIZE_RANGE - 1)) % SIZE_RANGE = s.length - 1 := by
  have hb := h.length_bound
  have hle : m.cells.length ≤ SIZE_RANGE := h.wf.2.2
  have hs : l.size_ = s.length := h.2.2.1
  rw [hs]
  have e : s.length + (SIZE_RANGE - 1) = (s.length - 1) + SIZE_RANGE := by omega
  rw [e, Nat.add_mod_right]
  exact Nat.mod_eq_of_lt (by omega)

/-- Linking a node after the `k`-th node counted from the sentinel (`k = 0` is the sentinel)
gives the list with `x` at index `k`. -/
theorem represents_linkAfter {m : Memory α} {l : SingleLinkedList} {s : List α}
    (h : Represents m l s) {k : Nat} (hk : k ≤ s.length) {pn : Node α}
    (hpn : m.peek (nthNode m l.head_ k) = some pn) (hroom : m.cells.length < SIZE_RANGE)
    (x : α) :
    Represents (linkAfter m (nthNode m l.head_ k) pn x)
        { l with size_ := (l.size_ + 1) % SIZE_RANGE } (s.take k ++ x :: s.drop k) ∧
      nthNode (linkAfter m (nthNode m l.head_ k) pn x) l.head_ (k + 1) = m.cells.length := by
  obtain ⟨hd, _, _, hc⟩ := h.full_chain
  obtain ⟨h1, h2⟩ := chain_linkAfter h.wf x (k := k) hc
    (by simp only [List.length_cons]; omega) hpn
  refine ⟨⟨linkAfter_wf h.wf hroom (h.wf.ne_null hpn) pn x, ?_, ?_, h.2.2.2.1, h.2.2.2.2⟩, h2⟩
  · rw [List.take_succ_cons, List.drop_succ_cons, List.cons_append] at h1
    obtain ⟨n, hn, _, hcn⟩ := h1
    exact ⟨n, hn, hcn⟩
  · show (l.size_ + 1) % SIZE_RANGE = _
    rw [size_inc h hroom]
    simp only [List.length_append, List.length_take, List.length_cons, List.length_drop]
    omega

/-- Unlinking the node after the `k`-th node counted from the sentinel gives the list without
the element of index `k`. -/
theorem represents_unlinkAfter {m : Memory α} {l : SingleLinkedList} {s : List α}
    (h : Represents m l s) {k : Nat} (hk : k < s.length) {pn pv : Node α}
    (hpn : m.peek (nthNode m l.head_ k) = some pn) (hpv : m.peek pn.next_node = some pv) :
    Represents (unlinkAfter m (nthNode m l.head_ k) pn pv)
        { l with size_ := (l.size_ + (SIZE_RANGE - 1)) % SIZE_RANGE } (s.eraseIdx k) ∧
      nthNode (unlinkAfter m (nthNode m l.head_ k) pn pv) l.head_ (k + 1) =
        pv.next_node := by
  obtain ⟨hd, _, _, hc⟩ := h.full_chain
  obtain ⟨h1, h2⟩ := chain_unlinkAfter h.wf (k := k) hc
    (by simp only [List.length_cons]; omega) hpn hpv
  refine ⟨⟨unlinkAfter_wf h.wf (h.wf.ne_null hpn) pn pv (h.wf.ne_null hpv), ?_, ?_,
    h.2.2.2.1, h.2.2.2.2⟩, h2⟩
  · rw [List.eraseIdx_cons_succ] at h1
    obtain ⟨n, hn, _, hcn⟩ := h1
    exact ⟨n, hn, hcn⟩
  · show (l.size_ + (SIZE_RANGE - 1)) % SIZE_RANGE = _
    rw [size_dec h (by omega), List.length_eraseIdx, if_pos hk]

end represents

section observation

variable {α : Type}

theorem operator_ne_null (it : BasicIterator) :
    it.operator_ne ⟨0⟩ = true ↔ it.node_ ≠ 0 := by
  simp [BasicIterator.operator_ne, BasicIterator.operator_eq]

theorem operator_inc_eq {m : Memory α} {it : BasicIterator} {n : Node α}
    (h : m.peek it.node_ = some n) : it.operator_inc m = Except.ok ⟨n.next_node⟩ := by
  simp only [BasicIterator.operator_inc, Memory.load_eq h, ok_bind, pure_eq_ok]

theorem operator_deref_eq {m : Memory α} {it : BasicIterator} {n : Node α}
    (h : m.peek it.node_ = some n) : it.operator_deref m = Except.ok n.value := by
  simp only [BasicIterator.operator_deref, Memory.load_eq h, ok_bind, pure_eq_ok]

theorem operator_inc_null {m : Memory α} (hm : m.WF) :
    (BasicIterator.mk 0).operator_inc m = Except.error Fault.undefined_behavior := by
  simp only [BasicIterator.operator_inc, Memory.load_null hm, error_bind]

theorem operator_deref_null {m : Memory α} (hm : m.WF) :
    ((BasicIterator.mk 0).operator_deref m : Exec α) =
      Except.error Fault.undefined_behavior := by
  simp only [BasicIterator.operator_deref, Memory.load_null hm, error_bind]

theorem begin_eq {m : Memory α} {l : SingleLinkedList} {hd : Node α}
    (h : m.peek l.head_ = some hd) : l.begin m = Except.ok ⟨hd.next_node⟩ := by
  simp only [SingleLinkedList.begin, Memory.load_eq h, ok_bind, pure_eq_ok]

/-- Incrementing along a chain follows `nthNode`, and fails past the end. -/
theorem advance_chain {m : Memory α} (hm : m.WF) :
    ∀ {s : List α} {p : Nat} (k : Nat), Chain m p s →
      advance m ⟨p⟩ k =
        if k ≤ s.length then Except.ok ⟨nthNode m p k⟩
        else Except.error Fault.undefined_behavior := by
  intro s
  induction s with
  | nil =>
    intro p k hs
    have hp : p = 0 := hs
    subst hp
    cases k with
    | zero => rfl
    | succ k => simp [advance, operator_inc_null hm, error_bind]
  | cons x s ih =>
    intro p k hs
    obtain ⟨n, hn, _, hc⟩ := hs
    cases k with
    | zero => rfl
    | succ k =>
      have hinc : (BasicIterator.mk p).operator_inc m = Except.ok ⟨n.next_node⟩ :=
        operator_inc_eq hn
      simp only [advance, hinc, ok_bind, ih k hc, nthNode_succ hn, List.length_cons,
        Nat.add_le_add_iff_right]

/-- In a well-formed list, the position of element `i` is the node `i + 1` steps from the
sentinel. -/
theorem refersTo_iff {m : Memory α} {l : SingleLinkedList} {s : List α}
    (h : Represents m l s) (pos : BasicIterator) (i : Nat) :
    RefersTo m l pos i ↔ i < s.length ∧ pos.node_ = nthNode m l.head_ (i + 1) := by
  obtain ⟨hd, hhd, hc, _⟩ := h.full_chain
  have hend : l.cend = ⟨0⟩ := h.2.2.2.2
  unfold RefersTo
  rw [begin_eq hhd, hend, operator_ne_null, nthNode_succ hhd]
  simp only [ok_bind, advance_chain h.wf i hc]
  constructor
  · rintro ⟨h1, h2⟩
    by_cases hi : i ≤ s.length
    · rw [if_pos hi] at h1
      have e : pos = ⟨nthNode m hd.next_node i⟩ := (Except.ok.inj h1).symm
      have e2 : pos.node_ = nthNode m hd.next_node i := by rw [e]
      refine ⟨?_, e2⟩
      rcases Nat.lt_or_ge i s.length with hlt | hge
      · exact hlt
      · exfalso
        have hi2 : i = s.length := Nat.le_antisymm hi hge
        have := chain_nth hc hi
        rw [hi2, List.drop_length] at this
        apply h2
        rw [e2, hi2]
        exact this
    · rw [if_neg hi] at h1
      cases h1
  · rintro ⟨h1, h2⟩
    rw [if_pos (Nat.le_of_lt h1)]
    refine ⟨?_, ?_⟩
    · cases pos
      simp only at h2
      rw [h2]
    · obtain ⟨n, hn, _⟩ := chain_peek hc h1
      rw [h2]
      exact h.wf.ne_null hn

/-- Walking a chain to the null pointer collects its values. -/
theorem traverse_chain {m : Memory α} (hm : m.WF) :
    ∀ {s : List α} {p : Nat} {fuel : Nat}, Chain m p s → s.length < fuel →
      traverse fuel m ⟨p⟩ ⟨0⟩ = Except.ok s := by
  intro s
  induction s with
  | nil =>
    intro p fuel hs hf
    have hp : p = 0 := hs
    subst hp
    cases fuel with
    | zero => simp at hf
    | succ fuel => simp [traverse, BasicIterator.operator_ne, BasicIterator.operator_eq, pure_eq_ok]
  | cons x s ih =>
    intro p fuel hs hf
    obtain ⟨n, hn, hv, hc⟩ := hs
    cases fuel with
    | zero => simp at hf
    | succ fuel =>
      have hne : (BasicIterator.mk p).operator_ne ⟨0⟩ = true :=
        (operator_ne_null _).2 (hm.ne_null hn)
      have hinc : (BasicIterator.mk p).operator_inc m = Except.ok ⟨n.next_node⟩ :=
        operator_inc_eq hn
      have hde : (BasicIterator.mk p).operator_deref m = Except.ok n.value :=
        operator_deref_eq hn
      simp only [traverse, hne, if_true, hinc, hde, ok_bind,
        ih hc (by simpa using hf), pure_eq_ok, hv]

/-- Iterating a well-formed list from `begin()` to `end()` yields its element sequence. -/
theorem Represents.toList_eq {m : Memory α} {l : SingleLinkedList} {s : List α}
    (h : Represents m l s) : l.toList m = Except.ok s := by
  obtain ⟨hd, hhd, hc, _⟩ := h.full_chain
  have hend : l.cend = ⟨0⟩ := h.2.2.2.2
  have hb := h.length_bound
  simp only [SingleLinkedList.toList, begin_eq hhd, ok_bind, hend]
  exact traverse_chain h.wf hc (by omega)

end observation

section operation_results

variable {α : Type}

/-- Running `InsertAfter` at the `k`-th node counted from the sentinel. -/
theorem InsertAfter_represents {m : Memory α} {l : SingleLinkedList} {s : List α}
    (h : Represents m l s) (hroom : m.cells.length < SIZE_RANGE) (x : α) {k : Nat}
    (hk : k ≤ s.length) {q : BasicIterator} (hpos : q.node_ = nthNode m l.head_ k) :
    ∃ pn, m.peek q.node_ = some pn ∧
      SingleLinkedList.InsertAfter m l q x =
        Except.ok (linkAfter m q.node_ pn x, { l with size_ := l.size_ + 1 },
          ⟨m.cells.length⟩) ∧
      Represents (linkAfter m q.node_ pn x) { l with size_ := l.size_ + 1 }
        (s.take k ++ x :: s.drop k) ∧
      nthNode (linkAfter m q.node_ pn x) l.head_ (k + 1) = m.cells.length := by
  obtain ⟨pn, hpn⟩ := h.peek_nth hk
  have hsz : (l.size_ + 1) % SIZE_RANGE = l.size_ + 1 := by
    rw [size_inc h hroom, h.2.2.1]
  obtain ⟨h1, h2⟩ := represents_linkAfter h hk hpn hroom x
  rw [← hpos] at hpn h1 h2
  rw [hsz] at h1
  refine ⟨pn, hpn, ?_, h1, h2⟩
  rw [InsertAfter_eq l x (h.wf.ne_null hpn) hpn hroom, hsz]

theorem PushFront_represents {m : Memory α} {l : SingleLinkedList} {s : List α}
    (h : Represents m l s) (hroom : m.cells.length < SIZE_RANGE) (x : α) :
    ∃ hd, m.peek l.head_ = some hd ∧
      SingleLinkedList.PushFront m l x =
        Except.ok (linkAfter m l.head_ hd x, { l with size_ := l.size_ + 1 }) ∧
      Represents (linkAfter m l.head_ hd x) { l with size_ := l.size_ + 1 } (x :: s) := by
  obtain ⟨hd, hhd, h2, h3, _⟩ :=
    InsertAfter_represents h hroom x (k := 0) (q := ⟨l.head_⟩) (Nat.zero_le _) rfl
  have hsz : (l.size_ + 1) % SIZE_RANGE = l.size_ + 1 := by
    rw [size_inc h hroom, h.2.2.1]
  refine ⟨hd, hhd, ?_, by simpa using h3⟩
  rw [PushFront_eq l x hhd hroom, hsz]

theorem EraseAfter_represents {m : Memory α} {l : SingleLinkedList} {s : List α}
    (h : Represents m l s) {k : Nat} (hk : k < s.length) {q : BasicIterator}
    (hpos : q.node_ = nthNode m l.head_ k) :
    ∃ pn pv, m.peek q.node_ = some pn ∧ m.peek pn.next_node = some pv ∧
      SingleLinkedList.EraseAfter m l q =
        Except.ok (unlinkAfter m q.node_ pn pv, { l with size_ := l.size_ - 1 },
          ⟨pv.next_node⟩) ∧
      Represents (unlinkAfter m q.node_ pn pv) { l with size_ := l.size_ - 1 }
        (s.eraseIdx k) ∧
      nthNode (unlinkAfter m q.node_ pn pv) l.head_ (k + 1) = pv.next_node := by
  obtain ⟨pn, hpn⟩ := h.peek_nth (Nat.le_of_lt hk)
  obtain ⟨pv, hpv, _, hne⟩ := h.peek_next hk hpn
  have hsz : (l.size_ + (SIZE_RANGE - 1)) % SIZE_RANGE = l.size_ - 1 := by
    rw [size_dec h (by omega), h.2.2.1]
  obtain ⟨h1, h2⟩ := represents_unlinkAfter h hk hpn hpv
  rw [← hpos] at hpn h1 h2 hne
  rw [hsz] at h1
  refine ⟨pn, pv, hpn, hpv, ?_, h1, h2⟩
  rw [EraseAfter_eq h.wf l hpn hpv hne, hsz]

theorem PopFront_represents {m : Memory α} {l : SingleLinkedList} {x : α} {s : List α}
    (h : Represents m l (x :: s)) :
    ∃ hd nd, m.peek l.head_ = some hd ∧ m.peek hd.next_node = some nd ∧
      SingleLinkedList.PopFront m l =
        Except.ok (unlinkAfter m l.head_ hd nd, { l with size_ := l.size_ - 1 }) ∧
      Represents (unlinkAfter m l.head_ hd nd) { l with size_ := l.size_ - 1 } s := by
  obtain ⟨hd, nd, hhd, hnd, _, h3, _⟩ :=
    EraseAfter_represents h (k := 0) (q := ⟨l.head_⟩) (by simp) rfl
  obtain ⟨_, _, _, hne⟩ := h.peek_next (k := 0) (by simp) hhd
  have hsz : (l.size_ + (SIZE_RANGE - 1)) % SIZE_RANGE = l.size_ - 1 := by
    rw [size_dec h (by simp), h.2.2.1]
  refine ⟨hd, nd, hhd, hnd, ?_, by simpa using h3⟩
  rw [PopFront_eq h.wf l hhd hnd hne, hsz]

/-- The iterator that `InsertAfter` returns can be dereferenced and gives the new value. -/
theorem linkAfter_deref {m : Memory α} {pos : Nat} {pn : Node α} (hpn : m.peek pos = some pn)
    (x : α) :
    (BasicIterator.mk m.cells.length).operator_deref (linkAfter m pos pn x) = Except.ok x :=
  operator_deref_eq (n := ⟨x, pn.next_node⟩) (linkAfter_peek_new pn x (Memory.peek_lt hpn))

/-- The pointer one step past the last node of a list is null. -/
theorem Represents.nth_end {m : Memory α} {l : SingleLinkedList} {s : List α}
    (h : Represents m l s) : nthNode m l.head_ (s.length + 1) = 0 := by
  obtain ⟨hd, _, _, hc⟩ := h.full_chain
  have := chain_nth (k := s.length + 1) hc (by simp)
  rw [show s.length + 1 = (hd.value :: s).length by simp, List.drop_length] at this
  simpa using this

end operation_results

/-! ## The claims about the mutating operations -/

section mutators

variable {α : Type}

/-- C5: on a list with element sequence `s`, `PushFront(x)` (when the allocation succeeds)
leaves the list with the sequence `x` followed by `s` and with `GetSize()` larger by exactly
one. -/
theorem PushFront_spec (m : Memory α) (l : SingleLinkedList) (s : List α) (x : α)
    (h : Represents m l s) (hroom : m.cells.length < SIZE_RANGE) :
    ∃ m2 l2, SingleLinkedList.PushFront m l x = Except.ok (m2, l2) ∧
      Represents m2 l2 (x :: s) ∧ l2.toList m2 = Except.ok (x :: s) ∧
      l2.GetSize = l.GetSize + 1 := by
  obtain ⟨hd, _, h1, h2⟩ := PushFront_represents h hroom x
  exact ⟨_, _, h1, h2, h2.toList_eq, rfl⟩

theorem PushFront_spec_witness :
    Represents sampleMemory sampleList [1, 2, 3] ∧
    ∃ m2 l2, SingleLinkedList.PushFront sampleMemory sampleList 0 = Except.ok (m2, l2) ∧
      Represents m2 l2 [0, 1, 2, 3] ∧ l2.toList m2 = Except.ok [0, 1, 2, 3] ∧
      l2.GetSize = sampleList.GetSize + 1 :=
  ⟨by decide, PushFront_spec sampleMemory sampleList [1, 2, 3] 0 (by decide) (by decide)⟩

/-- C6: `PushFront(x)` followed by `PopFront()` gives back the element sequence and the
`GetSize()` the list had before. -/
theorem PushFront_PopFront_roundtrip (m : Memory α) (l : SingleLinkedList) (s : List α) (x : α)
    (h : Represents m l s) (hroom : m.cells.length < SIZE_RANGE) :
    ∃ m1 l1 m2 l2, SingleLinkedList.PushFront m l x = Except.ok (m1, l1) ∧
      SingleLinkedList.PopFront m1 l1 = Except.ok (m2, l2) ∧
      Represents m2 l2 s ∧ l2.toList m2 = Except.ok s ∧ l2.GetSize = l.GetSize := by
  obtain ⟨hd, _, h1, h2⟩ := PushFront_represents h hroom x
  obtain ⟨hd2, nd, _, _, h3, h4⟩ := PopFront_represents h2
  exact ⟨_, _, _, _, h1, h3, h4, h4.toList_eq, rfl⟩

theorem PushFront_PopFront_roundtrip_witness :
    Represents sampleMemory sampleList [1, 2, 3] ∧
    ∃ m1 l1 m2 l2, SingleLinkedList.PushFront sampleMemory sampleList 0 = Except.ok (m1, l1) ∧
      SingleLinkedList.PopFront m1 l1 = Except.ok (m2, l2) ∧
      Represents m2 l2 [1, 2, 3] ∧ l2.toList m2 = Except.ok [1, 2, 3] ∧
      l2.GetSize = sampleList.GetSize :=
  ⟨by decide,
    PushFront_PopFront_roundtrip sampleMemory sampleList [1, 2, 3] 0 (by decide) (by decide)⟩

/-- C7: `PopFront()` on a list with sequence `x` followed by `s` leaves the sequence `s` and
makes `GetSize()` smaller by one; on an empty list it returns without a fault and changes
neither the memory nor the list object, which stays empty with `GetSize() == 0`. -/
theorem PopFront_spec (m : Memory α) (l : SingleLinkedList) (x : α) (s : List α) :
    (Represents m l (x :: s) →
      ∃ m2 l2, SingleLinkedList.PopFront m l = Except.ok (m2, l2) ∧ Represents m2 l2 s ∧
        l2.toList m2 = Except.ok s ∧ l2.GetSize + 1 = l.GetSize) ∧
    (Represents m l ([] : List α) →
      SingleLinkedList.PopFront m l = Except.ok (m, l) ∧ l.toList m = Except.ok [] ∧
        l.GetSize = 0 ∧ l.IsEmpty = true) := by
  constructor
  · intro h
    obtain ⟨hd, nd, _, _, h1, h2⟩ := PopFront_represents h
    refine ⟨_, _, h1, h2, h2.toList_eq, ?_⟩
    have hs : l.size_ = (x :: s).length := h.2.2.1
    show l.size_ - 1 + 1 = l.size_
    rw [hs]
    simp
  · intro h
    obtain ⟨hd, hhd, hc, _⟩ := h.full_chain
    have hs : l.size_ = 0 := h.2.2.1
    refine ⟨PopFront_empty_eq l hhd hc, h.toList_eq, hs, ?_⟩
    simp [SingleLinkedList.IsEmpty, hs]

theorem PopFront_spec_witness :
    (Represents sampleMemory sampleList [1, 2, 3] ∧
      ∃ m2 l2, SingleLinkedList.PopFront sampleMemory sampleList = Except.ok (m2, l2) ∧
        Represents m2 l2 [2, 3] ∧ l2.toList m2 = Except.ok [2, 3] ∧
        l2.GetSize + 1 = sampleList.GetSize) ∧
    (Represents emptySampleMemory emptySampleList [] ∧
      SingleLinkedList.PopFront emptySampleMemory emptySampleList =
        Except.ok (emptySampleMemory, emptySampleList) ∧
      emptySampleList.toList emptySampleMemory = Except.ok [] ∧
      emptySampleList.GetSize = 0 ∧ emptySampleList.IsEmpty = true) :=
  ⟨⟨by decide, (PopFront_spec sampleMemory sampleList 1 [2, 3]).1 (by decide)⟩,
    ⟨by decide, (PopFront_spec emptySampleMemory emptySampleList 0 []).2 (by decide)⟩⟩

/-- C8: on a list with element sequence `s`, `InsertAfter(pos, x)` (when the allocation
succeeds) puts `x` right after the element at `pos`: at index `0` when `pos` is
`before_begin()`, at index `i + 1` when `pos` refers to the element of index `i`; the other
elements keep their values and order, `GetSize()` grows by one, and the returned position
refers to the new element, so dereferencing it gives `x`. -/
theorem InsertAfter_spec (m : Memory α) (l : SingleLinkedList) (s : List α)
    (pos : BasicIterator) (x : α) (h : Represents m l s)
    (hroom : m.cells.length < SIZE_RANGE) :
    (pos = l.before_begin →
      ∃ m2 l2 it, SingleLinkedList.InsertAfter m l pos x = Except.ok (m2, l2, it) ∧
        Represents m2 l2 (x :: s) ∧ l2.toList m2 = Except.ok (x :: s) ∧
        l2.GetSize = l.GetSize + 1 ∧
        RefersTo m2 l2 it 0 ∧ it.operator_deref m2 = Except.ok x) ∧
    (∀ i, RefersTo m l pos i →
      ∃ m2 l2 it, SingleLinkedList.InsertAfter m l pos x = Except.ok (m2, l2, it) ∧
        Represents m2 l2 (s.take (i + 1) ++ x :: s.drop (i + 1)) ∧
        l2.toList m2 = Except.ok (s.take (i + 1) ++ x :: s.drop (i + 1)) ∧
        l2.GetSize = l.GetSize + 1 ∧
        RefersTo m2 l2 it (i + 1) ∧ it.operator_deref m2 = Except.ok x) := by
  constructor
  · intro hp
    have hpos : pos.node_ = nthNode m l.head_ 0 := by
      rw [hp, nthNode_zero]
      show l.before_begin_.node_ = l.head_
      rw [h.2.2.2.1]
    obtain ⟨pn, hpn, h1, h2, h3⟩ := InsertAfter_represents h hroom x (Nat.zero_le _) hpos
    have h2b : Represents (linkAfter m pos.node_ pn x) { l with size_ := l.size_ + 1 }
        (x :: s) := by simpa using h2
    refine ⟨_, _, _, h1, h2b, h2b.toList_eq, rfl, ?_, linkAfter_deref hpn x⟩
    exact (refersTo_iff h2b _ 0).2 ⟨by simp, h3.symm⟩
  · intro i hi
    obtain ⟨hlt, hpos⟩ := (refersTo_iff h pos i).1 hi
    obtain ⟨pn, hpn, h1, h2, h3⟩ := InsertAfter_represents h hroom x (k := i + 1) hlt hpos
    refine ⟨_, _, _, h1, h2, h2.toList_eq, rfl, ?_, linkAfter_deref hpn x⟩
    refine (refersTo_iff h2 _ (i + 1)).2 ⟨?_, h3.symm⟩
    simp only [List.length_append, List.length_take, List.length_cons, List.length_drop]
    omega

theorem InsertAfter_spec_witness :
    Represents sampleMemory sampleList [1, 2, 3] ∧
    (∃ m2 l2 it, SingleLinkedList.InsertAfter sampleMemory sampleList sampleList.before_begin 9
        = Except.ok (m2, l2, it) ∧
      Represents m2 l2 [9, 1, 2, 3] ∧ l2.toList m2 = Except.ok [9, 1, 2, 3] ∧
      l2.GetSize = sampleList.GetSize + 1 ∧
      RefersTo m2 l2 it 0 ∧ it.operator_deref m2 = Except.ok 9) ∧
    (RefersTo sampleMemory sampleList ⟨3⟩ 1 ∧
      ∃ m2 l2 it, SingleLinkedList.InsertAfter sampleMemory sampleList ⟨3⟩ 9
        = Except.ok (m2, l2, it) ∧
      Represents m2 l2 [1, 2, 9, 3] ∧ l2.toList m2 = Except.ok [1, 2, 9, 3] ∧
      l2.GetSize = sampleList.GetSize + 1 ∧
      RefersTo m2 l2 it 2 ∧ it.operator_deref m2 = Except.ok 9) :=
  ⟨by decide,
    (InsertAfter_spec sampleMemory sampleList [1, 2, 3] sampleList.before_begin 9
      (by decide) (by decide)).1 rfl,
    ⟨rfl, rfl⟩,
    (InsertAfter_spec sampleMemory sampleList [1, 2, 3] ⟨3⟩ 9
      (by decide) (by decide)).2 1 ⟨rfl, rfl⟩⟩


/-- The position `EraseAfter` returns when it runs at the `k`-th node counted from the
sentinel: the element now at index `k`, or `end()` when there is none. -/
theorem EraseAfter_result {m : Memory α} {l : SingleLinkedList} {s : List α}
    (h : Represents m l s) {k : Nat} (hk : k < s.length) {pos : BasicIterator}
    (hpos : pos.node_ = nthNode m l.head_ k) :
    ∃ m2 l2 it, SingleLinkedList.EraseAfter m l pos = Except.ok (m2, l2, it) ∧
      Represents m2 l2 (s.eraseIdx k) ∧ l2.toList m2 = Except.ok (s.eraseIdx k) ∧
      l2.GetSize + 1 = l.GetSize ∧
      (k + 1 < s.length → RefersTo m2 l2 it k) ∧ (k + 1 = s.length → it = l2.cend) := by
  obtain ⟨pn, pv, _, _, h1, h2, h3⟩ := EraseAfter_represents h hk hpos
  have hlen : (s.eraseIdx k).length = s.length - 1 := by
    rw [List.length_eraseIdx, if_pos hk]
  have hs : l.size_ = s.length := h.2.2.1
  refine ⟨_, _, _, h1, h2, h2.toList_eq, ?_, ?_, ?_⟩
  · show l.size_ - 1 + 1 = l.size_
    omega
  · intro hk2
    exact (refersTo_iff h2 _ k).2 ⟨by omega, h3.symm⟩
  · intro hk2
    have hend := h2.nth_end
    rw [hlen, show s.length - 1 + 1 = k + 1 by omega] at hend
    have e : pv.next_node = 0 := by rw [← h3]; exact hend
    show BasicIterator.mk pv.next_node = l.end_
    rw [e, h.2.2.2.2]

/-- C9: when `pos` is `before_begin()` or refers to an element, and an element follows
`pos`, `EraseAfter(pos)` removes exactly that following element (index `0` for
`before_begin()`, index `i + 1` when `pos` refers to the element of index `i`), keeps the
other elements and their order, makes `GetSize()` smaller by one, and returns the position of
the element that now follows `pos`, or `end()` when the erased element was the last one. -/
theorem EraseAfter_spec (m : Memory α) (l : SingleLinkedList) (s : List α)
    (pos : BasicIterator) (h : Represents m l s) :
    (pos = l.before_begin → 0 < s.length →
      ∃ m2 l2 it, SingleLinkedList.EraseAfter m l pos = Except.ok (m2, l2, it) ∧
        Represents m2 l2 (s.eraseIdx 0) ∧ l2.toList m2 = Except.ok (s.eraseIdx 0) ∧
        l2.GetSize + 1 = l.GetSize ∧
        (1 < s.length → RefersTo m2 l2 it 0) ∧ (1 = s.length → it = l2.cend)) ∧
    (∀ i, RefersTo m l pos i → i + 1 < s.length →
      ∃ m2 l2 it, SingleLinkedList.EraseAfter m l pos = Except.ok (m2, l2, it) ∧
        Represents m2 l2 (s.eraseIdx (i + 1)) ∧
        l2.toList m2 = Except.ok (s.eraseIdx (i + 1)) ∧
        l2.GetSize + 1 = l.GetSize ∧
        (i + 2 < s.length → RefersTo m2 l2 it (i + 1)) ∧
        (i + 2 = s.length → it = l2.cend)) := by
  constructor
  · intro hp hlen
    have hpos : pos.node_ = nthNode m l.head_ 0 := by
      rw [hp, nthNode_zero]
      show l.before_begin_.node_ = l.head_
      rw [h.2.2.2.1]
    simpa using EraseAfter_result h hlen hpos
  · intro i hi hlen
    obtain ⟨_, hpos⟩ := (refersTo_iff h pos i).1 hi
    exact EraseAfter_result h hlen hpos

theorem EraseAfter_spec_witness :
    Represents sampleMemory sampleList [1, 2, 3] ∧
    (∃ m2 l2 it, SingleLinkedList.EraseAfter sampleMemory sampleList sampleList.before_begin
        = Except.ok (m2, l2, it) ∧
      Represents m2 l2 [2, 3] ∧ l2.toList m2 = Except.ok [2, 3] ∧
      l2.GetSize + 1 = sampleList.GetSize ∧
      (1 < 3 → RefersTo m2 l2 it 0) ∧ (1 = 3 → it = l2.cend)) ∧
    (RefersTo sampleMemory sampleList ⟨3⟩ 1 ∧
      ∃ m2 l2 it, SingleLinkedList.EraseAfter sampleMemory sampleList ⟨3⟩
        = Except.ok (m2, l2, it) ∧
      Represents m2 l2 [1, 2] ∧ l2.toList m2 = Except.ok [1, 2] ∧
      l2.GetSize + 1 = sampleList.GetSize ∧
      (3 < 3 → RefersTo m2 l2 it 2) ∧ (3 = 3 → it = l2.cend)) :=
  ⟨by decide,
    (EraseAfter_spec sampleMemory sampleList [1, 2, 3] sampleList.before_begin
      (by decide)).1 rfl (by decide),
    ⟨rfl, rfl⟩,
    (EraseAfter_spec sampleMemory sampleList [1, 2, 3] ⟨3⟩ (by decide)).2 1 ⟨rfl, rfl⟩
      (by decide)⟩

/-- C10: `InsertAfter(before_begin(), x)` and `PushFront(x)` end alike: the same fault, or
the same memory and the same list object, hence the same element sequence `x` followed by `s`
and the same `GetSize()`. -/
theorem InsertAfter_before_begin_eq_PushFront (m : Memory α) (l : SingleLinkedList)
    (s : List α) (x : α) (h : Represents m l s) :
    (SingleLinkedList.InsertAfter m l l.before_begin x).map (fun r => (r.1, r.2.1)) =
        SingleLinkedList.PushFront m l x ∧
    (m.cells.length < SIZE_RANGE →
      ∃ m2 l2 it, SingleLinkedList.InsertAfter m l l.before_begin x = Except.ok (m2, l2, it) ∧
        SingleLinkedList.PushFront m l x = Except.ok (m2, l2) ∧
        Represents m2 l2 (x :: s) ∧ l2.toList m2 = Except.ok (x :: s) ∧
        l2.GetSize = l.GetSize + 1) := by
  obtain ⟨hd, hhd, _⟩ := h.full_chain
  have hbb : l.before_begin = ⟨l.head_⟩ := h.2.2.2.1
  have hne : l.head_ ≠ 0 := h.head_ne_null
  constructor
  · by_cases hroom : m.cells.length < SIZE_RANGE
    · rw [hbb, InsertAfter_eq l x hne hhd hroom, PushFront_eq l x hhd hroom]
      rfl
    · simp only [hbb, SingleLinkedList.InsertAfter, SingleLinkedList.PushFront, hne, if_false,
        Memory.load_eq hhd, Memory.new, hroom, ok_bind, error_bind]
      rfl
  · intro hroom
    obtain ⟨hd2, hhd2, h1, h2⟩ := PushFront_represents h hroom x
    rw [hhd] at hhd2
    have e : hd = hd2 := Option.some.inj hhd2
    subst e
    refine ⟨_, _, ⟨m.cells.length⟩, ?_, h1, h2, h2.toList_eq, rfl⟩
    rw [hbb, InsertAfter_eq l x hne hhd hroom]
    have hsz : (l.size_ + 1) % SIZE_RANGE = l.size_ + 1 := by
      rw [size_inc h hroom, h.2.2.1]
    rw [hsz]

theorem InsertAfter_before_begin_eq_PushFront_witness :
    Represents sampleMemory sampleList [1, 2, 3] ∧
    ((SingleLinkedList.InsertAfter sampleMemory sampleList sampleList.before_begin 0).map
        (fun r => (r.1, r.2.1)) = SingleLinkedList.PushFront sampleMemory sampleList 0 ∧
      (sampleMemory.cells.length < SIZE_RANGE →
        ∃ m2 l2 it, SingleLinkedList.InsertAfter sampleMemory sampleList
            sampleList.before_begin 0 = Except.ok (m2, l2, it) ∧
          SingleLinkedList.PushFront sampleMemory sampleList 0 = Except.ok (m2, l2) ∧
          Represents m2 l2 [0, 1, 2, 3] ∧ l2.toList m2 = Except.ok [0, 1, 2, 3] ∧
          l2.GetSize = sampleList.GetSize + 1)) :=
  ⟨by decide,
    InsertAfter_before_begin_eq_PushFront sampleMemory sampleList [1, 2, 3] 0 (by decide)⟩

end mutators

/-! ## Construction from a range -/

section construction

variable {α : Type}

theorem Agree.refl (m : Memory α) (bound : Nat) : Agree m m bound := fun _ _ => rfl

theorem Agree.trans {m0 m1 m2 : Memory α} {bound : Nat} (h1 : Agree m0 m1 bound)
    (h2 : Agree m1 m2 bound) : Agree m0 m2 bound :=
  fun p hp => (h2 p hp).trans (h1 p hp)

theorem agree_linkAfter (m : Memory α) {bound pos : Nat} (pn : Node α) (x : α)
    (h1 : bound ≤ pos) (h2 : bound ≤ m.cells.length) :
    Agree m (linkAfter m pos pn x) bound := by
  intro p hp
  exact linkAfter_peek_other pn x (by omega) (by omega)

/-- A list whose cells all lie below `bound` is still the same list in a memory that agrees
below `bound`. -/
theorem Represents.of_agree {m m2 : Memory α} {l : SingleLinkedList} {s : List α}
    (h : Represents m l s) (hm2 : m2.WF) (ha : Agree m m2 m.cells.length) :
    Represents m2 l s := by
  obtain ⟨hd, hhd, hc, _⟩ := h.full_chain
  refine ⟨hm2, ⟨hd, ?_, ?_⟩, h.2.2.1, h.2.2.2.1, h.2.2.2.2⟩
  · rw [ha _ (Memory.peek_lt hhd), hhd]
  · apply chain_frame hc
    intro k hk
    obtain ⟨n, hn, _⟩ := chain_peek hc hk
    exact ha _ (Memory.peek_lt hn)

theorem arrayIterator_isRange (m0 : Memory α) (bound : Nat) (v : List α) :
    IsRange (arrayIterator v) m0 bound (fun k => k) v where
  ne := by
    intro k _
    by_cases hk : k = v.length <;> simp [arrayIterator, bne, hk]
  deref := by
    intro m _ k x hx
    simp [arrayIterator, hx]
  inc := by
    intro m _ k _
    rfl

/-- The pointer reached after `j` steps depends only on the cells met on the way. -/
theorem nthNode_congr {m m2 : Memory α} :
    ∀ (j p : Nat), (∀ k, k < j → m2.peek (nthNode m p k) = m.peek (nthNode m p k)) →
      nthNode m2 p j = nthNode m p j := by
  intro j
  induction j with
  | zero => intro p _; rfl
  | succ j ih =>
    intro p h
    have h0 := h 0 (Nat.succ_pos j)
    rw [nthNode_zero] at h0
    cases hp : m.peek p with
    | none =>
      rw [hp] at h0
      simp [nthNode, hp, h0]
    | some n =>
      rw [hp] at h0
      rw [nthNode_succ hp, nthNode_succ h0]
      apply ih
      intro k hk
      have := h (k + 1) (by omega)
      rwa [nthNode_succ hp] at this

/-- The loop of the range constructor appends the remaining values of the input range to the
list built so far; `d` is the number of values still to come.  The list lives in cells at or
above `bound` and the cells below `bound` are left alone. -/
theorem rangeLoop_represents {I : Type} {ops : InputIterator α I} {m0 : Memory α} {bound : Nat}
    {its : Nat → I} {v : List α} (hr : IsRange ops m0 bound its v) :
    ∀ (d : Nat) {m : Memory α} {l : SingleLinkedList} {q : BasicIterator} {i f : Nat},
      Represents m l (v.take i) → i + d = v.length → q.node_ = nthNode m l.head_ i →
      d < f → m.cells.length + d ≤ SIZE_RANGE → Agree m0 m bound →
      bound ≤ q.node_ → bound ≤ m.cells.length →
      (∀ j, j ≤ i → bound ≤ nthNode m l.head_ j) →
      ∃ m2 l2, SingleLinkedList.rangeLoop ops (its v.length) f m l q (its i) =
          Except.ok (m2, l2) ∧
        Represents m2 l2 v ∧ Agree m0 m2 bound ∧ l2.head_ = l.head_ ∧
        m2.cells.length = m.cells.length + d ∧
        (∀ j, j ≤ v.length → bound ≤ nthNode m2 l2.head_ j) := by
  intro d
  induction d with
  | zero =>
    intro m l q i f h hi _ hf _ ha _ _ hnew
    have hi2 : i = v.length := by omega
    subst hi2
    cases f with
    | zero => omega
    | succ f =>
      refine ⟨m, l, ?_, by simpa using h, ha, rfl, rfl, hnew⟩
      simp [SingleLinkedList.rangeLoop, hr.ne v.length (Nat.le_refl _), pure_eq_ok]
  | succ d ih =>
    intro m l q i f h hi hpos hf hroom ha hb1 hb2 hnew
    have hlt : i < v.length := by omega
    cases f with
    | zero => omega
    | succ f =>
      have hx : v[i]? = some v[i] := List.getElem?_eq_getElem hlt
      have hlen : (v.take i).length = i := by
        rw [List.length_take]; omega
      obtain ⟨pn, hpn, h1, h2, h3⟩ :=
        InsertAfter_represents h (by omega) v[i] (k := i) (by omega) hpos
      have htake : (v.take i).take i ++ v[i] :: (v.take i).drop i = v.take (i + 1) := by
        rw [List.take_take, Nat.min_self, List.drop_eq_nil_of_le (by omega)]
        rw [List.take_succ, hx]
        rfl
      rw [htake] at h2
      have ha1 : Agree m0 (linkAfter m q.node_ pn v[i]) bound :=
        ha.trans (agree_linkAfter m pn v[i] hb1 hb2)
      obtain ⟨hd0, _, _, hfull⟩ := h.full_chain
      have hflen : (hd0.value :: v.take i).length = i + 1 := by
        rw [List.length_cons, hlen]
      have hnew1 : ∀ j, j ≤ i + 1 →
          bound ≤ nthNode (linkAfter m q.node_ pn v[i]) l.head_ j := by
        intro j hj
        rcases Nat.lt_or_ge j (i + 1) with hlt2 | hge
        · have hcongr : nthNode (linkAfter m q.node_ pn v[i]) l.head_ j =
              nthNode m l.head_ j := by
            apply nthNode_congr
            intro k hk
            obtain ⟨nk, hnk, _⟩ := chain_peek (k := k) hfull (by rw [hflen]; omega)
            apply linkAfter_peek_other pn v[i] (Memory.peek_lt hnk)
            intro e
            rw [hpos] at e
            have := nthNode_inj h.wf hfull (by rw [hflen]; omega) (by rw [hflen]; omega) e
            omega
          rw [hcongr]
          exact hnew j (by omega)
        · have hj2 : j = i + 1 := by omega
          rw [hj2, h3]
          exact hb2
      obtain ⟨m2, l2, e1, e2, e3, e4, e5, e6⟩ :=
        ih (m := linkAfter m q.node_ pn v[i]) (l := { l with size_ := l.size_ + 1 })
          (q := ⟨m.cells.length⟩) (i := i + 1) (f := f) h2 (by omega) h3.symm
          (by omega) (by rw [linkAfter_length]; omega) ha1 hb2
          (by rw [linkAfter_length]; omega) hnew1
      refine ⟨m2, l2, ?_, e2, e3, e4, by rw [e5, linkAfter_length]; omega, e6⟩
      have hne : ops.ne (its i) (its v.length) = true := by
        rw [hr.ne i (Nat.le_of_lt hlt)]
        simp
        omega
      simp only [SingleLinkedList.rangeLoop, hne, if_true, hr.deref m ha i v[i] hx, ok_bind,
        h1, hr.inc _ ha1 i hlt]
      exact e1

/-- The defaulted constructor makes an empty list at the first unused address. -/
theorem default_represents [Inhabited α] {m : Memory α} (hm : m.WF)
    (hroom : m.cells.length < SIZE_RANGE) :
    SingleLinkedList.default m =
        Except.ok (Memory.mk (m.cells ++ [some ⟨Inhabited.default, 0⟩]),
          ⟨m.cells.length, 0, ⟨m.cells.length⟩, ⟨0⟩⟩) ∧
      Represents (Memory.mk (m.cells ++ [some ⟨Inhabited.default, 0⟩]))
        ⟨m.cells.length, 0, ⟨m.cells.length⟩, ⟨0⟩⟩ ([] : List α) := by
  refine ⟨?_, hm.append hroom _, ⟨⟨Inhabited.default, 0⟩, Memory.peek_append_self m _, rfl⟩,
    rfl, rfl, rfl⟩
  simp only [SingleLinkedList.default, Memory.new_eq hroom, ok_bind, pure_eq_ok]

/-- The range constructor, run on an input range that yields `v`, builds a list whose element
sequence is `v`, in new cells only. -/
theorem range_represents [Inhabited α] {I : Type} {ops : InputIterator α I} {m : Memory α}
    {its : Nat → I} {v : List α} (hm : m.WF) (hr : IsRange ops m m.cells.length its v)
    (hroom : m.cells.length + v.length < SIZE_RANGE) {fuel : Nat} (hf : v.length < fuel) :
    ∃ m2 l2, SingleLinkedList.range ops fuel m (its 0) (its v.length) = Except.ok (m2, l2) ∧
      Represents m2 l2 v ∧ Agree m m2 m.cells.length ∧ l2.head_ = m.cells.length ∧
      m2.cells.length = m.cells.length + v.length + 1 ∧
      (∀ j, j ≤ v.length → m.cells.length ≤ nthNode m2 l2.head_ j) := by
  obtain ⟨hd1, hd2⟩ := default_represents (α := α) hm (by omega)
  have ha0 : Agree m (Memory.mk (m.cells ++ [some ⟨(Inhabited.default : α), 0⟩]))
      m.cells.length := fun p hp => Memory.peek_append m _ hp
  obtain ⟨m2, l2, e1, e2, e3, e4, e5, e6⟩ :=
    rangeLoop_represents hr v.length (i := 0) (f := fuel)
      (m := Memory.mk (m.cells ++ [some ⟨(Inhabited.default : α), 0⟩]))
      (l := ⟨m.cells.length, 0, ⟨m.cells.length⟩, ⟨0⟩⟩) (q := ⟨m.cells.length⟩)
      (by simpa using hd2) (by omega) rfl hf
      (by simp only [List.length_append, List.length_singleton]; omega) ha0
      (Nat.le_refl _) (by simp)
      (by
        intro j hj
        have hj0 : j = 0 := by omega
        rw [hj0, nthNode_zero])
  refine ⟨m2, l2, ?_, e2, e3, e4, ?_, e6⟩
  · have hload : (Memory.mk (m.cells ++ [some ⟨(Inhabited.default : α), 0⟩])).load
        m.cells.length = Except.ok ⟨Inhabited.default, 0⟩ :=
      Memory.load_eq (Memory.peek_append_self m _)
    simp only [SingleLinkedList.range, hd1, ok_bind, hload, SingleLinkedList.before_begin]
    simpa using e1
  · rw [e5]
    simp only [List.length_append, List.length_singleton]
    omega


/-- The sample states are what the constructors build in an empty memory. -/
theorem samples_built :
    SingleLinkedList.initializer_list Memory.empty [1, 2, 3] =
        Except.ok (sampleMemory, sampleList) ∧
      SingleLinkedList.initializer_list Memory.empty [] =
        Except.ok (emptySampleMemory, emptySampleList) ∧
      twoLists [1, 2] [1, 2, 3] = Except.ok (pairMemory, pairFirst, pairSecond) :=
  ⟨rfl, rfl, rfl⟩

/-- C2: for every finite sequence of values `v`, the list built by the range constructor from
an input range that yields `v` (whatever the iterator type), and the list built by the
initializer-list constructor from `v`, give exactly `v`, in the same order, when iterated from
`begin()` to `end()`, and their `GetSize()` is the length of `v`.  The memory must have room
for the sentinel and the `v.length` nodes. -/
theorem range_constructor_spec [Inhabited α] (m : Memory α) (v : List α) (hm : m.WF)
    (hroom : m.cells.length + v.length < SIZE_RANGE) :
    (∀ (I : Type) (ops : InputIterator α I) (its : Nat → I) (fuel : Nat),
      IsRange ops m m.cells.length its v → v.length < fuel →
      ∃ m2 l2, SingleLinkedList.range ops fuel m (its 0) (its v.length) = Except.ok (m2, l2) ∧
        l2.toList m2 = Except.ok v ∧ l2.GetSize = v.length ∧ Represents m2 l2 v) ∧
    (∃ m2 l2, SingleLinkedList.initializer_list m v = Except.ok (m2, l2) ∧
        l2.toList m2 = Except.ok v ∧ l2.GetSize = v.length ∧ Represents m2 l2 v) := by
  constructor
  · intro I ops its fuel hr hf
    obtain ⟨m2, l2, h1, h2, _⟩ := range_represents hm hr hroom hf
    exact ⟨m2, l2, h1, h2.toList_eq, h2.2.2.1, h2⟩
  · obtain ⟨m2, l2, h1, h2, _⟩ :=
      range_represents hm (arrayIterator_isRange m m.cells.length v) hroom
        (Nat.lt_succ_self v.length)
    exact ⟨m2, l2, h1, h2.toList_eq, h2.2.2.1, h2⟩

theorem range_constructor_spec_witness :
    (Memory.empty : Memory Int).WF ∧
    (∃ m2 l2, SingleLinkedList.range (arrayIterator [1, 2, 3]) 4 (Memory.empty : Memory Int)
        0 3 = Except.ok (m2, l2) ∧
      l2.toList m2 = Except.ok [1, 2, 3] ∧ l2.GetSize = 3 ∧ Represents m2 l2 [1, 2, 3]) ∧
    (∃ m2 l2, SingleLinkedList.initializer_list (Memory.empty : Memory Int) [1, 2, 3]
        = Except.ok (m2, l2) ∧
      l2.toList m2 = Except.ok [1, 2, 3] ∧ l2.GetSize = 3 ∧ Represents m2 l2 [1, 2, 3]) :=
  ⟨by decide,
    (range_constructor_spec (Memory.empty : Memory Int) [1, 2, 3] (by decide) (by decide)).1
      Nat (arrayIterator [1, 2, 3]) (fun k => k) 4
      (arrayIterator_isRange Memory.empty _ [1, 2, 3]) (by decide),
    (range_constructor_spec (Memory.empty : Memory Int) [1, 2, 3] (by decide) (by decide)).2⟩

end construction

/-! ## Lexicographic order on sequences -/

section lex

variable {α : Type}

theorem lexLess_nil_left [LT α] (b : List α) : LexLess [] b ↔ b ≠ [] := by
  unfold LexLess
  constructor
  · rintro (⟨i, x, y, ha, _⟩ | ⟨hlen, _⟩)
    · simp at ha
    · intro hb
      rw [hb] at hlen
      simp at hlen
  · intro hb
    right
    refine ⟨?_, by simp⟩
    cases b with
    | nil => exact absurd rfl hb
    | cons y b => simp

theorem lexLess_nil_right [LT α] (a : List α) : ¬ LexLess a [] := by
  unfold LexLess
  rintro (⟨i, x, y, _, hb, _⟩ | ⟨hlen, _⟩)
  · simp at hb
  · simp at hlen

theorem lexLess_cons [LT α] (x y : α) (a b : List α) :
    LexLess (x :: a) (y :: b) ↔ x < y ∨ (x = y ∧ LexLess a b) := by
  unfold LexLess
  constructor
  · rintro (⟨i, u, w, ha, hb, ht, hlt⟩ | ⟨hlen, ht⟩)
    · cases i with
      | zero =>
        simp only [List.getElem?_cons_zero, Option.some.injEq] at ha hb
        subst ha
        subst hb
        exact Or.inl hlt
      | succ i =>
        simp only [List.getElem?_cons_succ] at ha hb
        simp only [List.take_succ_cons, List.cons.injEq] at ht
        exact Or.inr ⟨ht.1, Or.inl ⟨i, u, w, ha, hb, ht.2, hlt⟩⟩
    · simp only [List.length_cons, Nat.add_lt_add_iff_right] at hlen
      simp only [List.length_cons, List.take_succ_cons, List.cons.injEq] at ht
      exact Or.inr ⟨ht.1.symm, Or.inr ⟨hlen, ht.2⟩⟩
  · rintro (hlt | ⟨hxy, ⟨i, u, w, ha, hb, ht, hlt⟩ | ⟨hlen, ht⟩⟩)
    · exact Or.inl ⟨0, x, y, by simp, by simp, rfl, hlt⟩
    · refine Or.inl ⟨i + 1, u, w, by simpa using ha, by simpa using hb, ?_, hlt⟩
      simp only [List.take_succ_cons, hxy, ht]
    · refine Or.inr ⟨by simpa using hlen, ?_⟩
      simp only [List.length_cons, List.take_succ_cons, hxy, ht]

/-- On a linear order, `b` is not below `a` exactly when `a` is below `b` or equal to it. -/
theorem lexLess_not_iff [LinearOrder α] :
    ∀ (a b : List α), ¬ LexLess b a ↔ LexLess a b ∨ a = b := by
  intro a
  induction a with
  | nil =>
    intro b
    simp only [lexLess_nil_right, not_false_eq_true, lexLess_nil_left, true_iff]
    by_cases hb : b = []
    · exact Or.inr hb.symm
    · exact Or.inl hb
  | cons x a ih =>
    intro b
    cases b with
    | nil => simp [lexLess_nil_right, lexLess_nil_left]
    | cons y b =>
      rw [lexLess_cons, lexLess_cons]
      rcases lt_trichotomy x y with h | h | h
      · have h1 : ¬ y < x := not_lt_of_lt h
        have h2 : y ≠ x := ne_of_gt h
        simp [h, h1, h2]
      · subst h
        have := ih b
        simp only [lt_self_iff_false, true_and, false_or, List.cons.injEq]
        exact this
      · have h1 : ¬ x < y := not_lt_of_lt h
        have h2 : x ≠ y := ne_of_gt h
        simp [h, h1, h2]

end lex

/-! ## The comparison operators -/

section comparisons

variable {α : Type}

theorem chain_eq_nil_iff {m : Memory α} (hm : m.WF) {p : Nat} {s : List α} (h : Chain m p s) :
    s = [] ↔ p = 0 := by
  cases s with
  | nil => simpa using h
  | cons x s =>
    obtain ⟨n, hn, _⟩ := h
    simpa using hm.ne_null hn

/-- What `std::lexicographical_compare` returns on two null-terminated chains. -/
theorem lexicographical_compare_chain [LinearOrder α] {m : Memory α} (hm : m.WF) :
    ∀ {s1 s2 : List α} {p1 p2 fuel : Nat}, Chain m p1 s1 → Chain m p2 s2 → s1.length < fuel →
      ∃ r, std_lexicographical_compare fuel m ⟨p1⟩ ⟨0⟩ ⟨p2⟩ ⟨0⟩ = Except.ok r ∧
        (r = true ↔ LexLess s1 s2) := by
  intro s1
  induction s1 with
  | nil =>
    intro s2 p1 p2 fuel h1 h2 hf
    have hp : p1 = 0 := h1
    subst hp
    cases fuel with
    | zero => simp at hf
    | succ fuel =>
      refine ⟨!(p2 == 0), ?_, ?_⟩
      · simp [std_lexicographical_compare, BasicIterator.operator_ne,
          BasicIterator.operator_eq, pure_eq_ok]
      · have hnil := chain_eq_nil_iff hm h2
        rw [lexLess_nil_left]
        simp [hnil]
  | cons x s1 ih =>
    intro s2 p1 p2 fuel h1 h2 hf
    obtain ⟨n1, hn1, hv1, hc1⟩ := h1
    have hp1 : p1 ≠ 0 := hm.ne_null hn1
    cases fuel with
    | zero => simp at hf
    | succ fuel =>
      cases s2 with
      | nil =>
        have hp : p2 = 0 := h2
        subst hp
        refine ⟨false, ?_, by simp [lexLess_nil_right]⟩
        simp [std_lexicographical_compare, BasicIterator.operator_ne,
          BasicIterator.operator_eq, pure_eq_ok, hp1]
      | cons y s2 =>
        obtain ⟨n2, hn2, hv2, hc2⟩ := h2
        have hp2 : p2 ≠ 0 := hm.ne_null hn2
        have hcond : ((BasicIterator.mk p1).operator_ne ⟨0⟩ &&
            (BasicIterator.mk p2).operator_ne ⟨0⟩) = true := by
          simp [BasicIterator.operator_ne, BasicIterator.operator_eq, hp1, hp2]
        have hd1 : (BasicIterator.mk p1).operator_deref m = Except.ok x := by
          rw [operator_deref_eq hn1, hv1]
        have hd2 : (BasicIterator.mk p2).operator_deref m = Except.ok y := by
          rw [operator_deref_eq hn2, hv2]
        have hi1 : (BasicIterator.mk p1).operator_inc m = Except.ok ⟨n1.next_node⟩ :=
          operator_inc_eq hn1
        have hi2 : (BasicIterator.mk p2).operator_inc m = Except.ok ⟨n2.next_node⟩ :=
          operator_inc_eq hn2
        simp only [std_lexicographical_compare, hcond, if_true, hd1, hd2, ok_bind, hi1, hi2,
          pure_eq_ok]
        rw [lexLess_cons]
        rcases lt_trichotomy x y with hxy | hxy | hxy
        · exact ⟨true, by rw [if_pos hxy], by simp [hxy]⟩
        · subst hxy
          obtain ⟨r, hr1, hr2⟩ := ih hc1 hc2 (by simpa using hf)
          refine ⟨r, ?_, by simpa using hr2⟩
          rw [if_neg (lt_irrefl x), if_neg (lt_irrefl x)]
          exact hr1
        · refine ⟨false, by rw [if_neg (not_lt_of_lt hxy), if_pos hxy], ?_⟩
          simp [not_lt_of_lt hxy, ne_of_gt hxy]

/-- What the three-iterator `std::equal` returns on two null-terminated chains: `true` when
the first sequence is a beginning of the second, a read through the null pointer when the
second sequence ends first without a mismatch, `false` otherwise. -/
theorem equal_chain [DecidableEq α] {m : Memory α} (hm : m.WF) :
    ∀ {s1 s2 : List α} {p1 p2 fuel : Nat}, Chain m p1 s1 → Chain m p2 s2 → s1.length < fuel →
      std_equal fuel m ⟨p1⟩ ⟨0⟩ ⟨p2⟩ =
        if s2.take s1.length = s1 then Except.ok true
        else if s1.take s2.length = s2 then Except.error Fault.undefined_behavior
        else Except.ok false := by
  intro s1
  induction s1 with
  | nil =>
    intro s2 p1 p2 fuel h1 h2 hf
    have hp : p1 = 0 := h1
    subst hp
    cases fuel with
    | zero => simp at hf
    | succ fuel =>
      simp [std_equal, BasicIterator.operator_ne, BasicIterator.operator_eq, pure_eq_ok]
  | cons x s1 ih =>
    intro s2 p1 p2 fuel h1 h2 hf
    obtain ⟨n1, hn1, hv1, hc1⟩ := h1
    have hne : (BasicIterator.mk p1).operator_ne ⟨0⟩ = true :=
      (operator_ne_null _).2 (hm.ne_null hn1)
    have hd1 : (BasicIterator.mk p1).operator_deref m = Except.ok x := by
      rw [operator_deref_eq hn1, hv1]
    cases fuel with
    | zero => simp at hf
    | succ fuel =>
      cases s2 with
      | nil =>
        have hp : p2 = 0 := h2
        subst hp
        simp [std_equal, hne, hd1, ok_bind, operator_deref_null hm, error_bind]
      | cons y s2 =>
        obtain ⟨n2, hn2, hv2, hc2⟩ := h2
        have hd2 : (BasicIterator.mk p2).operator_deref m = Except.ok y := by
          rw [operator_deref_eq hn2, hv2]
        have hi1 : (BasicIterator.mk p1).operator_inc m = Except.ok ⟨n1.next_node⟩ :=
          operator_inc_eq hn1
        have hi2 : (BasicIterator.mk p2).operator_inc m = Except.ok ⟨n2.next_node⟩ :=
          operator_inc_eq hn2
        simp only [std_equal, hne, if_true, hd1, hd2, ok_bind, hi1, hi2, pure_eq_ok]
        by_cases hxy : x = y
        · subst hxy
          rw [if_neg (not_not.2 rfl), ih hc1 hc2 (by simpa using hf)]
          simp
        · have hyx : ¬ y = x := fun e => hxy e.symm
          rw [if_pos hxy]
          simp [hxy, hyx]

/-- What `operator<` returns on two well-formed lists. -/
theorem operator_lt_represents [LinearOrder α] {m : Memory α} {a b : SingleLinkedList}
    {sa sb : List α} (ha : Represents m a sa) (hb : Represents m b sb) :
    ∃ r, operator_lt m a b = Except.ok r ∧ (r = true ↔ LexLess sa sb) := by
  obtain ⟨hda, hhda, hca, _⟩ := ha.full_chain
  obtain ⟨hdb, hhdb, hcb, _⟩ := hb.full_chain
  have hea : a.cend = ⟨0⟩ := ha.2.2.2.2
  have heb : b.cend = ⟨0⟩ := hb.2.2.2.2
  have hlen := ha.length_bound
  obtain ⟨r, hr1, hr2⟩ :=
    lexicographical_compare_chain ha.wf hca hcb (show sa.length < m.cells.length by omega)
  refine ⟨r, ?_, hr2⟩
  simp only [operator_lt, begin_eq hhda, begin_eq hhdb, ok_bind, hea, heb]
  exact hr1

/-- What `operator==` returns on two well-formed lists. -/
theorem operator_eq_represents [DecidableEq α] {m : Memory α} {a b : SingleLinkedList}
    {sa sb : List α} (ha : Represents m a sa) (hb : Represents m b sb) :
    operator_eq m a b =
      if sb.take sa.length = sa then Except.ok true
      else if sa.take sb.length = sb then Except.error Fault.undefined_behavior
      else Except.ok false := by
  obtain ⟨hda, hhda, hca, _⟩ := ha.full_chain
  obtain ⟨hdb, hhdb, hcb, _⟩ := hb.full_chain
  have hea : a.cend = ⟨0⟩ := ha.2.2.2.2
  have hlen := ha.length_bound
  simp only [operator_eq, begin_eq hhda, begin_eq hhdb, ok_bind, hea]
  exact equal_chain ha.wf hca hcb (by omega)


/-- C1 (the code departs from the claim): `operator==` hands the three-iterator `std::equal`
only the start of the right-hand list, so lengths are never compared.  For `{1, 2} == {1, 2, 3}`
it returns `true` although the lengths differ, and for `{1, 2, 3} == {1, 2}` it reads through
the null pointer that ends the right-hand list. -/
theorem operator_eq_ignores_length :
    (∃ m a b, twoLists ([1, 2] : List Int) [1, 2, 3] = Except.ok (m, a, b) ∧
      Represents m a [1, 2] ∧ Represents m b [1, 2, 3] ∧
      operator_eq m a b = Except.ok true) ∧
    (∃ m a b, twoLists ([1, 2, 3] : List Int) [1, 2] = Except.ok (m, a, b) ∧
      Represents m a [1, 2, 3] ∧ Represents m b [1, 2] ∧
      operator_eq m a b = Except.error Fault.undefined_behavior) :=
  ⟨⟨_, _, _, rfl, by decide, by decide, rfl⟩, ⟨_, _, _, rfl, by decide, by decide, rfl⟩⟩

/-- C3: on two lists over a totally ordered element type, `a < b` returns `true` exactly when
the sequence of `a` is lexicographically smaller than that of `b` (smaller at the first index
where they differ, or a strict prefix), and returns `false` otherwise.  In particular
`{1, 2} < {1, 2, 3}` and `{1, 2, 3} < {1, 3}` are true and `{1, 2, 3} < {1, 2, 3}` is false. -/
theorem operator_lt_spec [LinearOrder α] (m : Memory α) (a b : SingleLinkedList)
    (sa sb : List α) (ha : Represents m a sa) (hb : Represents m b sb) :
    (∃ r, operator_lt m a b = Except.ok r ∧ (r = true ↔ LexLess sa sb)) ∧
    onLiterals operator_lt ([1, 2] : List Int) [1, 2, 3] = Except.ok true ∧
    onLiterals operator_lt ([1, 2, 3] : List Int) [1, 3] = Except.ok true ∧
    onLiterals operator_lt ([1, 2, 3] : List Int) [1, 2, 3] = Except.ok false :=
  ⟨operator_lt_represents ha hb, rfl, rfl, rfl⟩

theorem operator_lt_spec_witness :
    Represents pairMemory pairFirst [1, 2] ∧ Represents pairMemory pairSecond [1, 2, 3] ∧
    (∃ r, operator_lt pairMemory pairFirst pairSecond = Except.ok r ∧
      (r = true ↔ LexLess ([1, 2] : List Int) [1, 2, 3])) :=
  ⟨by decide, by decide,
    (operator_lt_spec pairMemory pairFirst pairSecond [1, 2] [1, 2, 3]
      (by decide) (by decide)).1⟩

/-- C4: on two lists over a totally ordered element type, `a <= b` returns `true` exactly
when the sequence of `a` is lexicographically less than that of `b` or identical to it,
`a > b` exactly when the sequence of `b` is lexicographically less than that of `a`, and
`a >= b` exactly when the sequence of `a` is lexicographically greater than that of `b` or
identical to it. -/
theorem derived_operators_spec [LinearOrder α] (m : Memory α) (a b : SingleLinkedList)
    (sa sb : List α) (ha : Represents m a sa) (hb : Represents m b sb) :
    (∃ r, operator_le m a b = Except.ok r ∧ (r = true ↔ LexLess sa sb ∨ sa = sb)) ∧
    (∃ r, operator_gt m a b = Except.ok r ∧ (r = true ↔ LexLess sb sa)) ∧
    (∃ r, operator_ge m a b = Except.ok r ∧ (r = true ↔ LexLess sb sa ∨ sa = sb)) := by
  obtain ⟨r1, h1, h1b⟩ := operator_lt_represents ha hb
  obtain ⟨r2, h2, h2b⟩ := operator_lt_represents hb ha
  refine ⟨⟨!r2, ?_, ?_⟩, ⟨r2, h2, h2b⟩, ⟨!r1, ?_, ?_⟩⟩
  · simp only [operator_le, operator_ge, h2, ok_bind, pure_eq_ok]
  · rw [← lexLess_not_iff sa sb, ← h2b]
    simp
  · simp only [operator_ge, h1, ok_bind, pure_eq_ok]
  · have := lexLess_not_iff sb sa
    rw [eq_comm (a := sb)] at this
    rw [← this, ← h1b]
    simp

theorem derived_operators_spec_witness :
    Represents pairMemory pairFirst [1, 2] ∧ Represents pairMemory pairSecond [1, 2, 3] ∧
    (∃ r, operator_le pairMemory pairFirst pairSecond = Except.ok r ∧
      (r = true ↔ LexLess ([1, 2] : List Int) [1, 2, 3] ∨ ([1, 2] : List Int) = [1, 2, 3])) ∧
    (∃ r, operator_gt pairMemory pairFirst pairSecond = Except.ok r ∧
      (r = true ↔ LexLess ([1, 2, 3] : List Int) [1, 2])) ∧
    (∃ r, operator_ge pairMemory pairFirst pairSecond = Except.ok r ∧
      (r = true ↔ LexLess ([1, 2, 3] : List Int) [1, 2] ∨ ([1, 2] : List Int) = [1, 2, 3])) :=
  ⟨by decide, by decide,
    derived_operators_spec pairMemory pairFirst pairSecond [1, 2] [1, 2, 3]
      (by decide) (by decide)⟩

end comparisons

/-! ## Erasing at the front and at the end position -/

section erase_front

variable {α : Type}

/-- C11: on a non-empty list, `EraseAfter(before_begin())` and `PopFront()` leave the same
memory and the same list object, hence the same element sequence (the old one without its
first element) and the same `GetSize()`. -/
theorem EraseAfter_before_begin_eq_PopFront (m : Memory α) (l : SingleLinkedList) (x : α)
    (s : List α) (h : Represents m l (x :: s)) :
    ∃ m2 l2 it, SingleLinkedList.EraseAfter m l l.before_begin = Except.ok (m2, l2, it) ∧
      SingleLinkedList.PopFront m l = Except.ok (m2, l2) ∧
      Represents m2 l2 s ∧ l2.toList m2 = Except.ok s ∧ l2.GetSize + 1 = l.GetSize := by
  have hbb : l.before_begin = ⟨l.head_⟩ := h.2.2.2.1
  obtain ⟨hd, nd, hhd, hnd, h1, h2⟩ := PopFront_represents h
  obtain ⟨pn, pv, hpn, hpv, h3, _, _⟩ :=
    EraseAfter_represents h (k := 0) (q := ⟨l.head_⟩) (by simp) rfl
  have e1 : pn = hd := by
    have : some pn = some hd := by rw [← hpn, ← hhd]
    exact Option.some.inj this
  subst e1
  have e2 : pv = nd := by
    have : some pv = some nd := by rw [← hpv, ← hnd]
    exact Option.some.inj this
  subst e2
  refine ⟨_, _, ⟨pv.next_node⟩, ?_, h1, h2, h2.toList_eq, ?_⟩
  · rw [hbb]
    exact h3
  · have hs : l.size_ = (x :: s).length := h.2.2.1
    show l.size_ - 1 + 1 = l.size_
    rw [hs]
    simp

theorem EraseAfter_before_begin_eq_PopFront_witness :
    Represents sampleMemory sampleList [1, 2, 3] ∧
    ∃ m2 l2 it, SingleLinkedList.EraseAfter sampleMemory sampleList sampleList.before_begin
        = Except.ok (m2, l2, it) ∧
      SingleLinkedList.PopFront sampleMemory sampleList = Except.ok (m2, l2) ∧
      Represents m2 l2 [2, 3] ∧ l2.toList m2 = Except.ok [2, 3] ∧
      l2.GetSize + 1 = sampleList.GetSize :=
  ⟨by decide,
    EraseAfter_before_begin_eq_PopFront sampleMemory sampleList 1 [2, 3] (by decide)⟩

/-- C19: `EraseAfter` called with the end (null) position does not fail: it returns the end
position and hands back the memory and the list object as they were, so the element sequence
and `GetSize()` are unchanged. -/
theorem EraseAfter_end (m : Memory α) (l : SingleLinkedList) (s : List α)
    (h : Represents m l s) :
    SingleLinkedList.EraseAfter m l l.cend = Except.ok (m, l, l.cend) ∧
      l.toList m = Except.ok s ∧ l.GetSize = s.length := by
  have hend : l.cend = ⟨0⟩ := h.2.2.2.2
  refine ⟨?_, h.toList_eq, h.2.2.1⟩
  rw [hend]
  simp [SingleLinkedList.EraseAfter, pure_eq_ok]

theorem EraseAfter_end_witness :
    Represents sampleMemory sampleList [1, 2, 3] ∧
    SingleLinkedList.EraseAfter sampleMemory sampleList sampleList.cend =
      Except.ok (sampleMemory, sampleList, sampleList.cend) ∧
    sampleList.toList sampleMemory = Except.ok [1, 2, 3] ∧ sampleList.GetSize = 3 :=
  ⟨by decide, EraseAfter_end sampleMemory sampleList [1, 2, 3] (by decide)⟩

end erase_front

/-! ## Frames: lists whose cells are left alone -/

section frames

variable {α : Type}

/-- A list is still the same list, at the same addresses, in a memory that has the same
contents in the list's sentinel and nodes. -/
theorem Represents.of_frame {m m2 : Memory α} {l : SingleLinkedList} {s : List α}
    (h : Represents m l s) (hm2 : m2.WF)
    (hf : ∀ k, k ≤ s.length → m2.peek (nthNode m l.head_ k) = m.peek (nthNode m l.head_ k)) :
    Represents m2 l s ∧ ∀ k, k ≤ s.length + 1 → nthNode m2 l.head_ k = nthNode m l.head_ k := by
  obtain ⟨hd, _, _, hc⟩ := h.full_chain
  have hf2 : ∀ k, k < (hd.value :: s).length →
      m2.peek (nthNode m l.head_ k) = m.peek (nthNode m l.head_ k) := by
    intro k hk
    exact hf k (by simp only [List.length_cons] at hk; omega)
  obtain ⟨n, hn, _, hcn⟩ := chain_frame hc hf2
  refine ⟨⟨hm2, ⟨n, hn, hcn⟩, h.2.2.1, h.2.2.2.1, h.2.2.2.2⟩, ?_⟩
  intro k hk
  exact nthNode_frame hc hf2 k (by simp only [List.length_cons]; omega)

/-- The cells of a well-formed list are allocated, so they lie below the end of the memory. -/
theorem Represents.cell_lt {m : Memory α} {l : SingleLinkedList} {s : List α}
    (h : Represents m l s) {k : Nat} (hk : k ≤ s.length) :
    nthNode m l.head_ k < m.cells.length := by
  obtain ⟨n, hn⟩ := h.peek_nth hk
  exact Memory.peek_lt hn

theorem Separate.symm {m : Memory α} {a b : SingleLinkedList} {na nb : Nat}
    (h : Separate m a b na nb) : Separate m b a nb na :=
  fun j hj i hi e => h i hi j hj e.symm

/-- After the first node of a list is unlinked, the later nodes are where they were. -/
theorem unlinkAfter_front_nth {m : Memory α} {l : SingleLinkedList} {x : α} {s : List α}
    (h : Represents m l (x :: s)) {hd nd : Node α} (hhd : m.peek l.head_ = some hd)
    (hnd : m.peek hd.next_node = some nd) {k : Nat} (hk : k ≤ s.length) :
    nthNode (unlinkAfter m l.head_ hd nd) l.head_ (k + 1) = nthNode m l.head_ (k + 2) := by
  obtain ⟨hd2, hhd2, hc0, _⟩ := h.full_chain
  rw [hhd] at hhd2
  have e : hd = hd2 := Option.some.inj hhd2
  subst e
  have hcz : Chain m hd.next_node (x :: s) := hc0
  obtain ⟨nd2, hnd2, _, hc2⟩ := hc0
  rw [hnd] at hnd2
  have e2 : nd = nd2 := Option.some.inj hnd2
  subst e2
  have hne : l.head_ ≠ hd.next_node := by
    have := chain_not_mem h.wf hhd hcz 0 (by simp)
    rw [nthNode_zero] at this
    exact Ne.symm this
  have hpos := unlinkAfter_peek_pos (m := m) hd nd (Memory.peek_lt hhd) hne
  rw [nthNode_succ hpos, nthNode_succ hhd, nthNode_succ hnd]
  apply nthNode_congr
  intro j hj
  apply unlinkAfter_peek_other
  · have := chain_not_mem h.wf hhd hcz (j + 1) (by simp only [List.length_cons]; omega)
    rwa [nthNode_succ hnd] at this
  · exact chain_not_mem h.wf hnd hc2 j (by omega)

end frames

/-! ## Clear -/

section clear

variable {α : Type}

theorem clearLoop_nil {m : Memory α} {l : SingleLinkedList} (h : Represents m l ([] : List α))
    (f : Nat) : SingleLinkedList.clearLoop (f + 1) m l = Except.ok (m, l) := by
  obtain ⟨hd, hhd, hc, _⟩ := h.full_chain
  have hnext : hd.next_node = 0 := hc
  simp only [SingleLinkedList.clearLoop, Memory.load_eq hhd, hnext, ne_eq,
    not_true_eq_false, if_false, ok_bind, pure_eq_ok]

/-- One round of the loop of `Clear` on a non-empty list does what `PopFront` does. -/
theorem clearLoop_cons {m : Memory α} {l : SingleLinkedList} {x : α} {s : List α}
    (h : Represents m l (x :: s)) (f : Nat) :
    ∃ hd nd, m.peek l.head_ = some hd ∧ m.peek hd.next_node = some nd ∧
      SingleLinkedList.clearLoop (f + 1) m l =
        SingleLinkedList.clearLoop f (unlinkAfter m l.head_ hd nd)
          { l with size_ := l.size_ - 1 } ∧
      Represents (unlinkAfter m l.head_ hd nd) { l with size_ := l.size_ - 1 } s := by
  obtain ⟨hd, nd, hhd, hnd, _, h2⟩ := PopFront_represents h
  obtain ⟨_, _, _, hne0⟩ := h.peek_next (k := 0) (by simp) hhd
  have hne : hd.next_node ≠ l.head_ := hne0
  have hnext : hd.next_node ≠ 0 := h.wf.ne_null hnd
  have hsz : (l.size_ + (SIZE_RANGE - 1)) % SIZE_RANGE = l.size_ - 1 := by
    rw [size_dec h (by simp), h.2.2.1]
  have h1 : (Memory.mk (m.cells.set l.head_ (some (Node.mk hd.value nd.next_node)))).peek
      hd.next_node = some nd := by
    rw [Memory.peek_set_ne m _ hne, hnd]
  refine ⟨hd, nd, hhd, hnd, ?_, h2⟩
  simp only [SingleLinkedList.clearLoop, Memory.load_eq hhd, Memory.load_eq hnd, hnext,
    ne_eq, not_false_eq_true, if_true, Memory.store_next_eq hhd,
    Memory.delete_eq h1 hnext, ok_bind, hsz, unlinkAfter]

/-- With enough budget the loop of `Clear` does not depend on the budget. -/
theorem clearLoop_fuel :
    ∀ {s : List α} {m : Memory α} {l : SingleLinkedList} {f g : Nat},
      Represents m l s → s.length < f → s.length < g →
      SingleLinkedList.clearLoop f m l = SingleLinkedList.clearLoop g m l := by
  intro s
  induction s with
  | nil =>
    intro m l f g h hf hg
    obtain ⟨f2, rfl⟩ : ∃ f2, f = f2 + 1 := ⟨f - 1, by simp at hf; omega⟩
    obtain ⟨g2, rfl⟩ : ∃ g2, g = g2 + 1 := ⟨g - 1, by simp at hg; omega⟩
    rw [clearLoop_nil h, clearLoop_nil h]
  | cons x s ih =>
    intro m l f g h hf hg
    obtain ⟨f2, rfl⟩ : ∃ f2, f = f2 + 1 := ⟨f - 1, by simp at hf; omega⟩
    obtain ⟨g2, rfl⟩ : ∃ g2, g = g2 + 1 := ⟨g - 1, by simp at hg; omega⟩
    obtain ⟨hd, nd, hhd, hnd, e1, h2⟩ := clearLoop_cons h f2
    obtain ⟨hd2, nd2, hhd2, hnd2, e2, _⟩ := clearLoop_cons h g2
    rw [hhd] at hhd2
    have e : hd = hd2 := Option.some.inj hhd2
    subst e
    rw [hnd] at hnd2
    have e3 : nd = nd2 := Option.some.inj hnd2
    subst e3
    rw [e1, e2]
    exact ih h2 (by simpa using hf) (by simpa using hg)

/-- The loop of `Clear` stops after one test per node and one more, leaves an empty list and
touches only the cells of the list. -/
theorem clearLoop_represents :
    ∀ {s : List α} {m : Memory α} {l : SingleLinkedList} {f : Nat},
      Represents m l s → s.length < f →
      ∃ m2 l2, SingleLinkedList.clearLoop f m l = Except.ok (m2, l2) ∧
        Represents m2 l2 ([] : List α) ∧ l2.head_ = l.head_ ∧ l2.size_ = 0 ∧
        m2.cells.length = m.cells.length ∧
        (∀ p, (∀ k, k ≤ s.length → p ≠ nthNode m l.head_ k) → m2.peek p = m.peek p) := by
  intro s
  induction s with
  | nil =>
    intro m l f h hf
    obtain ⟨f2, rfl⟩ : ∃ f2, f = f2 + 1 := ⟨f - 1, by simp at hf; omega⟩
    exact ⟨m, l, clearLoop_nil h f2, h, rfl, h.2.2.1, rfl, fun _ _ => rfl⟩
  | cons x s ih =>
    intro m l f h hf
    obtain ⟨f2, rfl⟩ : ∃ f2, f = f2 + 1 := ⟨f - 1, by simp at hf; omega⟩
    obtain ⟨hd, nd, hhd, hnd, e0, h2⟩ := clearLoop_cons h f2
    obtain ⟨m2, l2, e1, e2, e3, e4, e5, e6⟩ := ih (f := f2) h2 (by simpa using hf)
    refine ⟨m2, l2, by rw [e0]; exact e1, e2, e3, e4, by rw [e5, unlinkAfter_length], ?_⟩
    intro p hp
    have hp0 := hp 0 (Nat.zero_le _)
    have hp1 := hp 1 (by simp)
    rw [nthNode_zero] at hp0
    rw [nthNode_succ hhd, nthNode_zero] at hp1
    rw [e6 p, unlinkAfter_peek_other hd nd hp0 hp1]
    intro k hk
    cases k with
    | zero => rw [nthNode_zero]; exact hp0
    | succ k =>
      show p ≠ nthNode (unlinkAfter m l.head_ hd nd) l.head_ (k + 1)
      rw [unlinkAfter_front_nth h hhd hnd (by omega)]
      exact hp (k + 2) (by simp only [List.length_cons]; omega)

theorem Clear_represents {m : Memory α} {l : SingleLinkedList} {s : List α}
    (h : Represents m l s) :
    ∃ m2 l2, SingleLinkedList.Clear m l = Except.ok (m2, l2) ∧
      Represents m2 l2 ([] : List α) ∧ l2.head_ = l.head_ ∧ l2.size_ = 0 ∧
      m2.cells.length = m.cells.length ∧
      (∀ p, (∀ k, k ≤ s.length → p ≠ nthNode m l.head_ k) → m2.peek p = m.peek p) := by
  have hb := h.length_bound
  exact clearLoop_represents h (by omega)

/-- C12: on every list `Clear()` terminates (the loop needs one test per node and one more)
and leaves a well-formed list with no elements, `IsEmpty() == true` and `GetSize() == 0`; a
second `Clear()` returns that same state; and the list is usable afterwards: `PushFront(x)`
then gives the one-element list `x`. -/
theorem Clear_spec (m : Memory α) (l : SingleLinkedList) (s : List α) (h : Represents m l s) :
    ∃ m2 l2, SingleLinkedList.Clear m l = Except.ok (m2, l2) ∧
      (∀ fuel, s.length < fuel → SingleLinkedList.clearLoop fuel m l = Except.ok (m2, l2)) ∧
      Represents m2 l2 ([] : List α) ∧ l2.toList m2 = Except.ok [] ∧
      l2.IsEmpty = true ∧ l2.GetSize = 0 ∧
      SingleLinkedList.Clear m2 l2 = Except.ok (m2, l2) ∧
      (∀ x, m2.cells.length < SIZE_RANGE →
        ∃ m3 l3, SingleLinkedList.PushFront m2 l2 x = Except.ok (m3, l3) ∧
          Represents m3 l3 [x] ∧ l3.GetSize = 1) := by
  obtain ⟨m2, l2, h1, h2, _, h4, _, _⟩ := Clear_represents h
  refine ⟨m2, l2, h1, ?_, h2, h2.toList_eq, ?_, h4, ?_, ?_⟩
  · intro fuel hf
    have hb := h.length_bound
    rw [clearLoop_fuel h hf (show s.length < m.cells.length by omega)]
    exact h1
  · simp [SingleLinkedList.IsEmpty, h4]
  · obtain ⟨hd, hhd, hc, _⟩ := h2.full_chain
    have hnext : hd.next_node = 0 := hc
    have hpos : 0 < m2.cells.length := h2.wf.2.1
    unfold SingleLinkedList.Clear
    obtain ⟨f, hf⟩ : ∃ f, m2.cells.length = f + 1 := ⟨m2.cells.length - 1, by omega⟩
    rw [hf]
    exact clearLoop_nil h2 f
  · intro x hroom
    obtain ⟨hd, _, e1, e2⟩ := PushFront_represents h2 hroom x
    refine ⟨_, _, e1, e2, ?_⟩
    show l2.size_ + 1 = 1
    rw [h4]

theorem Clear_spec_witness :
    Represents sampleMemory sampleList [1, 2, 3] ∧
    ∃ m2 l2, SingleLinkedList.Clear sampleMemory sampleList = Except.ok (m2, l2) ∧
      (∀ fuel, 3 < fuel →
        SingleLinkedList.clearLoop fuel sampleMemory sampleList = Except.ok (m2, l2)) ∧
      Represents m2 l2 ([] : List Int) ∧ l2.toList m2 = Except.ok [] ∧
      l2.IsEmpty = true ∧ l2.GetSize = 0 ∧
      SingleLinkedList.Clear m2 l2 = Except.ok (m2, l2) ∧
      (∀ x, m2.cells.length < SIZE_RANGE →
        ∃ m3 l3, SingleLinkedList.PushFront m2 l2 x = Except.ok (m3, l3) ∧
          Represents m3 l3 [x] ∧ l3.GetSize = 1) :=
  ⟨by decide, Clear_spec sampleMemory sampleList [1, 2, 3] (by decide)⟩

end clear

/-! ## The copy constructor -/

section copying

variable {α : Type}

/-- The iterators over the nodes of a chain form an input range that yields its values. -/
theorem listIterator_isRange {m : Memory α} (hm : m.WF) {p : Nat} {s : List α}
    (hc : Chain m p s) :
    IsRange listIterator m m.cells.length (fun k => ⟨nthNode m p k⟩) s where
  ne := by
    intro k hk
    by_cases hks : k = s.length
    · simp [listIterator, BasicIterator.operator_ne, BasicIterator.operator_eq, hks]
    · have hne : nthNode m p k ≠ nthNode m p s.length :=
        fun e => hks (nthNode_inj hm hc hk (Nat.le_refl _) e)
      simp [listIterator, BasicIterator.operator_ne, BasicIterator.operator_eq, hks, hne]
  deref := by
    intro m2 ha k x hx
    have hk : k < s.length := by
      by_contra hge
      rw [List.getElem?_eq_none (Nat.le_of_not_lt hge)] at hx
      cases hx
    obtain ⟨n, hn, hv⟩ := chain_peek hc hk
    have hn2 : m2.peek (BasicIterator.mk (nthNode m p k)).node_ = some n := by
      show m2.peek (nthNode m p k) = some n
      rw [ha _ (Memory.peek_lt hn), hn]
    rw [hv] at hx
    have e : n.value = x := Option.some.inj hx
    show BasicIterator.operator_deref m2 ⟨nthNode m p k⟩ = Except.ok x
    rw [operator_deref_eq hn2, e]
  inc := by
    intro m2 ha k hk
    obtain ⟨n, hn, _⟩ := chain_peek hc hk
    have hn2 : m2.peek (BasicIterator.mk (nthNode m p k)).node_ = some n := by
      show m2.peek (nthNode m p k) = some n
      rw [ha _ (Memory.peek_lt hn), hn]
    show BasicIterator.operator_inc m2 ⟨nthNode m p k⟩ = Except.ok ⟨nthNode m p (k + 1)⟩
    rw [operator_inc_eq hn2, nthNode_step hm hn]

/-- The copy constructor builds, in new cells, a list with the sequence of the original and
leaves the cells that existed before as they were. -/
theorem copy_represents [Inhabited α] {m : Memory α} {a : SingleLinkedList} {s : List α}
    (h : Represents m a s) (hroom : m.cells.length + s.length < SIZE_RANGE) :
    ∃ m2 c, SingleLinkedList.copy m a = Except.ok (m2, c) ∧
      Represents m2 c s ∧ Represents m2 a s ∧ Agree m m2 m.cells.length ∧
      c.head_ = m.cells.length ∧ m2.cells.length = m.cells.length + s.length + 1 ∧
      (∀ j, j ≤ s.length → m.cells.length ≤ nthNode m2 c.head_ j) := by
  obtain ⟨hd, hhd, hc, _⟩ := h.full_chain
  have hend : a.cend = ⟨0⟩ := h.2.2.2.2
  have hb := h.length_bound
  have hlast : nthNode m hd.next_node s.length = 0 := by
    have := chain_nth hc (Nat.le_refl s.length)
    rwa [List.drop_length] at this
  obtain ⟨m2, c, e1, e2, e3, e4, e5, e6⟩ :=
    range_represents h.wf (listIterator_isRange h.wf hc) hroom
      (show s.length < m.cells.length by omega)
  refine ⟨m2, c, ?_, e2, h.of_agree e2.wf e3, e3, e4, e5, e6⟩
  simp only [SingleLinkedList.copy, begin_eq hhd, ok_bind, hend]
  simp only [nthNode_zero, hlast] at e1
  exact e1

/-- A list built by the range constructor owns cells different from those of every list that
existed before. -/
theorem range_separate [Inhabited α] {I : Type} {ops : InputIterator α I} {m : Memory α}
    {its : Nat → I} {v : List α} {a : SingleLinkedList} {sa : List α}
    (ha : Represents m a sa) (hr : IsRange ops m m.cells.length its v)
    (hroom : m.cells.length + v.length < SIZE_RANGE) {f : Nat} (hf : v.length < f) :
    ∃ m2 l2, SingleLinkedList.range ops f m (its 0) (its v.length) = Except.ok (m2, l2) ∧
      Represents m2 l2 v ∧ Represents m2 a sa ∧ Separate m2 a l2 sa.length v.length := by
  obtain ⟨m2, l2, e1, e2, e3, _, _, e6⟩ := range_represents ha.wf hr hroom hf
  have hfa : ∀ k, k ≤ sa.length →
      m2.peek (nthNode m a.head_ k) = m.peek (nthNode m a.head_ k) :=
    fun k hk => e3 _ (ha.cell_lt hk)
  obtain ⟨ha2, hna⟩ := ha.of_frame e2.wf hfa
  refine ⟨m2, l2, e1, e2, ha2, ?_⟩
  intro i hi j hj e
  have h1 := ha.cell_lt hi
  have h2 := e6 j hj
  rw [hna i (by omega)] at e
  omega

end copying

/-! ## swap -/

section swapping

variable {α : Type}

theorem swapMemory_peek_other {m : Memory α} {pa pb p : Nat} (na nb : Node α)
    (h1 : p ≠ pa) (h2 : p ≠ pb) : (swapMemory m pa pb na nb).peek p = m.peek p := by
  unfold swapMemory
  rw [Memory.peek_set_ne (Memory.mk (m.cells.set pb _)) _ h1]
  exact Memory.peek_set_ne m _ h2

theorem swapMemory_peek_first {m : Memory α} (pa pb : Nat) (na nb : Node α)
    (hlt : pa < m.cells.length) :
    (swapMemory m pa pb na nb).peek pa = some (Node.mk na.value nb.next_node) := by
  unfold swapMemory
  apply Memory.peek_set_self (Memory.mk (m.cells.set pb _))
  simpa using hlt

theorem swapMemory_peek_second {m : Memory α} (pa pb : Nat) (na nb : Node α)
    (hlt : pb < m.cells.length) (hne : pb ≠ pa) :
    (swapMemory m pa pb na nb).peek pb = some (Node.mk nb.value na.next_node) := by
  unfold swapMemory
  rw [Memory.peek_set_ne (Memory.mk (m.cells.set pb _)) _ hne]
  exact Memory.peek_set_self m _ hlt

theorem swapMemory_length (m : Memory α) (pa pb : Nat) (na nb : Node α) :
    (swapMemory m pa pb na nb).cells.length = m.cells.length := by
  simp [swapMemory]

theorem swap_eq {m : Memory α} (a b : SingleLinkedList) {na nb : Node α}
    (ha : m.peek a.head_ = some na) (hb : m.peek b.head_ = some nb)
    (hne : a.head_ ≠ b.head_) :
    SingleLinkedList.swap m a b =
      Except.ok (swapMemory m a.head_ b.head_ na nb, { a with size_ := b.size_ },
        { b with size_ := a.size_ }) := by
  have h1 : (Memory.mk (m.cells.set b.head_ (some (Node.mk nb.value na.next_node)))).peek
      a.head_ = some na := by
    rw [Memory.peek_set_ne m _ hne, ha]
  simp only [SingleLinkedList.swap, Memory.load_eq ha, Memory.load_eq hb,
    Memory.store_next_eq hb, Memory.store_next_eq h1, ok_bind, pure_eq_ok, swapMemory]

/-- Member `swap` on two lists that own different cells: each list object ends up with the
chain and the size of the other; only the two sentinels are written. -/
theorem swap_represents {m : Memory α} {a b : SingleLinkedList} {sa sb : List α}
    (ha : Represents m a sa) (hb : Represents m b sb)
    (hsep : Separate m a b sa.length sb.length) :
    ∃ na nb, m.peek a.head_ = some na ∧ m.peek b.head_ = some nb ∧
      SingleLinkedList.swap m a b =
        Except.ok (swapMemory m a.head_ b.head_ na nb, { a with size_ := b.size_ },
          { b with size_ := a.size_ }) ∧
      Represents (swapMemory m a.head_ b.head_ na nb) { a with size_ := b.size_ } sb ∧
      Represents (swapMemory m a.head_ b.head_ na nb) { b with size_ := a.size_ } sa ∧
      Separate (swapMemory m a.head_ b.head_ na nb) { a with size_ := b.size_ }
        { b with size_ := a.size_ } sb.length sa.length ∧
      (∀ k, k ≤ sb.length → nthNode (swapMemory m a.head_ b.head_ na nb) a.head_ (k + 1) =
        nthNode m b.head_ (k + 1)) ∧
      (∀ k, k ≤ sa.length → nthNode (swapMemory m a.head_ b.head_ na nb) b.head_ (k + 1) =
        nthNode m a.head_ (k + 1)) := by
  obtain ⟨na, hna, hca, _⟩ := ha.full_chain
  obtain ⟨nb, hnb, hcb, _⟩ := hb.full_chain
  have hne : a.head_ ≠ b.head_ := by
    have := hsep 0 (Nat.zero_le _) 0 (Nat.zero_le _)
    simpa [nthNode_zero] using this
  have hwf : (swapMemory m a.head_ b.head_ na nb).WF :=
    Memory.WF.set (Memory.WF.set ha.wf hb.head_ne_null _) ha.head_ne_null _
  -- the chain of `a` avoids both sentinels, and so does the chain of `b`
  have hfa : ∀ k, k < sa.length →
      (swapMemory m a.head_ b.head_ na nb).peek (nthNode m na.next_node k) =
        m.peek (nthNode m na.next_node k) := by
    intro k hk
    apply swapMemory_peek_other
    · exact chain_not_mem ha.wf hna hca k (Nat.le_of_lt hk)
    · have := hsep (k + 1) (by omega) 0 (Nat.zero_le _)
      rwa [nthNode_succ hna, nthNode_zero] at this
  have hfb : ∀ k, k < sb.length →
      (swapMemory m a.head_ b.head_ na nb).peek (nthNode m nb.next_node k) =
        m.peek (nthNode m nb.next_node k) := by
    intro k hk
    apply swapMemory_peek_other
    · have := hsep 0 (Nat.zero_le _) (k + 1) (by omega)
      rw [nthNode_succ hnb, nthNode_zero] at this
      exact Ne.symm this
    · exact chain_not_mem hb.wf hnb hcb k (Nat.le_of_lt hk)
  have hpa := swapMemory_peek_first (m := m) a.head_ b.head_ na nb (Memory.peek_lt hna)
  have hpb := swapMemory_peek_second (m := m) a.head_ b.head_ na nb (Memory.peek_lt hnb)
    (Ne.symm hne)
  have hna2 : ∀ k, k ≤ sb.length →
      nthNode (swapMemory m a.head_ b.head_ na nb) a.head_ (k + 1) =
        nthNode m b.head_ (k + 1) := by
    intro k hk
    rw [nthNode_succ hpa, nthNode_succ hnb]
    exact nthNode_frame hcb hfb k hk
  have hnb2 : ∀ k, k ≤ sa.length →
      nthNode (swapMemory m a.head_ b.head_ na nb) b.head_ (k + 1) =
        nthNode m a.head_ (k + 1) := by
    intro k hk
    rw [nthNode_succ hpb, nthNode_succ hna]
    exact nthNode_frame hca hfa k hk
  refine ⟨na, nb, hna, hnb, swap_eq a b hna hnb hne, ?_, ?_, ?_, hna2, hnb2⟩
  · exact ⟨hwf, ⟨_, hpa, chain_frame hcb hfb⟩, hb.2.2.1, ha.2.2.2.1, ha.2.2.2.2⟩
  · exact ⟨hwf, ⟨_, hpb, chain_frame hca hfa⟩, ha.2.2.1, hb.2.2.2.1, hb.2.2.2.2⟩
  · intro i hi j hj
    show nthNode (swapMemory m a.head_ b.head_ na nb) a.head_ i ≠
      nthNode (swapMemory m a.head_ b.head_ na nb) b.head_ j
    cases i with
    | zero =>
      cases j with
      | zero => simpa [nthNode_zero] using hne
      | succ j =>
        rw [nthNode_zero, hnb2 j (by omega)]
        have := chain_not_mem ha.wf hna hca j (by omega)
        rw [nthNode_succ hna]
        exact Ne.symm this
    | succ i =>
      cases j with
      | zero =>
        rw [nthNode_zero, hna2 i (by omega), nthNode_succ hnb]
        exact chain_not_mem hb.wf hnb hcb i (by omega)
      | succ j =>
        rw [hna2 i (by omega), hnb2 j (by omega)]
        exact Ne.symm (hsep (j + 1) (by omega) (i + 1) (by omega))


/-- Two memories of the same size that hold the same node at every address are equal. -/
theorem Memory.ext_peek {m m2 : Memory α} (hlen : m2.cells.length = m.cells.length)
    (h : ∀ p, m2.peek p = m.peek p) : m2 = m := by
  cases m with
  | mk c =>
    cases m2 with
    | mk c2 =>
      have hc : c2 = c := by
        apply List.ext_getElem?
        intro n
        have hn := h n
        simp only [Memory.peek_eq] at hn
        simp only at hlen
        by_cases hlt : n < c.length
        · have hlt2 : n < c2.length := by omega
          rw [List.getElem?_eq_getElem hlt, List.getElem?_eq_getElem hlt2] at hn ⊢
          simp only [Option.getD_some] at hn
          rw [hn]
        · rw [List.getElem?_eq_none (by omega), List.getElem?_eq_none (by omega)]
      rw [hc]

/-- Swapping a list with itself changes nothing. -/
theorem swap_self {m : Memory α} {a : SingleLinkedList} {s : List α} (h : Represents m a s) :
    SingleLinkedList.swap m a a = Except.ok (m, a, a) := by
  obtain ⟨na, hna, _⟩ := h.full_chain
  have hlt := Memory.peek_lt hna
  have h1 : (Memory.mk (m.cells.set a.head_ (some (Node.mk na.value na.next_node)))).peek
      a.head_ = some (Node.mk na.value na.next_node) := Memory.peek_set_self m _ hlt
  simp only [SingleLinkedList.swap, Memory.load_eq hna, Memory.store_next_eq hna,
    Memory.store_next_eq h1, ok_bind, pure_eq_ok]
  have hmem : Memory.mk ((m.cells.set a.head_ (some (Node.mk na.value na.next_node))).set
      a.head_ (some (Node.mk na.value na.next_node))) = m := by
    apply Memory.ext_peek
    · simp
    · intro p
      by_cases hp : p = a.head_
      · subst hp
        rw [Memory.peek_set_self (Memory.mk (m.cells.set a.head_ _)) _ (by simpa using hlt),
          hna]
      · rw [Memory.peek_set_ne (Memory.mk (m.cells.set a.head_ _)) _ hp,
          Memory.peek_set_ne m _ hp]
  rw [hmem]

/-- C15: after `swap(a, b)`, by the member or by the free function, on two lists that own
different cells, the list object `a` (still at its own address, with its own `before_begin_`
and `end_`) has the former element sequence and `GetSize()` of `b`, and the list object `b`
those of `a`.  The chains change owner as they are: the nodes of `a` are now the former nodes of
`b`, at the same addresses, and conversely.  No node is allocated or released and no cell
other than the two sentinels is written, so no element is added, removed or reordered.
Swapping a list with itself leaves the memory and the list object as they were. -/
theorem swap_spec (m : Memory α) (a b : SingleLinkedList) (sa sb : List α)
    (ha : Represents m a sa) (hb : Represents m b sb) :
    (Separate m a b sa.length sb.length →
      ∃ m2 a2 b2, SingleLinkedList.swap m a b = Except.ok (m2, a2, b2) ∧
        SLL.swap m a b = Except.ok (m2, a2, b2) ∧
        a2 = { a with size_ := b.size_ } ∧ b2 = { b with size_ := a.size_ } ∧
        a2.head_ = a.head_ ∧ b2.head_ = b.head_ ∧
        Represents m2 a2 sb ∧ Represents m2 b2 sa ∧
        a2.toList m2 = Except.ok sb ∧ b2.toList m2 = Except.ok sa ∧
        a2.GetSize = b.GetSize ∧ b2.GetSize = a.GetSize ∧
        (∀ k, k ≤ sb.length → nthNode m2 a2.head_ (k + 1) = nthNode m b.head_ (k + 1)) ∧
        (∀ k, k ≤ sa.length → nthNode m2 b2.head_ (k + 1) = nthNode m a.head_ (k + 1)) ∧
        Separate m2 a2 b2 sb.length sa.length ∧
        m2.cells.length = m.cells.length ∧
        (∀ p, p ≠ a.head_ → p ≠ b.head_ → m2.peek p = m.peek p)) ∧
    (SingleLinkedList.swap m a a = Except.ok (m, a, a) ∧
      SLL.swap m a a = Except.ok (m, a, a)) := by
  refine ⟨?_, swap_self ha, swap_self ha⟩
  intro hsep
  obtain ⟨na, nb, _, _, h1, h2, h3, h4, h5, h6⟩ := swap_represents ha hb hsep
  exact ⟨_, _, _, h1, h1, rfl, rfl, rfl, rfl, h2, h3, h2.toList_eq, h3.toList_eq, rfl, rfl,
    h5, h6, h4, swapMemory_length m _ _ na nb,
    fun p hp1 hp2 => swapMemory_peek_other na nb hp1 hp2⟩

theorem swap_spec_witness :
    Represents pairMemory pairFirst [1, 2] ∧ Represents pairMemory pairSecond [1, 2, 3] ∧
    Separate pairMemory pairFirst pairSecond 2 3 ∧
    (∃ m2 a2 b2, SingleLinkedList.swap pairMemory pairFirst pairSecond =
        Except.ok (m2, a2, b2) ∧
      SLL.swap pairMemory pairFirst pairSecond = Except.ok (m2, a2, b2) ∧
      a2 = { pairFirst with size_ := pairSecond.size_ } ∧
      b2 = { pairSecond with size_ := pairFirst.size_ } ∧
      a2.head_ = pairFirst.head_ ∧ b2.head_ = pairSecond.head_ ∧
      Represents m2 a2 [1, 2, 3] ∧ Represents m2 b2 [1, 2] ∧
      a2.toList m2 = Except.ok [1, 2, 3] ∧ b2.toList m2 = Except.ok [1, 2] ∧
      a2.GetSize = pairSecond.GetSize ∧ b2.GetSize = pairFirst.GetSize ∧
      (∀ k, k ≤ 3 → nthNode m2 a2.head_ (k + 1) = nthNode pairMemory pairSecond.head_ (k + 1)) ∧
      (∀ k, k ≤ 2 → nthNode m2 b2.head_ (k + 1) = nthNode pairMemory pairFirst.head_ (k + 1)) ∧
      Separate m2 a2 b2 3 2 ∧
      m2.cells.length = pairMemory.cells.length ∧
      (∀ p, p ≠ pairFirst.head_ → p ≠ pairSecond.head_ → m2.peek p = pairMemory.peek p)) ∧
    (SingleLinkedList.swap pairMemory pairFirst pairFirst =
        Except.ok (pairMemory, pairFirst, pairFirst) ∧
      SLL.swap pairMemory pairFirst pairFirst = Except.ok (pairMemory, pairFirst, pairFirst)) :=
  ⟨by decide, by decide, by decide,
    (swap_spec pairMemory pairFirst pairSecond [1, 2] [1, 2, 3]
      (by decide) (by decide)).1 (by decide),
    (swap_spec pairMemory pairFirst pairSecond [1, 2] [1, 2, 3]
      (by decide) (by decide)).2⟩

/-- C16: `swap(a, b)` followed by `swap(a, b)`, on two lists that own different cells, gives
back the memory and the two list objects exactly as they were, so both lists have their
original element sequences and sizes; the same holds when a list is swapped with itself
twice. -/
theorem swap_involution (m : Memory α) (a b : SingleLinkedList) (sa sb : List α)
    (ha : Represents m a sa) (hb : Represents m b sb) :
    (Separate m a b sa.length sb.length →
      ∃ m1 a1 b1, SLL.swap m a b = Except.ok (m1, a1, b1) ∧
        SLL.swap m1 a1 b1 = Except.ok (m, a, b) ∧
        a.toList m = Except.ok sa ∧ b.toList m = Except.ok sb ∧
        a.GetSize = sa.length ∧ b.GetSize = sb.length) ∧
    (∃ m1 a1 b1, SLL.swap m a a = Except.ok (m1, a1, b1) ∧
        SLL.swap m1 a1 b1 = Except.ok (m, a, a) ∧ a.toList m = Except.ok sa) := by
  refine ⟨?_, m, a, a, swap_self ha, swap_self ha, ha.toList_eq⟩
  intro hsep
  obtain ⟨na, nb, hna, hnb, h1, h2, h3, _⟩ := swap_represents ha hb hsep
  have hne : a.head_ ≠ b.head_ := by
    have := hsep 0 (Nat.zero_le _) 0 (Nat.zero_le _)
    simpa [nthNode_zero] using this
  have hpa := swapMemory_peek_first (m := m) a.head_ b.head_ na nb (Memory.peek_lt hna)
  have hpb := swapMemory_peek_second (m := m) a.head_ b.head_ na nb (Memory.peek_lt hnb)
    (Ne.symm hne)
  refine ⟨_, _, _, h1, ?_, ha.toList_eq, hb.toList_eq, ha.2.2.1, hb.2.2.1⟩
  have h4 := swap_eq (m := swapMemory m a.head_ b.head_ na nb) { a with size_ := b.size_ }
    { b with size_ := a.size_ } hpa hpb hne
  show SingleLinkedList.swap _ _ _ = _
  rw [h4]
  have hmem : swapMemory (swapMemory m a.head_ b.head_ na nb) a.head_ b.head_
      (Node.mk na.value nb.next_node) (Node.mk nb.value na.next_node) = m := by
    apply Memory.ext_peek
    · rw [swapMemory_length, swapMemory_length]
    · intro p
      by_cases hp1 : p = a.head_
      · subst hp1
        rw [swapMemory_peek_first _ _ _ _ (by rw [swapMemory_length]; exact Memory.peek_lt hna),
          hna]
      · by_cases hp2 : p = b.head_
        · subst hp2
          rw [swapMemory_peek_second _ _ _ _ (by rw [swapMemory_length]; exact Memory.peek_lt hnb)
            (Ne.symm hne), hnb]
        · rw [swapMemory_peek_other _ _ hp1 hp2, swapMemory_peek_other _ _ hp1 hp2]
  rw [hmem]

theorem swap_involution_witness :
    Represents pairMemory pairFirst [1, 2] ∧ Represents pairMemory pairSecond [1, 2, 3] ∧
    Separate pairMemory pairFirst pairSecond 2 3 ∧
    (∃ m1 a1 b1, SLL.swap pairMemory pairFirst pairSecond = Except.ok (m1, a1, b1) ∧
      SLL.swap m1 a1 b1 = Except.ok (pairMemory, pairFirst, pairSecond) ∧
      pairFirst.toList pairMemory = Except.ok [1, 2] ∧
      pairSecond.toList pairMemory = Except.ok [1, 2, 3] ∧
      pairFirst.GetSize = 2 ∧ pairSecond.GetSize = 3) ∧
    (∃ m1 a1 b1, SLL.swap pairMemory pairFirst pairFirst = Except.ok (m1, a1, b1) ∧
      SLL.swap m1 a1 b1 = Except.ok (pairMemory, pairFirst, pairFirst) ∧
      pairFirst.toList pairMemory = Except.ok [1, 2]) :=
  ⟨by decide, by decide, by decide,
    (swap_involution pairMemory pairFirst pairSecond [1, 2] [1, 2, 3]
      (by decide) (by decide)).1 (by decide),
    (swap_involution pairMemory pairFirst pairSecond [1, 2] [1, 2, 3]
      (by decide) (by decide)).2⟩

end swapping

/-! ## Copy assignment -/

section assignment

variable {α : Type}

/-- The destructor releases the nodes and the sentinel of a list and touches no other cell. -/
theorem destroy_represents {m : Memory α} {l : SingleLinkedList} {s : List α}
    (h : Represents m l s) :
    ∃ m3, SingleLinkedList.destroy m l = Except.ok m3 ∧ m3.WF ∧
      m3.cells.length = m.cells.length ∧
      (∀ p, (∀ k, k ≤ s.length → p ≠ nthNode m l.head_ k) → m3.peek p = m.peek p) := by
  obtain ⟨m2, l2, e1, e2, e3, _, e5, e6⟩ := Clear_represents h
  obtain ⟨hd, hhd, _⟩ := e2.full_chain
  refine ⟨Memory.mk (m2.cells.set l2.head_ none), ?_, Memory.WF.set e2.wf e2.head_ne_null _,
    by simpa using e5, ?_⟩
  · simp only [SingleLinkedList.destroy, e1, ok_bind, Memory.delete_eq hhd e2.head_ne_null]
  · intro p hp
    have hp0 := hp 0 (Nat.zero_le _)
    rw [nthNode_zero, ← e3] at hp0
    rw [Memory.peek_set_ne m2 _ hp0]
    exact e6 p hp

/-- Copy assignment `a = b` when both are well-formed lists (`b` may be `a` itself): `a` ends
up with the sequence of `b`, and only the cells of `a` and new cells are written. -/
theorem operator_assign_represents [Inhabited α] {m : Memory α} {a b : SingleLinkedList}
    {sa sb : List α} (ha : Represents m a sa) (hb : Represents m b sb)
    (hroom : m.cells.length + sb.length < SIZE_RANGE) :
    ∃ m3 a3, SingleLinkedList.operator_assign m a b = Except.ok (m3, a3) ∧
      Represents m3 a3 sb ∧ a3 = { a with size_ := sb.length } ∧
      (∀ p, p < m.cells.length → (∀ k, k ≤ sa.length → p ≠ nthNode m a.head_ k) →
        m3.peek p = m.peek p) ∧
      (∀ k, k + 1 ≤ sb.length → m.cells.length ≤ nthNode m3 a.head_ (k + 1)) := by
  -- the copy
  obtain ⟨m1, t, c1, c2, _, c4, c5, c6, c7⟩ := copy_represents hb hroom
  have hfa : ∀ k, k ≤ sa.length →
      m1.peek (nthNode m a.head_ k) = m.peek (nthNode m a.head_ k) :=
    fun k hk => c4 _ (ha.cell_lt hk)
  obtain ⟨ha1, hna1⟩ := ha.of_frame c2.wf hfa
  have hsep : Separate m1 a t sa.length sb.length := by
    intro i hi j hj e
    have h1 := ha.cell_lt hi
    have h2 := c7 j hj
    rw [hna1 i (by omega)] at e
    omega
  -- the swap
  obtain ⟨na, nt, hna, hnt, s1, s2, s3, s4, s5, s6⟩ := swap_represents ha1 c2 hsep
  -- the destructor of the temporary
  obtain ⟨m3, d1, d2, _, d4⟩ := destroy_represents s3
  have hfin0 := s2.of_frame d2 (fun k hk => d4 _ (fun j hj => s4 k hk j hj))
  have hfin : Represents m3 { a with size_ := t.size_ } sb := hfin0.1
  refine ⟨m3, { a with size_ := t.size_ }, ?_, hfin, ?_, ?_, ?_⟩
  · simp only [SingleLinkedList.operator_assign, c1, ok_bind, s1, d1, pure_eq_ok]
  · rw [c2.2.2.1]
  · intro p hp hpa
    have hp1 : p ≠ a.head_ := by
      have := hpa 0 (Nat.zero_le _)
      rwa [nthNode_zero] at this
    have hp2 : p ≠ t.head_ := by rw [c5]; omega
    rw [d4 p, swapMemory_peek_other na nt hp1 hp2, c4 p hp]
    intro k hk
    show p ≠ nthNode (swapMemory m1 a.head_ t.head_ na nt) t.head_ k
    cases k with
    | zero => rw [nthNode_zero]; exact hp2
    | succ k =>
      rw [s6 k (by omega), hna1 (k + 1) (by omega)]
      exact hpa (k + 1) (by omega)
  · intro k hk
    have e1 : nthNode m3 a.head_ (k + 1) =
        nthNode (swapMemory m1 a.head_ t.head_ na nt) a.head_ (k + 1) :=
      hfin0.2 (k + 1) (by omega)
    rw [e1, s5 k (by omega)]
    exact c7 (k + 1) hk

/-- C14: after the copy assignment `a = b` of two lists that own different cells, the list
object `a` (still at its own address; only its `size_` member differs) has exactly the element
sequence and `GetSize()` of `b`, whatever `a` held before; the list object `b` and every one of
its cells are as they were, so `b` still has its sequence and size; and the two lists own
different cells afterwards (the nodes of `a` are new ones).  After the self-assignment `a = a`
the list object `a` is as it was and has the sequence and size it had.  The memory must have
room for the temporary copy. -/
theorem copy_assignment_spec [Inhabited α] (m : Memory α) (a b : SingleLinkedList)
    (sa sb : List α) (ha : Represents m a sa) (hb : Represents m b sb) :
    (Separate m a b sa.length sb.length → m.cells.length + sb.length < SIZE_RANGE →
      ∃ m3 a3, SingleLinkedList.operator_assign m a b = Except.ok (m3, a3) ∧
        a3 = { a with size_ := b.size_ } ∧ a3.head_ = a.head_ ∧
        Represents m3 a3 sb ∧ a3.toList m3 = Except.ok sb ∧ a3.GetSize = b.GetSize ∧
        Represents m3 b sb ∧ b.toList m3 = Except.ok sb ∧ b.GetSize = sb.length ∧
        (∀ k, k ≤ sb.length →
          nthNode m3 b.head_ k = nthNode m b.head_ k ∧
            m3.peek (nthNode m b.head_ k) = m.peek (nthNode m b.head_ k)) ∧
        (∀ k, k + 1 ≤ sb.length → m.cells.length ≤ nthNode m3 a3.head_ (k + 1)) ∧
        Separate m3 a3 b sb.length sb.length) ∧
    (m.cells.length + sa.length < SIZE_RANGE →
      ∃ m3 a3, SingleLinkedList.operator_assign m a a = Except.ok (m3, a3) ∧
        a3 = a ∧
        Represents m3 a3 sa ∧ a3.toList m3 = Except.ok sa ∧ a3.GetSize = a.GetSize) := by
  constructor
  · intro hsep hroom
    obtain ⟨m3, a3, h1, h2, h3, h4, h5⟩ := operator_assign_represents ha hb hroom
    have hfb : ∀ k, k ≤ sb.length →
        m3.peek (nthNode m b.head_ k) = m.peek (nthNode m b.head_ k) := by
      intro k hk
      apply h4 _ (hb.cell_lt hk)
      intro j hj
      exact Ne.symm (hsep j hj k hk)
    obtain ⟨hb3, hnb⟩ := hb.of_frame h2.wf hfb
    have hhead : a3.head_ = a.head_ := by rw [h3]
    have hobj : a3 = { a with size_ := b.size_ } := by rw [h3, hb.2.2.1]
    refine ⟨m3, a3, h1, hobj, hhead, h2, h2.toList_eq, ?_, hb3, hb3.toList_eq, hb.2.2.1,
      fun k hk => ⟨hnb k (by omega), hfb k hk⟩, ?_, ?_⟩
    · show a3.size_ = b.size_
      rw [h2.2.2.1, hb.2.2.1]
    · intro k hk
      rw [hhead]
      exact h5 k hk
    · intro i hi j hj e
      rw [hnb j (by omega), hhead] at e
      have hlt := hb.cell_lt hj
      cases i with
      | zero =>
        rw [nthNode_zero] at e
        have := hsep 0 (Nat.zero_le _) j hj
        rw [nthNode_zero] at this
        exact this e
      | succ i =>
        have := h5 i hi
        omega
  · intro hroom
    obtain ⟨m3, a3, h1, h2, h3, _⟩ := operator_assign_represents ha ha hroom
    have hobj : a3 = a := by
      rw [h3, ← ha.2.2.1]
    refine ⟨m3, a3, h1, hobj, h2, h2.toList_eq, ?_⟩
    show a3.size_ = a.size_
    rw [h2.2.2.1, ha.2.2.1]

theorem copy_assignment_spec_witness :
    Represents pairMemory pairFirst [1, 2] ∧ Represents pairMemory pairSecond [1, 2, 3] ∧
    Separate pairMemory pairFirst pairSecond 2 3 ∧
    (∃ m3 a3, SingleLinkedList.operator_assign pairMemory pairFirst pairSecond =
        Except.ok (m3, a3) ∧
      a3 = { pairFirst with size_ := pairSecond.size_ } ∧ a3.head_ = pairFirst.head_ ∧
      Represents m3 a3 [1, 2, 3] ∧ a3.toList m3 = Except.ok [1, 2, 3] ∧
      a3.GetSize = pairSecond.GetSize ∧
      Represents m3 pairSecond [1, 2, 3] ∧ pairSecond.toList m3 = Except.ok [1, 2, 3] ∧
      pairSecond.GetSize = 3 ∧
      (∀ k, k ≤ 3 →
        nthNode m3 pairSecond.head_ k = nthNode pairMemory pairSecond.head_ k ∧
          m3.peek (nthNode pairMemory pairSecond.head_ k) =
            pairMemory.peek (nthNode pairMemory pairSecond.head_ k)) ∧
      (∀ k, k + 1 ≤ 3 → pairMemory.cells.length ≤ nthNode m3 a3.head_ (k + 1)) ∧
      Separate m3 a3 pairSecond 3 3) ∧
    (∃ m3 a3, SingleLinkedList.operator_assign pairMemory pairFirst pairFirst =
        Except.ok (m3, a3) ∧
      a3 = pairFirst ∧
      Represents m3 a3 [1, 2] ∧ a3.toList m3 = Except.ok [1, 2] ∧
      a3.GetSize = pairFirst.GetSize) :=
  ⟨by decide, by decide, by decide,
    (copy_assignment_spec pairMemory pairFirst pairSecond [1, 2] [1, 2, 3]
      (by decide) (by decide)).1 (by decide) (by decide),
    (copy_assignment_spec pairMemory pairFirst pairSecond [1, 2] [1, 2, 3]
      (by decide) (by decide)).2 (by decide)⟩

end assignment

/-! ## The queries -/

section queries

variable {α : Type}

/-- C17: on a well-formed list (what the constructors build and the operations keep),
`begin()` returns, and `IsEmpty()` is true iff `GetSize() == 0` iff `begin() == end()` iff the
element sequence is empty; when the list is not empty `begin()` refers to the first element.
The four queries only read: their embeddings return a value and no new state, and the list
observed after calling them has the same sequence and size. -/
theorem queries_spec (m : Memory α) (l : SingleLinkedList) (s : List α)
    (h : Represents m l s) :
    ∃ first, l.begin m = Except.ok first ∧
      (l.IsEmpty = true ↔ l.GetSize = 0) ∧
      (l.GetSize = 0 ↔ first.operator_eq l.cend = true) ∧
      (first.operator_eq l.cend = true ↔ s = []) ∧
      (∀ x t, s = x :: t → RefersTo m l first 0 ∧ first.operator_deref m = Except.ok x) ∧
      (do
        let _ ← (pure l.GetSize : Exec Nat)
        let _ ← (pure l.IsEmpty : Exec Bool)
        let _ ← l.begin m
        let _ ← (pure l.cend : Exec BasicIterator)
        let r ← l.toList m
        pure (r, l.GetSize)) = Except.ok (s, s.length) := by
  obtain ⟨hd, hhd, hc, _⟩ := h.full_chain
  have hend : l.cend = ⟨0⟩ := h.2.2.2.2
  have hs : l.size_ = s.length := h.2.2.1
  have hnil := chain_eq_nil_iff h.wf hc
  refine ⟨⟨hd.next_node⟩, begin_eq hhd, ?_, ?_, ?_, ?_, ?_⟩
  · simp [SingleLinkedList.IsEmpty, SingleLinkedList.GetSize]
  · rw [hend]
    simp only [SingleLinkedList.GetSize, BasicIterator.operator_eq, beq_iff_eq, hs,
      List.length_eq_zero]
    exact hnil
  · rw [hend]
    simp only [BasicIterator.operator_eq, beq_iff_eq]
    exact hnil.symm
  · intro x t hst
    subst hst
    obtain ⟨n, hn, hv, _⟩ := hc
    refine ⟨(refersTo_iff h _ 0).2 ⟨by simp, ?_⟩, ?_⟩
    · rw [nthNode_succ hhd, nthNode_zero]
    · have hde : (BasicIterator.mk hd.next_node).operator_deref m = Except.ok n.value :=
        operator_deref_eq hn
      rw [hde, hv]
  · simp only [pure_eq_ok, ok_bind, begin_eq hhd, h.toList_eq, SingleLinkedList.GetSize, hs]

theorem queries_spec_witness :
    Represents sampleMemory sampleList [1, 2, 3] ∧
    ∃ first, sampleList.begin sampleMemory = Except.ok first ∧
      (sampleList.IsEmpty = true ↔ sampleList.GetSize = 0) ∧
      (sampleList.GetSize = 0 ↔ first.operator_eq sampleList.cend = true) ∧
      (first.operator_eq sampleList.cend = true ↔ ([1, 2, 3] : List Int) = []) ∧
      (∀ x t, ([1, 2, 3] : List Int) = x :: t →
        RefersTo sampleMemory sampleList first 0 ∧
          first.operator_deref sampleMemory = Except.ok x) ∧
      (do
        let _ ← (pure sampleList.GetSize : Exec Nat)
        let _ ← (pure sampleList.IsEmpty : Exec Bool)
        let _ ← sampleList.begin sampleMemory
        let _ ← (pure sampleList.cend : Exec BasicIterator)
        let r ← sampleList.toList sampleMemory
        pure (r, sampleList.GetSize)) = Except.ok (([1, 2, 3] : List Int), 3) :=
  ⟨by decide, queries_spec sampleMemory sampleList [1, 2, 3] (by decide)⟩

end queries

/-! ## The size invariant -/

section size_invariant

variable {α : Type}

/-- Counting along a chain gives the number of its values. -/
theorem countFrom_chain {m : Memory α} (hm : m.WF) :
    ∀ {s : List α} {p fuel : Nat}, Chain m p s → s.length < fuel →
      countFrom fuel m p = Except.ok s.length := by
  intro s
  induction s with
  | nil =>
    intro p fuel hs hf
    have hp : p = 0 := hs
    subst hp
    cases fuel with
    | zero => simp at hf
    | succ fuel => simp [countFrom, pure_eq_ok]
  | cons x s ih =>
    intro p fuel hs hf
    obtain ⟨n, hn, _, hc⟩ := hs
    cases fuel with
    | zero => simp at hf
    | succ fuel =>
      simp only [countFrom, hm.ne_null hn, if_false, Memory.load_eq hn, ok_bind,
        ih hc (by simpa using hf), pure_eq_ok, List.length_cons]

/-- A well-formed list satisfies the size invariant. -/
theorem Represents.sizeInvariant {m : Memory α} {l : SingleLinkedList} {s : List α}
    (h : Represents m l s) : WellFormed m l ∧ SizeInvariant m l := by
  obtain ⟨hd, hhd, hc, _⟩ := h.full_chain
  have hb := h.length_bound
  refine ⟨⟨s, h⟩, ?_⟩
  simp only [SizeInvariant, SingleLinkedList.countNodes, Memory.load_eq hhd, ok_bind,
    countFrom_chain h.wf hc (show s.length < m.cells.length by omega), h.2.2.1]

/-- The position argument of `InsertAfter` or `EraseAfter`, as an index counted from the
sentinel. -/
theorem position_index {m : Memory α} {l : SingleLinkedList} {s : List α}
    (h : Represents m l s) {pos : BasicIterator}
    (hpos : pos = l.before_begin ∨ ∃ i, RefersTo m l pos i) :
    ∃ k, k ≤ s.length ∧ pos.node_ = nthNode m l.head_ k ∧
      ((pos = l.before_begin ∧ k = 0) ∨ ∃ i, RefersTo m l pos i ∧ k = i + 1) := by
  rcases hpos with hp | ⟨i, hi⟩
  · refine ⟨0, Nat.zero_le _, ?_, Or.inl ⟨hp, rfl⟩⟩
    rw [hp, nthNode_zero]
    show l.before_begin_.node_ = l.head_
    rw [h.2.2.2.1]
  · obtain ⟨hlt, hn⟩ := (refersTo_iff h pos i).1 hi
    exact ⟨i + 1, hlt, hn, Or.inr ⟨i, hi, rfl⟩⟩


/-- C18: the size invariant (`size_` is the number of real nodes reachable from the sentinel,
the sentinel not counted) holds of the list built by each constructor (default, range,
initializer-list, copy), and each mutating operation (`PushFront`, `PopFront`, `InsertAfter`,
`EraseAfter`, `Clear`, `swap`, copy assignment), run within its precondition on well-formed
lists, returns well-formed lists of which the invariant holds again. -/
theorem size_invariant_spec [Inhabited α] (m : Memory α) (hm : m.WF) :
    (m.cells.length < SIZE_RANGE →
      ∃ m2 l2, SingleLinkedList.default m = Except.ok (m2, l2) ∧
        WellFormed m2 l2 ∧ SizeInvariant m2 l2) ∧
    (∀ (v : List α) (I : Type) (ops : InputIterator α I) (its : Nat → I) (fuel : Nat),
      IsRange ops m m.cells.length its v → v.length < fuel →
      m.cells.length + v.length < SIZE_RANGE →
      ∃ m2 l2, SingleLinkedList.range ops fuel m (its 0) (its v.length) = Except.ok (m2, l2) ∧
        WellFormed m2 l2 ∧ SizeInvariant m2 l2) ∧
    (∀ v : List α, m.cells.length + v.length < SIZE_RANGE →
      ∃ m2 l2, SingleLinkedList.initializer_list m v = Except.ok (m2, l2) ∧
        WellFormed m2 l2 ∧ SizeInvariant m2 l2) ∧
    (∀ (l : SingleLinkedList) (s : List α), Represents m l s →
      (m.cells.length + s.length < SIZE_RANGE →
        ∃ m2 c, SingleLinkedList.copy m l = Except.ok (m2, c) ∧
          WellFormed m2 c ∧ SizeInvariant m2 c) ∧
      (∀ x, m.cells.length < SIZE_RANGE →
        ∃ m2 l2, SingleLinkedList.PushFront m l x = Except.ok (m2, l2) ∧
          WellFormed m2 l2 ∧ SizeInvariant m2 l2) ∧
      (∃ m2 l2, SingleLinkedList.PopFront m l = Except.ok (m2, l2) ∧
          WellFormed m2 l2 ∧ SizeInvariant m2 l2) ∧
      (∀ pos x, (pos = l.before_begin ∨ ∃ i, RefersTo m l pos i) →
        m.cells.length < SIZE_RANGE →
        ∃ m2 l2 it, SingleLinkedList.InsertAfter m l pos x = Except.ok (m2, l2, it) ∧
          WellFormed m2 l2 ∧ SizeInvariant m2 l2) ∧
      (∀ pos, ((pos = l.before_begin ∧ 0 < s.length) ∨
          ∃ i, RefersTo m l pos i ∧ i + 1 < s.length) →
        ∃ m2 l2 it, SingleLinkedList.EraseAfter m l pos = Except.ok (m2, l2, it) ∧
          WellFormed m2 l2 ∧ SizeInvariant m2 l2) ∧
      (∃ m2 l2, SingleLinkedList.Clear m l = Except.ok (m2, l2) ∧
          WellFormed m2 l2 ∧ SizeInvariant m2 l2)) ∧
    (∀ (a b : SingleLinkedList) (sa sb : List α), Represents m a sa → Represents m b sb →
      Separate m a b sa.length sb.length →
      (∃ m2 a2 b2, SingleLinkedList.swap m a b = Except.ok (m2, a2, b2) ∧
          WellFormed m2 a2 ∧ SizeInvariant m2 a2 ∧ WellFormed m2 b2 ∧ SizeInvariant m2 b2) ∧
      (m.cells.length + sb.length < SIZE_RANGE →
        ∃ m3 a3, SingleLinkedList.operator_assign m a b = Except.ok (m3, a3) ∧
          WellFormed m3 a3 ∧ SizeInvariant m3 a3 ∧ WellFormed m3 b ∧ SizeInvariant m3 b)) := by
  refine ⟨?_, ?_, ?_, ?_, ?_⟩
  · intro hroom
    obtain ⟨h1, h2⟩ := default_represents (α := α) hm hroom
    exact ⟨_, _, h1, h2.sizeInvariant⟩
  · intro v I ops its fuel hr hf hroom
    obtain ⟨m2, l2, h1, h2, _⟩ := range_represents hm hr hroom hf
    exact ⟨m2, l2, h1, h2.sizeInvariant⟩
  · intro v hroom
    obtain ⟨m2, l2, h1, h2, _⟩ :=
      range_represents hm (arrayIterator_isRange m m.cells.length v) hroom
        (Nat.lt_succ_self v.length)
    exact ⟨m2, l2, h1, h2.sizeInvariant⟩
  · intro l s h
    refine ⟨?_, ?_, ?_, ?_, ?_, ?_⟩
    · intro hroom
      obtain ⟨m2, c, h1, h2, _⟩ := copy_represents h hroom
      exact ⟨m2, c, h1, h2.sizeInvariant⟩
    · intro x hroom
      obtain ⟨hd, _, h1, h2⟩ := PushFront_represents h hroom x
      exact ⟨_, _, h1, h2.sizeInvariant⟩
    · cases s with
      | nil =>
        obtain ⟨hd, hhd, hc, _⟩ := h.full_chain
        exact ⟨m, l, PopFront_empty_eq l hhd hc, h.sizeInvariant⟩
      | cons x s =>
        obtain ⟨hd, nd, _, _, h1, h2⟩ := PopFront_represents h
        exact ⟨_, _, h1, h2.sizeInvariant⟩
    · intro pos x hpos hroom
      obtain ⟨k, hk, hn, _⟩ := position_index h hpos
      obtain ⟨pn, _, h1, h2, _⟩ := InsertAfter_represents h hroom x hk hn
      exact ⟨_, _, _, h1, h2.sizeInvariant⟩
    · intro pos hpos
      have hidx : ∃ k, k < s.length ∧ pos.node_ = nthNode m l.head_ k := by
        rcases hpos with ⟨hp, hlen⟩ | ⟨i, hi, hlen⟩
        · refine ⟨0, hlen, ?_⟩
          rw [hp, nthNode_zero]
          show l.before_begin_.node_ = l.head_
          rw [h.2.2.2.1]
        · obtain ⟨_, hn⟩ := (refersTo_iff h pos i).1 hi
          exact ⟨i + 1, hlen, hn⟩
      obtain ⟨k, hk, hn⟩ := hidx
      obtain ⟨pn, pv, _, _, h1, h2, _⟩ := EraseAfter_represents h hk hn
      exact ⟨_, _, _, h1, h2.sizeInvariant⟩
    · obtain ⟨m2, l2, h1, h2, _⟩ := Clear_represents h
      exact ⟨m2, l2, h1, h2.sizeInvariant⟩
  · intro a b sa sb ha hb hsep
    refine ⟨?_, ?_⟩
    · obtain ⟨na, nb, _, _, h1, h2, h3, _⟩ := swap_represents ha hb hsep
      exact ⟨_, _, _, h1, h2.sizeInvariant.1, h2.sizeInvariant.2, h3.sizeInvariant⟩
    · intro hroom
      obtain ⟨m3, a3, h1, h2, _, h4, _⟩ := operator_assign_represents ha hb hroom
      have hb3 : Represents m3 b sb := by
        refine (hb.of_frame h2.wf ?_).1
        intro k hk
        apply h4 _ (hb.cell_lt hk)
        intro j hj
        exact Ne.symm (hsep j hj k hk)
      exact ⟨m3, a3, h1, h2.sizeInvariant.1, h2.sizeInvariant.2, hb3.sizeInvariant⟩


theorem size_invariant_spec_witness :
    pairMemory.WF ∧
    (∃ m2 l2, SingleLinkedList.default pairMemory = Except.ok (m2, l2) ∧
      WellFormed m2 l2 ∧ SizeInvariant m2 l2) ∧
    (∃ m2 l2, SingleLinkedList.range (arrayIterator [7, 8]) 3 pairMemory 0 2 =
        Except.ok (m2, l2) ∧ WellFormed m2 l2 ∧ SizeInvariant m2 l2) ∧
    (∃ m2 l2, SingleLinkedList.initializer_list pairMemory [7, 8] = Except.ok (m2, l2) ∧
      WellFormed m2 l2 ∧ SizeInvariant m2 l2) ∧
    Represents pairMemory pairFirst [1, 2] ∧
    (∃ m2 c, SingleLinkedList.copy pairMemory pairFirst = Except.ok (m2, c) ∧
      WellFormed m2 c ∧ SizeInvariant m2 c) ∧
    (∃ m2 l2, SingleLinkedList.PushFront pairMemory pairFirst 0 = Except.ok (m2, l2) ∧
      WellFormed m2 l2 ∧ SizeInvariant m2 l2) ∧
    (∃ m2 l2, SingleLinkedList.PopFront pairMemory pairFirst = Except.ok (m2, l2) ∧
      WellFormed m2 l2 ∧ SizeInvariant m2 l2) ∧
    (∃ m2 l2 it, SingleLinkedList.InsertAfter pairMemory pairFirst ⟨2⟩ 9 =
        Except.ok (m2, l2, it) ∧ WellFormed m2 l2 ∧ SizeInvariant m2 l2) ∧
    (∃ m2 l2 it, SingleLinkedList.EraseAfter pairMemory pairFirst pairFirst.before_begin =
        Except.ok (m2, l2, it) ∧ WellFormed m2 l2 ∧ SizeInvariant m2 l2) ∧
    (∃ m2 l2, SingleLinkedList.Clear pairMemory pairFirst = Except.ok (m2, l2) ∧
      WellFormed m2 l2 ∧ SizeInvariant m2 l2) ∧
    Represents pairMemory pairSecond [1, 2, 3] ∧ Separate pairMemory pairFirst pairSecond 2 3 ∧
    (∃ m2 a2 b2, SingleLinkedList.swap pairMemory pairFirst pairSecond =
        Except.ok (m2, a2, b2) ∧
      WellFormed m2 a2 ∧ SizeInvariant m2 a2 ∧ WellFormed m2 b2 ∧ SizeInvariant m2 b2) ∧
    (∃ m3 a3, SingleLinkedList.operator_assign pairMemory pairFirst pairSecond =
        Except.ok (m3, a3) ∧
      WellFormed m3 a3 ∧ SizeInvariant m3 a3 ∧
      WellFormed m3 pairSecond ∧ SizeInvariant m3 pairSecond) := by
  have t := size_invariant_spec pairMemory (by decide)
  have t1 := t.2.2.2.1 pairFirst [1, 2] (by decide)
  have t2 := t.2.2.2.2 pairFirst pairSecond [1, 2] [1, 2, 3] (by decide) (by decide)
    (by decide)
  exact ⟨by decide, t.1 (by decide),
    t.2.1 [7, 8] Nat (arrayIterator [7, 8]) (fun k => k) 3
      (arrayIterator_isRange pairMemory _ [7, 8]) (by decide) (by decide),
    t.2.2.1 [7, 8] (by decide),
    by decide, t1.1 (by decide), t1.2.1 0 (by decide), t1.2.2.1,
    t1.2.2.2.1 ⟨2⟩ 9 (Or.inr ⟨0, rfl, rfl⟩) (by decide),
    t1.2.2.2.2.1 pairFirst.before_begin (Or.inl ⟨rfl, by decide⟩),
    t1.2.2.2.2.2, by decide, by decide, t2.1, t2.2 (by decide)⟩

end size_invariant

/-! ## The assertions of the range constructor -/

section assertions

variable {α : Type}

/-- With a non-null position `InsertAfter` can only end in a read through a dangling pointer,
in a failed allocation, or in success with the new node at the first unused address. -/
theorem InsertAfter_outcome (m : Memory α) (l : SingleLinkedList) (pos : BasicIterator)
    (x : α) (hpos : pos.node_ ≠ 0) :
    SingleLinkedList.InsertAfter m l pos x = Except.error Fault.undefined_behavior ∨
    SingleLinkedList.InsertAfter m l pos x = Except.error Fault.bad_alloc ∨
    ∃ m2 l2, SingleLinkedList.InsertAfter m l pos x = Except.ok (m2, l2, ⟨m.cells.length⟩) ∧
      m2.cells.length = m.cells.length + 1 := by
  cases hp : m.peek pos.node_ with
  | none =>
    left
    simp only [SingleLinkedList.InsertAfter, hpos, if_false, Memory.load, hp]
    rfl
  | some pn =>
    by_cases hroom : m.cells.length < SIZE_RANGE
    · right
      right
      exact ⟨_, _, InsertAfter_eq l x hpos hp hroom, linkAfter_length m _ pn x⟩
    · right
      left
      simp only [SingleLinkedList.InsertAfter, hpos, if_false, Memory.load_eq hp, Memory.new,
        hroom]
      rfl

theorem arrayIterator_noAssert (v : List α) : NoAssert (arrayIterator v) := by
  constructor
  · intro m it h
    simp only [arrayIterator] at h
    split at h <;> cases h
  · intro m it h
    simp only [arrayIterator] at h
    cases h

theorem listIterator_noAssert : NoAssert (listIterator (α := α)) := by
  constructor
  · intro m it h
    simp only [listIterator, BasicIterator.operator_deref, Memory.load] at h
    split at h <;> cases h
  · intro m it h
    simp only [listIterator, BasicIterator.operator_inc, Memory.load] at h
    split at h <;> cases h

/-- The loop of the range constructor, started with a non-null position, never fails the
assertion of `InsertAfter`: each call returns the non-null position of the node it made. -/
theorem rangeLoop_no_assert {I : Type} {ops : InputIterator α I} (hops : NoAssert ops)
    (last : I) :
    ∀ (fuel : Nat) (m : Memory α) (l : SingleLinkedList) (pos : BasicIterator) (it : I),
      pos.node_ ≠ 0 → 0 < m.cells.length →
      SingleLinkedList.rangeLoop ops last fuel m l pos it ≠
        Except.error Fault.assertion_failed := by
  intro fuel
  induction fuel with
  | zero =>
    intro m l pos it _ _ h
    simp only [SingleLinkedList.rangeLoop] at h
    cases h
  | succ fuel ih =>
    intro m l pos it hpos hlen h
    by_cases hne : ops.ne it last = true
    · simp only [SingleLinkedList.rangeLoop, hne, if_true] at h
      cases hd : ops.deref m it with
      | error e =>
        rw [hd, error_bind] at h
        have he : e = Fault.assertion_failed := Except.error.inj h
        rw [he] at hd
        exact hops.1 m it hd
      | ok x =>
        rw [hd, ok_bind] at h
        rcases InsertAfter_outcome m l pos x hpos with hi | hi | ⟨m2, l2, hi, hlen2⟩
        · rw [hi, error_bind] at h
          cases h
        · rw [hi, error_bind] at h
          cases h
        · rw [hi, ok_bind] at h
          simp only at h
          cases hinc : ops.inc m2 it with
          | error e =>
            rw [hinc, error_bind] at h
            have he : e = Fault.assertion_failed := Except.error.inj h
            rw [he] at hinc
            exact hops.2 m2 it hinc
          | ok it1 =>
            rw [hinc, ok_bind] at h
            exact ih m2 l2 ⟨m.cells.length⟩ it1 (Nat.ne_of_gt hlen) (by omega) h
    · simp only [SingleLinkedList.rangeLoop, hne, pure_eq_ok] at h
      cases h

/-- The range constructor started in a well-formed memory never ends in a failed assertion. -/
theorem range_no_assert [Inhabited α] {m : Memory α} (hm : m.WF) {I : Type}
    {ops : InputIterator α I} (hops : NoAssert ops) (fuel : Nat) (first last : I) :
    SingleLinkedList.range ops fuel m first last ≠ Except.error Fault.assertion_failed := by
  intro h
  by_cases hroom : m.cells.length < SIZE_RANGE
  · obtain ⟨hd1, _⟩ := default_represents (α := α) hm hroom
    have hload : (Memory.mk (m.cells ++ [some ⟨(Inhabited.default : α), 0⟩])).load
        m.cells.length = Except.ok ⟨Inhabited.default, 0⟩ :=
      Memory.load_eq (Memory.peek_append_self m _)
    simp only [SingleLinkedList.range, hd1, ok_bind, hload,
      SingleLinkedList.before_begin] at h
    refine rangeLoop_no_assert hops last fuel
      (Memory.mk (m.cells ++ [some ⟨(Inhabited.default : α), 0⟩]))
      ⟨m.cells.length, 0, ⟨m.cells.length⟩, ⟨0⟩⟩ ⟨m.cells.length⟩ first
      (Nat.ne_of_gt hm.2.1) (by simp) ?_
    simpa using h
  · simp only [SingleLinkedList.range, SingleLinkedList.default, Memory.new, hroom] at h
    cases h


/-- C20: in a well-formed memory neither assertion of the range constructor can fail.  At
entry the new list has `size_ == 0`, no first node, and a non-null `before_begin()`; an
`InsertAfter` that receives a non-null position does not fail its assertion and returns a
non-null position (the new node), which is what the next round of the loop passes on.  Hence
the range constructor never ends in a failed assertion, whatever the iterators (as long as
their own operations do not assert), the budget and the input; this covers the
initializer-list and the copy constructor, and with room in memory the construction
succeeds. -/
theorem range_constructor_assertions [Inhabited α] (m : Memory α) (hm : m.WF) :
    (∀ m0 l0, SingleLinkedList.default m = Except.ok (m0, l0) →
      l0.size_ = 0 ∧ (∃ hd, m0.load l0.head_ = Except.ok hd ∧ hd.next_node = 0) ∧
        l0.before_begin.node_ ≠ 0 ∧ 0 < m0.cells.length) ∧
    (∀ (m1 : Memory α) (l : SingleLinkedList) (pos : BasicIterator) (x : α),
      pos.node_ ≠ 0 → 0 < m1.cells.length →
      SingleLinkedList.InsertAfter m1 l pos x ≠ Except.error Fault.assertion_failed ∧
        ∀ m2 l2 it, SingleLinkedList.InsertAfter m1 l pos x = Except.ok (m2, l2, it) →
          it.node_ ≠ 0 ∧ 0 < m2.cells.length) ∧
    (∀ (I : Type) (ops : InputIterator α I) (fuel : Nat) (first last : I), NoAssert ops →
      SingleLinkedList.range ops fuel m first last ≠ Except.error Fault.assertion_failed) ∧
    (∀ (v : List α) (fuel : Nat),
      SingleLinkedList.range (arrayIterator v) fuel m 0 v.length ≠
        Except.error Fault.assertion_failed) ∧
    (∀ v : List α,
      SingleLinkedList.initializer_list m v ≠ Except.error Fault.assertion_failed) ∧
    (∀ other : SingleLinkedList,
      SingleLinkedList.copy m other ≠ Except.error Fault.assertion_failed) ∧
    (∀ v : List α, m.cells.length + v.length < SIZE_RANGE →
      ∃ m2 l2, SingleLinkedList.initializer_list m v = Except.ok (m2, l2)) := by
  refine ⟨?_, ?_, ?_, ?_, ?_, ?_, ?_⟩
  · intro m0 l0 h
    by_cases hroom : m.cells.length < SIZE_RANGE
    · obtain ⟨hd1, _⟩ := default_represents (α := α) hm hroom
      rw [hd1] at h
      have e := Except.ok.inj h
      have e1 : m0 = Memory.mk (m.cells ++ [some ⟨(Inhabited.default : α), 0⟩]) :=
        (congrArg Prod.fst e).symm
      have e2 : l0 = ⟨m.cells.length, 0, ⟨m.cells.length⟩, ⟨0⟩⟩ := (congrArg Prod.snd e).symm
      subst e1
      subst e2
      refine ⟨rfl, ⟨⟨Inhabited.default, 0⟩, Memory.load_eq (Memory.peek_append_self m _), rfl⟩,
        Nat.ne_of_gt hm.2.1, by simp⟩
    · simp only [SingleLinkedList.default, Memory.new, hroom] at h
      cases h
  · intro m1 l pos x hpos hlen
    rcases InsertAfter_outcome m1 l pos x hpos with hi | hi | ⟨m2, l2, hi, hlen2⟩
    · rw [hi]
      exact ⟨(fun h => by cases h), (fun _ _ _ h => by cases h)⟩
    · rw [hi]
      exact ⟨(fun h => by cases h), (fun _ _ _ h => by cases h)⟩
    · rw [hi]
      refine ⟨(fun h => by cases h), ?_⟩
      intro m3 l3 it h
      have e := Except.ok.inj h
      have e1 : m3 = m2 := (congrArg Prod.fst e).symm
      have e3 : it = ⟨m1.cells.length⟩ := (congrArg (fun r => r.2.2) e).symm
      rw [e1, e3, hlen2]
      exact ⟨Nat.ne_of_gt hlen, by omega⟩
  · intro I ops fuel first last hops
    exact range_no_assert hm hops fuel first last
  · intro v fuel
    exact range_no_assert hm (arrayIterator_noAssert v) fuel 0 v.length
  · intro v
    exact range_no_assert hm (arrayIterator_noAssert v) (v.length + 1) 0 v.length
  · intro other h
    cases hb : other.begin m with
    | error e =>
      simp only [SingleLinkedList.copy, hb, error_bind] at h
      have he : e = Fault.assertion_failed := Except.error.inj h
      rw [he] at hb
      simp only [SingleLinkedList.begin, Memory.load] at hb
      split at hb <;> cases hb
    | ok first =>
      simp only [SingleLinkedList.copy, hb, ok_bind] at h
      exact range_no_assert hm listIterator_noAssert _ _ _ h
  · intro v hroom
    obtain ⟨m2, l2, h1, _⟩ :=
      range_represents hm (arrayIterator_isRange m m.cells.length v) hroom
        (Nat.lt_succ_self v.length)
    exact ⟨m2, l2, h1⟩

theorem range_constructor_assertions_witness :
    (Memory.empty : Memory Int).WF ∧
    SingleLinkedList.range (arrayIterator [1, 2, 3]) 4 (Memory.empty : Memory Int) 0 3 ≠
      Except.error Fault.assertion_failed ∧
    SingleLinkedList.initializer_list (Memory.empty : Memory Int) [1, 2, 3] ≠
      Except.error Fault.assertion_failed ∧
    (∃ m2 l2, SingleLinkedList.initializer_list (Memory.empty : Memory Int) [1, 2, 3] =
      Except.ok (m2, l2)) :=
  ⟨by decide,
    (range_constructor_assertions (Memory.empty : Memory Int) (by decide)).2.2.2.1 [1, 2, 3] 4,
    (range_constructor_assertions (Memory.empty : Memory Int) (by decide)).2.2.2.2.1 [1, 2, 3],
    (range_constructor_assertions (Memory.empty : Memory Int) (by decide)).2.2.2.2.2.2 [1, 2, 3]
      (by decide)⟩

end assertions

/-! ## Independence of a copy -/

section copy_independence

variable {α : Type}

/-- A list is not affected by writes that stay within the cells of a list separate from it
and within cells that did not exist before. -/
theorem Represents.of_separate {m m2 : Memory α} {a c : SingleLinkedList} {sa : List α}
    {n : Nat} (ha : Represents m a sa) (hsep : Separate m a c sa.length n) (hm2 : m2.WF)
    (hf : ∀ p, p < m.cells.length → (∀ j, j ≤ n → p ≠ nthNode m c.head_ j) →
      m2.peek p = m.peek p) :
    Represents m2 a sa :=
  (ha.of_frame hm2 (fun k hk => hf _ (ha.cell_lt hk) (fun j hj => hsep k hk j hj))).1

/-- C13: the copy-constructed list `c` has the element sequence and the `GetSize()` of `a`; it
is a deep copy (its sentinel and nodes are new cells, different from every cell of `a`, and the
construction writes no cell that existed before); and `a` is not affected by a change of `c`:
after `c.PushFront(x)` the list `a` still has its sequence and size while `c` has `x` followed
by that sequence, and `a` likewise keeps its sequence and size after `PopFront`, `InsertAfter`
at any position, `EraseAfter` at any position with a following element, and `Clear` on `c`.
For `a = {1, 2, 3}` and `x = 0` this gives `a = {1, 2, 3}` and `c = {0, 1, 2, 3}`. -/
theorem copy_independent [Inhabited α] (m : Memory α) (a : SingleLinkedList) (s : List α)
    (x : α) (h : Represents m a s) (hroom : m.cells.length + s.length + 1 < SIZE_RANGE) :
    (∃ m1 c, SingleLinkedList.copy m a = Except.ok (m1, c) ∧
      Represents m1 c s ∧ c.toList m1 = Except.ok s ∧ c.GetSize = a.GetSize ∧
      Represents m1 a s ∧ a.toList m1 = Except.ok s ∧
      Separate m1 a c s.length s.length ∧ Agree m m1 m.cells.length ∧
      (∀ j, j ≤ s.length → m.cells.length ≤ nthNode m1 c.head_ j) ∧
      (∃ m2 c2, SingleLinkedList.PushFront m1 c x = Except.ok (m2, c2) ∧
        c2.head_ = c.head_ ∧
        Represents m2 a s ∧ a.toList m2 = Except.ok s ∧ a.GetSize = s.length ∧
        Represents m2 c2 (x :: s) ∧ c2.toList m2 = Except.ok (x :: s) ∧
        c2.GetSize = s.length + 1) ∧
      (∃ m2 c2, SingleLinkedList.PopFront m1 c = Except.ok (m2, c2) ∧
        c2.head_ = c.head_ ∧
        Represents m2 a s ∧ a.toList m2 = Except.ok s ∧ a.GetSize = s.length ∧
        Represents m2 c2 s.tail) ∧
      (∀ pos, (pos = c.before_begin ∨ ∃ i, RefersTo m1 c pos i) →
        ∃ m2 c2 it, SingleLinkedList.InsertAfter m1 c pos x = Except.ok (m2, c2, it) ∧
          c2.head_ = c.head_ ∧
          Represents m2 a s ∧ a.toList m2 = Except.ok s ∧ a.GetSize = s.length ∧
          WellFormed m2 c2 ∧ c2.GetSize = s.length + 1) ∧
      (∀ pos, ((pos = c.before_begin ∧ 0 < s.length) ∨
          ∃ i, RefersTo m1 c pos i ∧ i + 1 < s.length) →
        ∃ m2 c2 it, SingleLinkedList.EraseAfter m1 c pos = Except.ok (m2, c2, it) ∧
          c2.head_ = c.head_ ∧
          Represents m2 a s ∧ a.toList m2 = Except.ok s ∧ a.GetSize = s.length ∧
          WellFormed m2 c2 ∧ c2.GetSize + 1 = s.length) ∧
      (∃ m2 c2, SingleLinkedList.Clear m1 c = Except.ok (m2, c2) ∧
        c2.head_ = c.head_ ∧
        Represents m2 a s ∧ a.toList m2 = Except.ok s ∧ a.GetSize = s.length ∧
        Represents m2 c2 ([] : List α))) ∧
    copyThenPushFront ([1, 2, 3] : List Int) 0 = Except.ok ([1, 2, 3], [0, 1, 2, 3]) := by
  refine ⟨?_, rfl⟩
  obtain ⟨m1, c, e1, e2, e3, e4, e5, e6, e7⟩ := copy_represents h (by omega)
  have hroom1 : m1.cells.length < SIZE_RANGE := by rw [e6]; omega
  have hcs : c.size_ = s.length := e2.2.2.1
  have has : a.size_ = s.length := h.2.2.1
  have hfa : ∀ k, k ≤ s.length →
      m1.peek (nthNode m a.head_ k) = m.peek (nthNode m a.head_ k) :=
    fun k hk => e4 _ (h.cell_lt hk)
  obtain ⟨_, hna⟩ := h.of_frame e2.wf hfa
  have hsep : Separate m1 a c s.length s.length := by
    intro i hi j hj e
    have h1 := h.cell_lt hi
    have h2 := e7 j hj
    rw [hna i (by omega)] at e
    omega
  refine ⟨m1, c, e1, e2, e2.toList_eq, ?_, e3, e3.toList_eq, hsep, e4, e7, ?_, ?_, ?_, ?_, ?_⟩
  · show c.size_ = a.size_
    rw [hcs, has]
  · -- PushFront
    obtain ⟨hd, _, p1, p2⟩ := PushFront_represents e2 hroom1 x
    have ha2 : Represents (linkAfter m1 c.head_ hd x) a s := by
      refine e3.of_separate hsep p2.wf ?_
      intro p hp hne
      have h0 := hne 0 (Nat.zero_le _)
      rw [nthNode_zero] at h0
      exact linkAfter_peek_other hd x hp h0
    refine ⟨_, _, p1, rfl, ha2, ha2.toList_eq, has, p2, p2.toList_eq, ?_⟩
    show c.size_ + 1 = s.length + 1
    rw [hcs]
  · -- PopFront
    cases s with
    | nil =>
      obtain ⟨hd, hhd, hc, _⟩ := e2.full_chain
      exact ⟨m1, c, PopFront_empty_eq c hhd hc, rfl, e3, e3.toList_eq, has, e2⟩
    | cons y t =>
      obtain ⟨hd, nd, hhd, _, q1, q2⟩ := PopFront_represents e2
      have ha2 : Represents (unlinkAfter m1 c.head_ hd nd) a (y :: t) := by
        refine e3.of_separate hsep q2.wf ?_
        intro p _ hne
        have h0 := hne 0 (Nat.zero_le _)
        have h1 := hne 1 (by simp)
        rw [nthNode_zero] at h0
        rw [nthNode_succ hhd, nthNode_zero] at h1
        exact unlinkAfter_peek_other hd nd h0 h1
      exact ⟨_, _, q1, rfl, ha2, ha2.toList_eq, has, q2⟩
  · -- InsertAfter
    intro pos hpos
    obtain ⟨k, hk, hn, _⟩ := position_index e2 hpos
    obtain ⟨pn, _, i1, i2, _⟩ := InsertAfter_represents e2 hroom1 x hk hn
    have ha2 : Represents (linkAfter m1 pos.node_ pn x) a s := by
      refine e3.of_separate hsep i2.wf ?_
      intro p hp hne
      have h0 := hne k hk
      rw [← hn] at h0
      exact linkAfter_peek_other pn x hp h0
    refine ⟨_, _, _, i1, rfl, ha2, ha2.toList_eq, has, ⟨_, i2⟩, ?_⟩
    show c.size_ + 1 = s.length + 1
    rw [hcs]
  · -- EraseAfter
    intro pos hpos
    have hidx : ∃ k, k < s.length ∧ pos.node_ = nthNode m1 c.head_ k := by
      rcases hpos with ⟨hp, hlen⟩ | ⟨i, hi, hlen⟩
      · refine ⟨0, hlen, ?_⟩
        rw [hp, nthNode_zero]
        show c.before_begin_.node_ = c.head_
        rw [e2.2.2.2.1]
      · obtain ⟨_, hn⟩ := (refersTo_iff e2 pos i).1 hi
        exact ⟨i + 1, hlen, hn⟩
    obtain ⟨k, hk, hn⟩ := hidx
    obtain ⟨pn, pv, hpn, _, r1, r2, _⟩ := EraseAfter_represents e2 hk hn
    have hstep : nthNode m1 c.head_ (k + 1) = pn.next_node := by
      rw [hn] at hpn
      exact nthNode_step e2.wf hpn
    have ha2 : Represents (unlinkAfter m1 pos.node_ pn pv) a s := by
      refine e3.of_separate hsep r2.wf ?_
      intro p _ hne
      have h0 := hne k (Nat.le_of_lt hk)
      have h1 := hne (k + 1) hk
      rw [← hn] at h0
      rw [hstep] at h1
      exact unlinkAfter_peek_other pn pv h0 h1
    refine ⟨_, _, _, r1, rfl, ha2, ha2.toList_eq, has, ⟨_, r2⟩, ?_⟩
    show c.size_ - 1 + 1 = s.length
    rw [hcs]
    omega
  · -- Clear
    obtain ⟨m2, c2, k1, k2, k3, _, _, k6⟩ := Clear_represents e2
    have ha2 : Represents m2 a s := by
      refine e3.of_separate hsep k2.wf ?_
      intro p _ hne
      exact k6 p hne
    exact ⟨m2, c2, k1, k3, ha2, ha2.toList_eq, has, k2⟩

theorem copy_independent_witness :
    Represents sampleMemory sampleList [1, 2, 3] ∧
    ∃ m1 c, SingleLinkedList.copy sampleMemory sampleList = Except.ok (m1, c) ∧
      Represents m1 c [1, 2, 3] ∧ c.toList m1 = Except.ok [1, 2, 3] ∧
      c.GetSize = sampleList.GetSize ∧
      Represents m1 sampleList [1, 2, 3] ∧ sampleList.toList m1 = Except.ok [1, 2, 3] ∧
      Separate m1 sampleList c 3 3 ∧ Agree sampleMemory m1 sampleMemory.cells.length ∧
      (∀ j, j ≤ 3 → sampleMemory.cells.length ≤ nthNode m1 c.head_ j) ∧
      (∃ m2 c2, SingleLinkedList.PushFront m1 c 0 = Except.ok (m2, c2) ∧
        c2.head_ = c.head_ ∧
        Represents m2 sampleList [1, 2, 3] ∧ sampleList.toList m2 = Except.ok [1, 2, 3] ∧
        sampleList.GetSize = 3 ∧
        Represents m2 c2 [0, 1, 2, 3] ∧ c2.toList m2 = Except.ok [0, 1, 2, 3] ∧
        c2.GetSize = 3 + 1) ∧
      (∃ m2 c2, SingleLinkedList.PopFront m1 c = Except.ok (m2, c2) ∧
        c2.head_ = c.head_ ∧
        Represents m2 sampleList [1, 2, 3] ∧ sampleList.toList m2 = Except.ok [1, 2, 3] ∧
        sampleList.GetSize = 3 ∧
        Represents m2 c2 [2, 3]) ∧
      (∀ pos, (pos = c.before_begin ∨ ∃ i, RefersTo m1 c pos i) →
        ∃ m2 c2 it, SingleLinkedList.InsertAfter m1 c pos 0 = Except.ok (m2, c2, it) ∧
          c2.head_ = c.head_ ∧
          Represents m2 sampleList [1, 2, 3] ∧ sampleList.toList m2 = Except.ok [1, 2, 3] ∧
          sampleList.GetSize = 3 ∧
          WellFormed m2 c2 ∧ c2.GetSize = 3 + 1) ∧
      (∀ pos, ((pos = c.before_begin ∧ 0 < 3) ∨ ∃ i, RefersTo m1 c pos i ∧ i + 1 < 3) →
        ∃ m2 c2 it, SingleLinkedList.EraseAfter m1 c pos = Except.ok (m2, c2, it) ∧
          c2.head_ = c.head_ ∧
          Represents m2 sampleList [1, 2, 3] ∧ sampleList.toList m2 = Except.ok [1, 2, 3] ∧
          sampleList.GetSize = 3 ∧
          WellFormed m2 c2 ∧ c2.GetSize + 1 = 3) ∧
      (∃ m2 c2, SingleLinkedList.Clear m1 c = Except.ok (m2, c2) ∧
        c2.head_ = c.head_ ∧
        Represents m2 sampleList [1, 2, 3] ∧ sampleList.toList m2 = Except.ok [1, 2, 3] ∧
        sampleList.GetSize = 3 ∧
        Represents m2 c2 ([] : List Int)) :=
  ⟨by decide,
    (copy_independent sampleMemory sampleList [1, 2, 3] 0 (by decide) (by decide)).1⟩

end copy_independence

end SLL
